import Mathlib

/-!
Verification of the eldapo in-memory search core against its specification.

The development shallowly embeds the TypeScript sources:
  * `src/lib/types.ts`       — entry records and card projections
  * `src/lib/access.ts`      — requesters and `canSee`
  * `src/lib/view.ts`        — `toCard`
  * `src/lib/entries.ts`     — cursors and `isAfterCursor`
  * `src/core/keys.ts`       — posting tokens and sort-key comparison
  * `src/lib/filter/ast.ts`, `src/lib/filter/parser.ts` — filter AST and parser
  * `src/lib/filter/compileToSql.ts` — key resolution and SQL compilation
  * `src/core/eval.ts`       — filter evaluation over postings
  * `src/core/index.ts`      — the optimized `InMemoryCoreIndex`
  * the naive `InMemoryCoreIndex` variant (per-doc `canSee` scan)

Modelling conventions:
  * JS strings are Lean `String`s; the JS `<` comparison on strings is the
    lexicographic order on their characters (`LinearOrder String`).
  * `RoaringBitmap32` is a `Finset Nat` (a set of 32-bit doc ids); `clone`,
    `dispose` and the owned/borrowed distinction are memory management with no
    observable effect on values and are dropped.
  * A JS `Map` used as a registry is an association list with first-match
    lookup and JS `Map.set` update semantics (replace in place, else append).
  * The posting maps are modelled extensionally as `String → Finset Nat` with
    "absent" identified with the empty posting: the only observation the core
    makes on these maps is `get` (where a missing posting and an empty posting
    are interchangeable), so deletion of emptied postings is invisible.
  * `performance.now()` timing (`buildMs`) and the `manifest`/`meta` opaque
    blobs are omitted: no modelled operation reads them.
  * Cursor strings are base64url-encoded JSON of `{updated_at, id}`; the
    encoding is an injective boundary transform, so the model keeps cursors in
    their decoded structured form.
-/

set_option maxHeartbeats 1000000

namespace Eldapo

/-! ## String primitives

Character-list implementations of the JS string primitives used by the
source (`toLowerCase`, `trim`, `startsWith`, `endsWith`, `slice`,
`includes`). They are extensionally the standard library's position-based
versions, restated over `String.data` so that concrete proofs reduce. -/

/-- JS `toLowerCase` (ASCII case folding, as stipulated by the spec). -/
def strToLower (s : String) : String := ⟨s.data.map Char.toLower⟩

/-- JS `trim`: drop leading and trailing whitespace. -/
def strTrim (s : String) : String :=
  ⟨((s.data.dropWhile Char.isWhitespace).reverse.dropWhile Char.isWhitespace).reverse⟩

/-- JS `startsWith`. -/
def strStartsWith (s pre : String) : Bool := decide (pre.data <+: s.data)

/-- JS `endsWith`. -/
def strEndsWith (s suffix : String) : Bool := decide (suffix.data <:+ s.data)

/-- JS `slice(n)`. -/
def strDrop (s : String) (n : Nat) : String := ⟨s.data.drop n⟩

/-- Lexicographic comparison on character lists. -/
def listLt : List Char → List Char → Bool
  | [], [] => false
  | [], _ :: _ => true
  | _ :: _, [] => false
  | a :: as, b :: bs =>
    if a < b then true
    else if b < a then false
    else listLt as bs

/-- JS `<` on strings: lexicographic comparison of the character sequences. -/
def strLt (a b : String) : Bool := listLt a.data b.data

instance {ε α : Type} [DecidableEq ε] [DecidableEq α] : DecidableEq (Except ε α) :=
  fun a b =>
    match a, b with
    | .ok x, .ok y =>
      if h : x = y then isTrue (by rw [h])
      else isFalse (by intro hc; cases hc; exact h rfl)
    | .error x, .error y =>
      if h : x = y then isTrue (by rw [h])
      else isFalse (by intro hc; cases hc; exact h rfl)
    | .ok _, .error _ => isFalse (by intro hc; cases hc)
    | .error _, .ok _ => isFalse (by intro hc; cases hc)

/-! ## Data model (src/lib/types.ts) -/

/-- An entry record as held by the core (projection of the store row). -/
structure EntryRecord where
  id : String
  rev : Int
  type : String
  nspace : String
  name : String
  description : String
  version : Option String
  attrs : List (String × List String)
  created_at : String
  updated_at : String
  deriving DecidableEq, Repr

/-- The card projection of an entry. -/
structure CardEntry where
  id : String
  type : String
  name : String
  nspace : String
  rev : Int
  version : Option String
  description : String
  attrs : List (String × List String)
  deriving DecidableEq, Repr

/-- JS object property access `attrs[key]` on the attribute map. -/
def attrsLookup (attrs : List (String × List String)) (key : String) :
    Option (List String) :=
  (attrs.find? (fun p => p.1 = key)).map (·.2)

/-! ## Access control (src/lib/access.ts) -/

/-- A requester: authentication flag, group set, optional subject. -/
structure Requester where
  isAuthenticated : Bool
  groups : Finset String
  subject : Option String
  deriving DecidableEq

/-- Visibility classes. -/
inductive Visibility where
  | pub
  | internal
  | restricted
  deriving DecidableEq, Repr

/-- `readVisibility` (duplicated in src/lib/access.ts and src/core/index.ts):
`attrs.visibility?.[0]`, defaulting to public for any other value. -/
def readVisibility (attrs : List (String × List String)) : Visibility :=
  match (attrsLookup attrs "visibility").bind List.head? with
  | some v =>
    if v = "internal" then .internal
    else if v = "restricted" then .restricted
    else .pub
  | none => .pub

/-- The `allowed_group` attribute values of an entry (`attrs.allowed_group ?? []`). -/
def allowedGroupList (attrs : List (String × List String)) : List String :=
  (attrsLookup attrs "allowed_group").getD []

/-- Per-document visibility check `canSee` from src/lib/access.ts. -/
def canSee (entry : EntryRecord) (requester : Requester) : Bool :=
  match readVisibility entry.attrs with
  | .pub => true
  | .internal => requester.isAuthenticated
  | .restricted =>
    if !requester.isAuthenticated then false
    else
      let allowedGroups := (allowedGroupList entry.attrs).toFinset
      if allowedGroups.card = 0 then false
      else decide (∃ g ∈ requester.groups, g ∈ allowedGroups)

/-! ## Card projection (src/lib/view.ts) -/

def CARD_ATTR_KEYS : List String :=
  ["tag", "capability", "env", "status", "visibility", "endpoint", "auth", "owner"]

/-- The restricted card view of an entry (`toCard`). -/
def toCard (entry : EntryRecord) : CardEntry :=
  { id := entry.id
    type := entry.type
    name := entry.name
    nspace := entry.nspace
    rev := entry.rev
    version := entry.version
    description := entry.description
    attrs := CARD_ATTR_KEYS.filterMap fun key =>
      match attrsLookup entry.attrs key with
      | some value => if value.length > 0 then some (key, value) else none
      | none => none }

/-! ## Cursors (src/lib/entries.ts) -/

/-- A decoded search cursor. -/
structure SearchCursor where
  updated_at : String
  id : String
  deriving DecidableEq, Repr

/-! ## Tokens and sort keys (src/core/keys.ts) -/

inductive CoreKeyScope where
  | top
  | attr
  deriving DecidableEq, Repr

def CoreKeyScope.str : CoreKeyScope → String
  | .top => "top"
  | .attr => "attr"

/-- Equality posting token: `scope ":k:" key NUL "v:" value`. -/
def eqToken (scope : CoreKeyScope) (key value : String) : String :=
  scope.str ++ ":k:" ++ key ++ "\x00" ++ "v:" ++ value

/-- Presence posting token: `scope ":k:" key NUL "*"`. -/
def presentToken (scope : CoreKeyScope) (key : String) : String :=
  scope.str ++ ":k:" ++ key ++ "\x00" ++ "*"

/-- Three-way comparison on `(updated_at, id)` sort keys, descending. -/
def compareSortKeys (aUpdatedAt aId bUpdatedAt bId : String) : Int :=
  if strLt bUpdatedAt aUpdatedAt then -1
  else if strLt aUpdatedAt bUpdatedAt then 1
  else if strLt bId aId then -1
  else if strLt aId bId then 1
  else 0

/-- Cursor predicate `isAfterCursor`: the doc lies strictly after the cursor
in the descending `(updated_at, id)` order. -/
def isAfterCursor (updatedAt id : String) (cursor : SearchCursor) : Bool :=
  if strLt updatedAt cursor.updated_at then true
  else if strLt cursor.updated_at updatedAt then false
  else strLt id cursor.id

/-! ## Filter AST (src/lib/filter/ast.ts) -/

inductive FilterNode where
  | and (children : List FilterNode)
  | or (children : List FilterNode)
  | not (child : FilterNode)
  | eq (key value : String)
  | present (key : String)
  deriving Repr

/-! ## Key resolution (src/lib/filter/compileToSql.ts, src/core/keys.ts) -/

/-- Errors thrown with `code = 'invalid_filter'` by `resolveFilterKey` and
`compileNode` (`invalidFilter(message)` in compileToSql.ts). These carry a
message but, unlike the parser's `InvalidFilterError`, no byte position. -/
structure FilterError where
  code : String
  message : String
  deriving DecidableEq, Repr

def invalidFilter (message : String) : FilterError :=
  { code := "invalid_filter", message := message }

def TOP_LEVEL_KEYS : List String :=
  ["id", "type", "name", "namespace", "version", "rev"]

inductive KeyResolution where
  | top (field : String)
  | attr (key : String)
  deriving DecidableEq, Repr

/-- `resolveFilterKey`: classify a raw filter key as a top-level field or an
attribute key. Throws `invalid_filter` for a bare `attrs.` key. -/
def resolveFilterKey (inputKey : String) : Except FilterError KeyResolution :=
  if strStartsWith inputKey "attrs." then
    let attrKey := strDrop inputKey "attrs.".length
    if attrKey = "" then .error (invalidFilter "Attribute key must not be empty.")
    else .ok (.attr attrKey)
  else if inputKey ∈ TOP_LEVEL_KEYS then .ok (.top inputKey)
  else .ok (.attr inputKey)

structure ResolvedCoreKey where
  scope : CoreKeyScope
  key : String
  deriving DecidableEq, Repr

/-- `resolveCoreKey` (src/core/keys.ts): map a `resolveFilterKey` result to a
posting-token scope and key. -/
def resolveCoreKey (rawKey : String) : Except FilterError ResolvedCoreKey :=
  match resolveFilterKey rawKey with
  | .error e => .error e
  | .ok (.top field) => .ok { scope := .top, key := field }
  | .ok (.attr key) => .ok { scope := .attr, key := key }

/-! ## Filter evaluation (src/core/eval.ts) -/

/-- Evaluation context: posting getter and the universe bitmap. A missing
posting is identified with the empty posting (the source's `null`). -/
structure EvalContext where
  getPosting : String → Finset Nat
  univ : Finset Nat

mutual
/-- Estimated cardinality of a filter node, without evaluating.
For `not`, `Math.max(0, universe - estimate)` is `Nat` truncated subtraction. -/
def estimateCardinality (ctx : EvalContext) : FilterNode → Except FilterError Nat
  | .eq key value =>
    match resolveCoreKey key with
    | .error e => .error e
    | .ok resolved => .ok (ctx.getPosting (eqToken resolved.scope resolved.key value)).card
  | .present key =>
    match resolveCoreKey key with
    | .error e => .error e
    | .ok resolved => .ok (ctx.getPosting (presentToken resolved.scope resolved.key)).card
  | .and [] => .ok 0
  | .and (c :: rest) =>
    match estimateCardinality ctx c, estimateList ctx rest with
    | .ok e, .ok es => .ok (es.foldl min e)
    | .error e, _ => .error e
    | _, .error e => .error e
  | .or children =>
    match estimateList ctx children with
    | .ok es => .ok (es.foldl (· + ·) 0)
    | .error e => .error e
  | .not child =>
    match estimateCardinality ctx child with
    | .ok e => .ok (ctx.univ.card - e)
    | .error e => .error e

/-- Estimated cardinalities of a list of children, left to right. -/
def estimateList (ctx : EvalContext) : List FilterNode → Except FilterError (List Nat)
  | [] => .ok []
  | c :: rest =>
    match estimateCardinality ctx c, estimateList ctx rest with
    | .ok e, .ok es => .ok (e :: es)
    | .error e, _ => .error e
    | _, .error e => .error e
end

/-- AND accumulator loop: intersect in place, breaking once empty. -/
def andLoop (acc : Finset Nat) : List (Finset Nat) → Finset Nat
  | [] => acc
  | b :: rest => if acc = ∅ then acc else andLoop (acc ∩ b) rest

mutual
/-- `evalNode` from src/core/eval.ts (and its clone-based twin in the naive
core variant): both return the same bitmap value; owned/borrowed bookkeeping
and `dispose` are dropped. Child evaluation is pure, so the `and` case
evaluates children in syntactic order and then combines the results in
ascending-estimate order; the short-circuit `break` on an empty accumulator is
kept in `andLoop`. -/
def evalNode (ctx : EvalContext) : FilterNode → Except FilterError (Finset Nat)
  | .eq key value =>
    match resolveCoreKey key with
    | .error e => .error e
    | .ok resolved => .ok (ctx.getPosting (eqToken resolved.scope resolved.key value))
  | .present key =>
    match resolveCoreKey key with
    | .error e => .error e
    | .ok resolved => .ok (ctx.getPosting (presentToken resolved.scope resolved.key))
  | .and [] => .ok ∅
  | .and (c :: cs) =>
    match estimateList ctx (c :: cs), evalList ctx (c :: cs) with
    | .ok es, .ok rs =>
      -- stable ascending sort by estimate, as the source's Array.sort
      match ((rs.zip es).insertionSort (fun a b => a.2 ≤ b.2)).map Prod.fst with
      | [] => .ok ∅
      | b :: rest => .ok (andLoop b rest)
    | .error e, _ => .error e
    | _, .error e => .error e
  | .or children =>
    match evalList ctx children with
    | .ok rs => .ok (rs.foldl (· ∪ ·) ∅)
    | .error e => .error e
  | .not child =>
    match evalNode ctx child with
    | .ok r => .ok (ctx.univ \ r)
    | .error e => .error e

/-- Evaluate a list of children, left to right. -/
def evalList (ctx : EvalContext) : List FilterNode → Except FilterError (List (Finset Nat))
  | [] => .ok []
  | c :: rest =>
    match evalNode ctx c, evalList ctx rest with
    | .ok r, .ok rs => .ok (r :: rs)
    | .error e, _ => .error e
    | _, .error e => .error e
end

/-- `evaluateFilterAst`: entry point of the evaluator. -/
def evaluateFilterAst (ctx : EvalContext) (ast : FilterNode) :
    Except FilterError (Finset Nat) :=
  evalNode ctx ast

/-- The only error the evaluator and estimator can produce: the
`invalid_filter` thrown by `resolveFilterKey` on a bare `attrs.` key. -/
def NUL_KEY_ERROR : FilterError := invalidFilter "Attribute key must not be empty."

/-- The bitmap of a node under a context, defaulting errors to the empty set
(used to state evaluation results positionally). -/
def evalD (ctx : EvalContext) (F : FilterNode) : Finset Nat :=
  match evalNode ctx F with
  | .ok r => r
  | .error _ => ∅

/-- Fold a list of bitmaps by intersection, `none` for the empty list. -/
def interFold (l : List (Finset Nat)) : Option (Finset Nat) :=
  l.foldl (fun acc x => match acc with | none => some x | some a => some (a ∩ x)) none

/-! ## SQL compilation (src/lib/filter/compileToSql.ts) -/

/-- A SQL placeholder parameter: string or number. -/
inductive SqlParam where
  | str (s : String)
  | num (n : Int)
  deriving DecidableEq, Repr

structure CompiledSql where
  sql : String
  params : List SqlParam
  deriving DecidableEq, Repr

/-- The regex test `/^-?\d+$/` used for `rev` values. -/
def isIntegerLiteral (s : String) : Bool :=
  match s.data with
  | [] => false
  | '-' :: rest => !rest.isEmpty && rest.all Char.isDigit
  | l => l.all Char.isDigit

/-- `Number.parseInt` on a string already matching `/^-?\d+$/`. -/
def parseIntegerLiteral (s : String) : Int :=
  match s.data with
  | '-' :: rest => -(Int.ofNat (rest.foldl (fun acc c => acc * 10 + (c.toNat - '0'.toNat)) 0))
  | l => Int.ofNat (l.foldl (fun acc c => acc * 10 + (c.toNat - '0'.toNat)) 0)

/-- `addParam`: push a parameter and return its `$n` placeholder. -/
def addParam (params : List SqlParam) (value : SqlParam) : List SqlParam × String :=
  (params ++ [value], "$" ++ toString (params.length + 1))

/-- Intersperse SQL fragments with a separator (`parts.join(sep)`). -/
def joinSql (sep : String) : List String → String
  | [] => ""
  | [p] => p
  | p :: rest => p ++ sep ++ joinSql sep rest

mutual
/-- `compileNode`: compile an AST node to parameterized SQL, threading the
parameter list through (the source's `addParam` closure). -/
def compileNode (ast : FilterNode) (params : List SqlParam) :
    Except FilterError (String × List SqlParam) :=
  match ast with
  | .and children =>
    if children.isEmpty then .error (invalidFilter "AND filter must contain at least one child.")
    else
      match compileList children params with
      | .ok (parts, params1) => .ok ("(" ++ joinSql " AND " parts ++ ")", params1)
      | .error e => .error e
  | .or children =>
    if children.isEmpty then .error (invalidFilter "OR filter must contain at least one child.")
    else
      match compileList children params with
      | .ok (parts, params1) => .ok ("(" ++ joinSql " OR " parts ++ ")", params1)
      | .error e => .error e
  | .not child =>
    match compileNode child params with
    | .ok (childSql, params1) => .ok ("(NOT (" ++ childSql ++ "))", params1)
    | .error e => .error e
  | .present key =>
    match resolveFilterKey key with
    | .error e => .error e
    | .ok (.top field) =>
      if field = "rev" then .ok ("(rev IS NOT NULL)", params)
      else .ok ("(" ++ field ++ " IS NOT NULL AND " ++ field ++ " <> '')", params)
    | .ok (.attr attrKey) =>
      let (params1, keyRef) := addParam params (.str attrKey)
      .ok ("(attrs ? " ++ keyRef ++ "::text)", params1)
  | .eq key value =>
    match resolveFilterKey key with
    | .error e => .error e
    | .ok (.top field) =>
      if field = "rev" then
        if !isIntegerLiteral (strTrim value) then .error (invalidFilter "rev must be an integer.")
        else
          let (params1, revRef) := addParam params (.num (parseIntegerLiteral (strTrim value)))
          .ok ("(rev = " ++ revRef ++ ")", params1)
      else
        let (params1, valueRef) := addParam params (.str value)
        .ok ("(" ++ field ++ " = " ++ valueRef ++ ")", params1)
    | .ok (.attr attrKey) =>
      let (params1, keyRef) := addParam params (.str attrKey)
      let (params2, valueRef) := addParam params1 (.str value)
      .ok ("(COALESCE(jsonb_extract_path(attrs, " ++ keyRef ++ "::text) ? "
            ++ valueRef ++ "::text, false))", params2)

/-- Compile a list of children left to right, threading parameters. -/
def compileList (asts : List FilterNode) (params : List SqlParam) :
    Except FilterError (List String × List SqlParam) :=
  match asts with
  | [] => .ok ([], params)
  | c :: rest =>
    match compileNode c params with
    | .error e => .error e
    | .ok (sql, params1) =>
      match compileList rest params1 with
      | .error e => .error e
      | .ok (sqls, params2) => .ok (sql :: sqls, params2)
end

/-- `compileToSql`: entry point of the SQL compiler. -/
def compileToSql (ast : FilterNode) : Except FilterError CompiledSql :=
  match compileNode ast [] with
  | .ok (sql, params) => .ok { sql := sql, params := params }
  | .error e => .error e

/-! ## Filter parser (src/lib/filter/parser.ts)

The source parser is a class mutating a character index over the input string;
it is embedded as explicit state passing. Recursion is fuelled: every
recursive call strictly consumes input, so any fuel exceeding the input length
(the entry point passes `input.length * 4 + 16`) never runs out; the
fuel-exhaustion error is unreachable for such fuel and exists only to make the
functions total. Positions are character indices (equal to the byte positions
of the source's errors on ASCII input). -/

/-- Parse failure: message plus the position at which it occurred. -/
structure InvalidFilterError where
  message : String
  position : Nat
  deriving DecidableEq, Repr

/-- Parser state: input characters and current index. -/
structure PState where
  input : List Char
  idx : Nat
  deriving Repr

def pPeek (st : PState) : Option Char := st.input[st.idx]?

def pIsEof (st : PState) : Bool := st.input.length ≤ st.idx

def pError (st : PState) (message : String) : InvalidFilterError :=
  { message := message, position := st.idx }

/-- Whitespace per the parser's `/[ \t\n\r]/`. -/
def isWsChar (c : Char) : Bool := c = ' ' || c = '\t' || c = '\n' || c = '\r'

def skipWhitespace (st : PState) : PState :=
  { st with idx := st.idx + ((st.input.drop st.idx).takeWhile isWsChar).length }

def pExpect (st : PState) (c : Char) : Except InvalidFilterError PState :=
  if pPeek st = some c then .ok { st with idx := st.idx + 1 }
  else .error (pError st ("Expected \"" ++ String.singleton c ++ "\"."))

/-- Key characters per the source's KEY_CHAR regex: letters, digits, and
underscore, dot, colon, slash, hyphen. -/
def KEY_CHAR (c : Char) : Bool :=
  c.isAlpha || c.isDigit || c = '_' || c = '.' || c = ':' || c = '/' || c = '-'

def parseKey (st : PState) : Except InvalidFilterError (String × PState) :=
  let chars := (st.input.drop st.idx).takeWhile KEY_CHAR
  if chars.isEmpty then .error (pError st "Expected a filter key.")
  else .ok (String.mk chars, { st with idx := st.idx + chars.length })

/-- The trailing-whitespace trim `value.replace(/[ \t\n\r]+$/, '')`. -/
def trimTrailingWs (s : List Char) : List Char :=
  (s.reverse.dropWhile isWsChar).reverse

/-- The character loop of `parseValue`. -/
def parseValueLoop (fuel : Nat) (acc : List Char) (st : PState) :
    Except InvalidFilterError (List Char × PState) :=
  match fuel with
  | 0 => .error (pError st "parser fuel exhausted")
  | fuel + 1 =>
    match pPeek st with
    | none => .ok (acc, st)
    | some c =>
      if c = ')' then .ok (acc, st)
      else if c = '\\' then
        let st1 : PState := { st with idx := st.idx + 1 }
        match pPeek st1 with
        | none => .error (pError st1 "Incomplete escape sequence.")
        | some esc =>
          if esc = '\\' || esc = '*' || esc = '(' || esc = ')' then
            parseValueLoop fuel (acc ++ [esc]) { st1 with idx := st1.idx + 1 }
          else
            .error (pError st1 ("Unsupported escape sequence: \\" ++ String.singleton esc))
      else if c = '(' then .error (pError st "Value contains unescaped \"(\".")
      else parseValueLoop fuel (acc ++ [c]) { st with idx := st.idx + 1 }

def parseValue (fuel : Nat) (st : PState) :
    Except InvalidFilterError (String × PState) :=
  match parseValueLoop fuel [] st with
  | .ok (chars, st1) => .ok (String.mk (trimTrailingWs chars), st1)
  | .error e => .error e

/-- `parseItem`: `key "=" ("*" | value)`, with the star/value backtracking. -/
def parseItem (fuel : Nat) (st : PState) :
    Except InvalidFilterError (FilterNode × PState) :=
  match parseKey st with
  | .error e => .error e
  | .ok (key, st1) =>
    let st2 := skipWhitespace st1
    match pExpect st2 '=' with
    | .error e => .error e
    | .ok st3 =>
      let st4 := skipWhitespace st3
      if pIsEof st4 then .error (pError st4 "Expected value after \"=\".")
      else if pPeek st4 = some '*' then
        let starStart := st4.idx
        let st5 : PState := { st4 with idx := st4.idx + 1 }
        let afterStar := st5.idx
        let st6 := skipWhitespace st5
        if pPeek st6 = some ')' then .ok (.present key, st6)
        else
          match parseValue fuel { st6 with idx := starStart } with
          | .error e => .error e
          | .ok (value, st7) => .ok (.eq key value, { st7 with idx := max st7.idx afterStar })
      else
        match parseValue fuel st4 with
        | .error e => .error e
        | .ok (value, st5) => .ok (.eq key value, st5)

mutual
/-- `parseFilter`: `"(" body ")"`. -/
def parseFilterRec (fuel : Nat) (st : PState) :
    Except InvalidFilterError (FilterNode × PState) :=
  match fuel with
  | 0 => .error (pError st "parser fuel exhausted")
  | fuel + 1 =>
    let st1 := skipWhitespace st
    match pExpect st1 '(' with
    | .error e => .error e
    | .ok st2 =>
      let st3 := skipWhitespace st2
      match parseFilterBody fuel st3 with
      | .error e => .error e
      | .ok (body, st4) =>
        let st5 := skipWhitespace st4
        match pExpect st5 ')' with
        | .error e => .error e
        | .ok st6 => .ok (body, st6)

/-- `parseFilterBody`: `&`, `|`, `!` or an item. -/
def parseFilterBody (fuel : Nat) (st : PState) :
    Except InvalidFilterError (FilterNode × PState) :=
  match fuel with
  | 0 => .error (pError st "parser fuel exhausted")
  | fuel + 1 =>
    match pPeek st with
    | none => .error (pError st "Unexpected end of input in filter body.")
    | some token =>
      if token = '&' then
        match parseFilterList fuel { st with idx := st.idx + 1 } with
        | .error e => .error e
        | .ok (children, st1) => .ok (.and children, st1)
      else if token = '|' then
        match parseFilterList fuel { st with idx := st.idx + 1 } with
        | .error e => .error e
        | .ok (children, st1) => .ok (.or children, st1)
      else if token = '!' then
        let st1 := skipWhitespace { st with idx := st.idx + 1 }
        match parseFilterRec fuel st1 with
        | .error e => .error e
        | .ok (child, st2) => .ok (.not child, st2)
      else parseItem fuel st

/-- The while-loop of `parseFilterList`. -/
def parseFilterListLoop (fuel : Nat) (acc : List FilterNode) (st : PState) :
    Except InvalidFilterError (List FilterNode × PState) :=
  match fuel with
  | 0 => .error (pError st "parser fuel exhausted")
  | fuel + 1 =>
    let st1 := skipWhitespace st
    if pPeek st1 = some '(' then
      match parseFilterRec fuel st1 with
      | .error e => .error e
      | .ok (child, st2) => parseFilterListLoop fuel (acc ++ [child]) (skipWhitespace st2)
    else .ok (acc, st1)

/-- `parseFilterList`: one or more nested filters. -/
def parseFilterList (fuel : Nat) (st : PState) :
    Except InvalidFilterError (List FilterNode × PState) :=
  match fuel with
  | 0 => .error (pError st "parser fuel exhausted")
  | fuel + 1 =>
    let st1 := skipWhitespace st
    match parseFilterListLoop fuel [] st1 with
    | .error e => .error e
    | .ok (children, st2) =>
      if children.isEmpty then .error (pError st2 "Expected at least one nested filter.")
      else .ok (children, st2)
end

/-- `Parser.parse`: parse the whole input, rejecting trailing characters. -/
def parseFilter (input : String) : Except InvalidFilterError FilterNode :=
  let st0 : PState := { input := input.data, idx := 0 }
  let fuel := input.data.length * 4 + 16
  let st1 := skipWhitespace st0
  match parseFilterRec fuel st1 with
  | .error e => .error e
  | .ok (node, st2) =>
    let st3 := skipWhitespace st2
    if !pIsEof st3 then .error (pError st3 "Unexpected trailing characters.")
    else .ok node

/-! ## JS Map embedding -/

/-- First-match association-list lookup (`Map.get`). -/
def mapLookup {κ ν : Type} [DecidableEq κ] (m : List (κ × ν)) (k : κ) : Option ν :=
  (m.find? (fun p => decide (p.1 = k))).map (·.2)

/-- `Map.set`: replace in place if the key exists, else append. -/
def mapSet {κ ν : Type} [DecidableEq κ] (k : κ) (v : ν) : List (κ × ν) → List (κ × ν)
  | [] => [(k, v)]
  | p :: t => if p.1 = k then (k, v) :: t else p :: mapSet k v t

/-! ## Indexed documents (src/core/index.ts) -/

/-- An indexed document: entry plus doc id, card projection, and case-folded
name/description. -/
structure IndexedDoc where
  docId : Nat
  entry : EntryRecord
  card : CardEntry
  nameLower : String
  descriptionLower : String
  deriving DecidableEq, Repr

def buildIndexedDoc (docId : Nat) (entry : EntryRecord) : IndexedDoc :=
  { docId := docId
    entry := entry
    card := toCard entry
    nameLower := strToLower entry.name
    descriptionLower := strToLower entry.description }

/-- JS `String.prototype.includes`: substring containment. -/
def strIncludes (s q : String) : Bool := decide (q.data <:+: s.data)

/-- Free-text match on case-folded name or description. -/
def matchesQuery (indexed : IndexedDoc) (q : String) : Bool :=
  strIncludes indexed.nameLower q || strIncludes indexed.descriptionLower q

/-! ## Token bags (src/core/index.ts) -/

def TOP_LEVEL_INDEX_FIELDS : List String :=
  ["id", "type", "name", "namespace", "version", "rev"]

/-- The indexed value of a top-level field; `none` when the source skips the
field (JS truthiness: the empty string and a null version produce no token). -/
def topFieldValue (entry : EntryRecord) : String → Option String
  | "id" => if entry.id = "" then none else some entry.id
  | "type" => if entry.type = "" then none else some entry.type
  | "name" => if entry.name = "" then none else some entry.name
  | "namespace" => if entry.nspace = "" then none else some entry.nspace
  | "version" =>
    match entry.version with
    | some v => if v = "" then none else some v
    | none => none
  | "rev" => some (toString entry.rev)
  | _ => none

/-- Token bag of an entry. The source collects tokens into `Set`s; duplicates
and collection order never matter because the tokens are only used to add or
remove the doc id in set-valued postings, so plain lists are kept. -/
structure TokenBag where
  eqTokens : List String
  presenceTokens : List String

def addTopLevelTokens (entry : EntryRecord) : List String × List String :=
  TOP_LEVEL_INDEX_FIELDS.foldl
    (fun acc field =>
      match topFieldValue entry field with
      | some v => (acc.1 ++ [eqToken .top field v], acc.2 ++ [presentToken .top field])
      | none => acc)
    ([], [])

def buildTokenBag (entry : EntryRecord) : TokenBag :=
  let top := addTopLevelTokens entry
  { eqTokens :=
      top.1 ++ (entry.attrs.map (fun p => p.2.map (fun v => eqToken .attr p.1 v))).flatten
    presenceTokens :=
      top.2 ++ entry.attrs.map (fun p => presentToken .attr p.1) }

/-! ## The optimized in-memory core index (src/core/index.ts) -/

def SELECTIVE_RETRIEVAL_THRESHOLD : Nat := 5000

/-- The state of `InMemoryCoreIndex`. -/
structure CoreState where
  nextDocId : Nat
  idToDoc : List (String × Nat)
  docs : List (Nat × IndexedDoc)
  tokenToPosting : String → Finset Nat
  presenceToPosting : String → Finset Nat
  visibilityPublic : Finset Nat
  visibilityInternal : Finset Nat
  visibilityRestricted : Finset Nat
  groupToPosting : String → Finset Nat
  univ : Finset Nat
  updatedOrder : List Nat
  docSortRank : Nat → Option Nat

def initState : CoreState :=
  { nextDocId := 1
    idToDoc := []
    docs := []
    tokenToPosting := fun _ => ∅
    presenceToPosting := fun _ => ∅
    visibilityPublic := ∅
    visibilityInternal := ∅
    visibilityRestricted := ∅
    groupToPosting := fun _ => ∅
    univ := ∅
    updatedOrder := []
    docSortRank := fun _ => none }

def docsLookup (s : CoreState) (docId : Nat) : Option IndexedDoc :=
  mapLookup s.docs docId

/-- `addPosting` on an extensional posting map. -/
def addPosting (m : String → Finset Nat) (token : String) (docId : Nat) :
    String → Finset Nat :=
  fun t => if t = token then insert docId (m t) else m t

/-- `removePosting`; deleting an emptied posting from the map is invisible in
the extensional representation. -/
def removePosting (m : String → Finset Nat) (token : String) (docId : Nat) :
    String → Finset Nat :=
  fun t => if t = token then (m t).erase docId else m t

def addVisibilityPosting (indexed : IndexedDoc) (s : CoreState) : CoreState :=
  match readVisibility indexed.entry.attrs with
  | .pub => { s with visibilityPublic := insert indexed.docId s.visibilityPublic }
  | .internal => { s with visibilityInternal := insert indexed.docId s.visibilityInternal }
  | .restricted =>
    { s with
      visibilityRestricted := insert indexed.docId s.visibilityRestricted
      groupToPosting :=
        (allowedGroupList indexed.entry.attrs).foldl
          (fun m g => addPosting m g indexed.docId) s.groupToPosting }

def removeVisibilityPosting (indexed : IndexedDoc) (s : CoreState) : CoreState :=
  match readVisibility indexed.entry.attrs with
  | .pub => { s with visibilityPublic := s.visibilityPublic.erase indexed.docId }
  | .internal => { s with visibilityInternal := s.visibilityInternal.erase indexed.docId }
  | .restricted =>
    { s with
      visibilityRestricted := s.visibilityRestricted.erase indexed.docId
      groupToPosting :=
        (allowedGroupList indexed.entry.attrs).foldl
          (fun m g => removePosting m g indexed.docId) s.groupToPosting }

def addEntryToIndexes (indexed : IndexedDoc) (s : CoreState) : CoreState :=
  let tokens := buildTokenBag indexed.entry
  let s1 :=
    { s with
      tokenToPosting :=
        tokens.eqTokens.foldl (fun m t => addPosting m t indexed.docId) s.tokenToPosting
      presenceToPosting :=
        tokens.presenceTokens.foldl (fun m t => addPosting m t indexed.docId)
          s.presenceToPosting
      univ := insert indexed.docId s.univ }
  let s2 := addVisibilityPosting indexed s1
  { s2 with updatedOrder := s2.updatedOrder ++ [indexed.docId] }

def removeEntryFromIndexes (indexed : IndexedDoc) (s : CoreState) : CoreState :=
  let tokens := buildTokenBag indexed.entry
  let s1 :=
    { s with
      tokenToPosting :=
        tokens.eqTokens.foldl (fun m t => removePosting m t indexed.docId) s.tokenToPosting
      presenceToPosting :=
        tokens.presenceTokens.foldl (fun m t => removePosting m t indexed.docId)
          s.presenceToPosting
      univ := s.univ.erase indexed.docId }
  let s2 := removeVisibilityPosting indexed s1
  { s2 with updatedOrder := s2.updatedOrder.filter (fun d => d ≠ indexed.docId) }

/-- The sort comparator over doc ids (missing docs compare equal, as the
source returns 0). -/
def docCompare (docs : List (Nat × IndexedDoc)) (a b : Nat) : Int :=
  match mapLookup docs a, mapLookup docs b with
  | some left, some right =>
    compareSortKeys left.entry.updated_at left.entry.id
      right.entry.updated_at right.entry.id
  | _, _ => 0

/-- Rebuild `docSortRank` from a sort order (the source's forward loop of
`Map.set`, so the last occurrence of a doc id wins). -/
def buildRank (l : List Nat) : Nat → Option Nat :=
  l.enum.foldl (fun f p => fun d => if d = p.2 then some p.1 else f d) (fun _ => none)

/-- `resortUpdatedOrder`: sort the registry keys by the comparator and rebuild
the rank map. JS `Array.sort` is stable, and all stable sorts of a list under
a total preorder agree, so the stable `insertionSort` is a faithful embedding
of the source's sort over the keys in registry order. -/
def resortUpdatedOrder (s : CoreState) : CoreState :=
  let sorted := (s.docs.map (·.1)).insertionSort (fun a b => docCompare s.docs a b ≤ 0)
  { s with updatedOrder := sorted, docSortRank := buildRank sorted }

/-- `upsertEntry`: ignore a strictly older rev; otherwise remove the previous
doc's index contributions and install the new ones. -/
def upsertEntry (entry : EntryRecord) (resortAfter : Bool) (s : CoreState) : CoreState :=
  match mapLookup s.idToDoc entry.id with
  | some existingDocId =>
    match docsLookup s existingDocId with
    | some existingDoc =>
      if existingDoc.entry.rev > entry.rev then s
      else
        let s1 := removeEntryFromIndexes existingDoc s
        let nextDoc := buildIndexedDoc existingDocId entry
        let s2 := { s1 with docs := mapSet existingDocId nextDoc s1.docs }
        let s3 := addEntryToIndexes nextDoc s2
        if resortAfter then resortUpdatedOrder s3 else s3
    | none =>
      let nextDoc := buildIndexedDoc existingDocId entry
      let s2 := { s with docs := mapSet existingDocId nextDoc s.docs }
      let s3 := addEntryToIndexes nextDoc s2
      if resortAfter then resortUpdatedOrder s3 else s3
  | none =>
    let newDocId := s.nextDocId
    let indexed := buildIndexedDoc newDocId entry
    let s1 :=
      { s with
        nextDocId := s.nextDocId + 1
        idToDoc := mapSet entry.id newDocId s.idToDoc }
    let s2 := { s1 with docs := mapSet newDocId indexed s1.docs }
    let s3 := addEntryToIndexes indexed s2
    if resortAfter then resortUpdatedOrder s3 else s3

/-- A change-log reference `{id, rev}`. -/
structure ChangeRef where
  id : String
  rev : Int
  deriving DecidableEq, Repr

/-- `applyChange`: a null row is a no-op; a change whose stored rev is
strictly greater is discarded; otherwise upsert (resorting afterwards). -/
def applyChange (change : ChangeRef) (row : Option EntryRecord) (s : CoreState) :
    CoreState :=
  match row with
  | none => s
  | some row =>
    let skip : Bool :=
      match mapLookup s.idToDoc change.id with
      | some existingDocId =>
        match docsLookup s existingDocId with
        | some existing => decide (existing.entry.rev > change.rev)
        | none => false
      | none => false
    if skip then s else upsertEntry row true s

/-- `buildFromSnapshot`: reset, upsert every row without resorting, then
resort once. -/
def buildFromSnapshot (rows : List EntryRecord) (_s : CoreState) : CoreState :=
  resortUpdatedOrder (rows.foldl (fun st row => upsertEntry row false st) initState)

/-! ## Search (src/core/index.ts) -/

structure CoreSearchOptions where
  limit : Nat
  cursor : Option SearchCursor
  q : Option String
  deriving Repr

structure CoreSearchHit where
  entry : EntryRecord
  card : CardEntry
  deriving DecidableEq, Repr

structure CoreSearchResult where
  items : List CoreSearchHit
  next_cursor : Option SearchCursor
  deriving DecidableEq, Repr

structure CoreBatchGetResult where
  items : List CoreSearchHit
  omitted : Nat
  deriving DecidableEq, Repr

def mkHit (indexed : IndexedDoc) : CoreSearchHit :=
  { entry := indexed.entry, card := indexed.card }

def cursorOfDoc (indexed : IndexedDoc) : SearchCursor :=
  { updated_at := indexed.entry.updated_at, id := indexed.entry.id }

/-- `getPosting`: presence tokens (ending in NUL `*`) route to the presence
map. -/
def getPosting (s : CoreState) (token : String) : Finset Nat :=
  if strEndsWith token "\x00*" then s.presenceToPosting token else s.tokenToPosting token

/-- `getAllowedDocs`: public, plus internal when authenticated, plus the
group postings of the requester's groups. -/
def getAllowedDocs (s : CoreState) (requester : Requester) : Finset Nat :=
  let allowed := s.visibilityPublic
  if !requester.isAuthenticated then allowed
  else
    let allowed := allowed ∪ s.visibilityInternal
    if requester.groups.card = 0 then allowed
    else allowed ∪ requester.groups.sup s.groupToPosting

/-- The cursor skip condition of the collect loops. -/
def cursorFails (cursorOpt : Option SearchCursor) (indexed : IndexedDoc) : Bool :=
  match cursorOpt with
  | some c => !isAfterCursor indexed.entry.updated_at indexed.entry.id c
  | none => false

/-- The free-text skip condition of the collect loops. -/
def qFails (q : Option String) (indexed : IndexedDoc) : Bool :=
  match q with
  | some qv => !matchesQuery indexed qv
  | none => false

/-- The shared shape of the ordered-scan collection loops: iterate doc ids in
sort order, skip non-candidates, missing docs, cursor-filtered and
query-filtered docs (and, in the naive variant, docs the requester cannot
see via `extraOk`), collect hits up to the limit and emit the cursor of the
last included doc when the limit is reached. `collectScanResults`,
`collectScanAllowedResults` and the naive search loop are instances. -/
def scanLoop (lookup : Nat → Option IndexedDoc) (inCand : Nat → Bool)
    (cursorOpt : Option SearchCursor) (q : Option String) (extraOk : IndexedDoc → Bool)
    (limit : Nat) :
    List Nat → List CoreSearchHit → List CoreSearchHit × Option SearchCursor
  | [], items => (items, none)
  | docId :: rest, items =>
    if !inCand docId then scanLoop lookup inCand cursorOpt q extraOk limit rest items
    else
      match lookup docId with
      | none => scanLoop lookup inCand cursorOpt q extraOk limit rest items
      | some indexed =>
        if cursorFails cursorOpt indexed then
          scanLoop lookup inCand cursorOpt q extraOk limit rest items
        else if qFails q indexed then
          scanLoop lookup inCand cursorOpt q extraOk limit rest items
        else if !extraOk indexed then
          scanLoop lookup inCand cursorOpt q extraOk limit rest items
        else
          let items1 := items ++ [mkHit indexed]
          if limit ≤ items1.length then (items1, some (cursorOfDoc indexed))
          else scanLoop lookup inCand cursorOpt q extraOk limit rest items1

/-- `collectScanResults` over a candidate bitmap. -/
def collectScanResults (s : CoreState) (candidates : Finset Nat)
    (cursorOpt : Option SearchCursor) (q : Option String) (limit : Nat) :
    List CoreSearchHit × Option SearchCursor :=
  scanLoop (docsLookup s) (fun d => decide (d ∈ candidates)) cursorOpt q
    (fun _ => true) limit s.updatedOrder []

/-- `insertTopDoc`: insert a candidate into the bounded rank-sorted buffer.
The source walks the insertion point from the right while the previous
element has a defined rank strictly greater than the candidate's. -/
def insertTopDoc (rank : Nat → Option Nat) (topDocs : List IndexedDoc)
    (candidate : IndexedDoc) (limit : Nat) : List IndexedDoc :=
  match rank candidate.docId with
  | none => topDocs
  | some candidateRank =>
    let shifted := topDocs.reverse.takeWhile (fun previous =>
      match rank previous.docId with
      | none => false
      | some previousRank => candidateRank < previousRank)
    let insertAt := topDocs.length - shifted.length
    let inserted := topDocs.take insertAt ++ candidate :: topDocs.drop insertAt
    if limit < inserted.length then inserted.dropLast else inserted

/-- The emission loop at the end of `collectSelectiveResults`. -/
def emitLoop (limit : Nat) :
    List IndexedDoc → List CoreSearchHit → List CoreSearchHit × Option SearchCursor
  | [], items => (items, none)
  | indexed :: rest, items =>
    let items1 := items ++ [mkHit indexed]
    if limit ≤ items1.length then (items1, some (cursorOfDoc indexed))
    else emitLoop limit rest items1

/-- Ascending enumeration of a doc-id bitmap (`RoaringBitmap32` iteration
order). Implemented by filtering an initial segment of the naturals so that
it reduces on concrete sets; it equals `Finset.sort (· ≤ ·)`. -/
def finsetAscend (s : Finset Nat) : List Nat :=
  (List.range (s.sup id + 1)).filter (fun d => decide (d ∈ s))

/-- `collectSelectiveResults`: iterate the candidate bitmap in ascending
doc-id order, apply the cursor and query filters, keep the top-`limit` docs
by rank, then emit them in rank order. -/
def collectSelectiveResults (s : CoreState) (candidates : Finset Nat)
    (cursorOpt : Option SearchCursor) (q : Option String) (limit : Nat) :
    List CoreSearchHit × Option SearchCursor :=
  let topDocs := (finsetAscend candidates).foldl
    (fun topDocs docId =>
      match docsLookup s docId with
      | none => topDocs
      | some indexed =>
        if cursorFails cursorOpt indexed then topDocs
        else if qFails q indexed then topDocs
        else insertTopDoc s.docSortRank topDocs indexed limit)
    []
  emitLoop limit topDocs []

/-- `search` of the optimized `InMemoryCoreIndex`. Results are
`Except`-valued because filter evaluation can throw `invalid_filter` (via
`resolveCoreKey`). -/
def search (s : CoreState) (filterAst : Option FilterNode)
    (options : CoreSearchOptions) (requester : Requester) :
    Except FilterError CoreSearchResult :=
  let limit := min (max options.limit 1) 200
  let q := options.q.map (fun v => strToLower (strTrim v))
  let hasQ : Bool := match q with | some v => !(v = "") | none => false
  let qArg : Option String := if hasQ then q else none
  let allowed := getAllowedDocs s requester
  if allowed = ∅ then .ok { items := [], next_cursor := none }
  else
    match filterAst with
    | none =>
      let res := scanLoop (docsLookup s) (fun d => decide (d ∈ allowed)) options.cursor
        qArg (fun _ => true) limit s.updatedOrder []
      .ok { items := res.1, next_cursor := res.2 }
    | some ast =>
      match evaluateFilterAst { getPosting := getPosting s, univ := s.univ } ast with
      | .error e => .error e
      | .ok candidates0 =>
        if candidates0 = ∅ then .ok { items := [], next_cursor := none }
        else
          let candidates := candidates0 ∩ allowed
          if candidates = ∅ then .ok { items := [], next_cursor := none }
          else
            -- Math.floor(size * 0.01) computes size / 100 exactly for 32-bit
            -- sizes (the rounding error of the double product is far below
            -- the distance to the next integer)
            let selectiveByThreshold : Bool :=
              decide (candidates.card ≤ SELECTIVE_RETRIEVAL_THRESHOLD)
            let selectiveByRatio : Bool :=
              decide (0 < s.univ.card) && decide (candidates.card ≤ s.univ.card / 100)
            if selectiveByThreshold || selectiveByRatio then
              let res := collectSelectiveResults s candidates options.cursor qArg limit
              .ok { items := res.1, next_cursor := res.2 }
            else
              let res := collectScanResults s candidates options.cursor qArg limit
              .ok { items := res.1, next_cursor := res.2 }

/-- `read`: direct id lookup guarded by `canSee`. -/
def read (s : CoreState) (id : String) (requester : Requester) : Option CoreSearchHit :=
  match mapLookup s.idToDoc id with
  | none => none
  | some docId =>
    match docsLookup s docId with
    | none => none
    | some indexed =>
      if !canSee indexed.entry requester then none else some (mkHit indexed)

/-- `batchGet`: per-id lookup; visibility-denied docs count as omitted. -/
def batchGet (s : CoreState) (ids : List String) (requester : Requester) :
    CoreBatchGetResult :=
  ids.foldl
    (fun acc id =>
      match mapLookup s.idToDoc id with
      | none => acc
      | some docId =>
        match docsLookup s docId with
        | none => acc
        | some indexed =>
          if !canSee indexed.entry requester then { acc with omitted := acc.omitted + 1 }
          else { acc with items := acc.items ++ [mkHit indexed] })
    { items := [], omitted := 0 }

/-! ## The naive core index variant (per-doc `canSee` scan)

The repository contains a second `InMemoryCoreIndex` implementation without
visibility bitmaps, group postings or the rank map: its `search` evaluates the
filter (or clones the universe), then scans the sort order checking the
cursor, the query and `canSee` per doc. Its registry/posting/sort-order code
is textually identical to the optimized variant minus the visibility and rank
bookkeeping. -/

structure NaiveState where
  nextDocId : Nat
  idToDoc : List (String × Nat)
  docs : List (Nat × IndexedDoc)
  tokenToPosting : String → Finset Nat
  presenceToPosting : String → Finset Nat
  univ : Finset Nat
  updatedOrder : List Nat

def naiveInitState : NaiveState :=
  { nextDocId := 1
    idToDoc := []
    docs := []
    tokenToPosting := fun _ => ∅
    presenceToPosting := fun _ => ∅
    univ := ∅
    updatedOrder := [] }

def naiveAddEntryToIndexes (indexed : IndexedDoc) (s : NaiveState) : NaiveState :=
  let tokens := buildTokenBag indexed.entry
  { s with
    tokenToPosting :=
      tokens.eqTokens.foldl (fun m t => addPosting m t indexed.docId) s.tokenToPosting
    presenceToPosting :=
      tokens.presenceTokens.foldl (fun m t => addPosting m t indexed.docId)
        s.presenceToPosting
    univ := insert indexed.docId s.univ
    updatedOrder := s.updatedOrder ++ [indexed.docId] }

def naiveRemoveEntryFromIndexes (indexed : IndexedDoc) (s : NaiveState) : NaiveState :=
  let tokens := buildTokenBag indexed.entry
  { s with
    tokenToPosting :=
      tokens.eqTokens.foldl (fun m t => removePosting m t indexed.docId) s.tokenToPosting
    presenceToPosting :=
      tokens.presenceTokens.foldl (fun m t => removePosting m t indexed.docId)
        s.presenceToPosting
    univ := s.univ.erase indexed.docId
    updatedOrder := s.updatedOrder.filter (fun d => d ≠ indexed.docId) }

def naiveResortUpdatedOrder (s : NaiveState) : NaiveState :=
  { s with
    updatedOrder :=
      (s.docs.map (·.1)).insertionSort (fun a b => docCompare s.docs a b ≤ 0) }

def naiveUpsertEntry (entry : EntryRecord) (resortAfter : Bool) (s : NaiveState) :
    NaiveState :=
  match mapLookup s.idToDoc entry.id with
  | some existingDocId =>
    match mapLookup s.docs existingDocId with
    | some existingDoc =>
      if existingDoc.entry.rev > entry.rev then s
      else
        let s1 := naiveRemoveEntryFromIndexes existingDoc s
        let nextDoc := buildIndexedDoc existingDocId entry
        let s2 := { s1 with docs := mapSet existingDocId nextDoc s1.docs }
        let s3 := naiveAddEntryToIndexes nextDoc s2
        if resortAfter then naiveResortUpdatedOrder s3 else s3
    | none =>
      let nextDoc := buildIndexedDoc existingDocId entry
      let s2 := { s with docs := mapSet existingDocId nextDoc s.docs }
      let s3 := naiveAddEntryToIndexes nextDoc s2
      if resortAfter then naiveResortUpdatedOrder s3 else s3
  | none =>
    let newDocId := s.nextDocId
    let indexed := buildIndexedDoc newDocId entry
    let s1 :=
      { s with
        nextDocId := s.nextDocId + 1
        idToDoc := mapSet entry.id newDocId s.idToDoc }
    let s2 := { s1 with docs := mapSet newDocId indexed s1.docs }
    let s3 := naiveAddEntryToIndexes indexed s2
    if resortAfter then naiveResortUpdatedOrder s3 else s3

def naiveApplyChange (change : ChangeRef) (row : Option EntryRecord) (s : NaiveState) :
    NaiveState :=
  match row with
  | none => s
  | some row =>
    let skip : Bool :=
      match mapLookup s.idToDoc change.id with
      | some existingDocId =>
        match mapLookup s.docs existingDocId with
        | some existing => decide (existing.entry.rev > change.rev)
        | none => false
      | none => false
    if skip then s else naiveUpsertEntry row true s

def naiveBuildFromSnapshot (rows : List EntryRecord) (_s : NaiveState) : NaiveState :=
  naiveResortUpdatedOrder
    (rows.foldl (fun st row => naiveUpsertEntry row false st) naiveInitState)

def naiveGetPosting (s : NaiveState) (token : String) : Finset Nat :=
  if strEndsWith token "\x00*" then s.presenceToPosting token else s.tokenToPosting token

/-- `search` of the naive variant: candidates are the filter evaluation (or
the whole universe), and visibility is checked per doc with `canSee` inside
the scan loop. -/
def naiveSearch (s : NaiveState) (filterAst : Option FilterNode)
    (options : CoreSearchOptions) (requester : Requester) :
    Except FilterError CoreSearchResult :=
  let limit := min (max options.limit 1) 200
  let q := options.q.map (fun v => strToLower (strTrim v))
  let hasQ : Bool := match q with | some v => !(v = "") | none => false
  let qArg : Option String := if hasQ then q else none
  let candidatesE :=
    match filterAst with
    | some ast => evaluateFilterAst { getPosting := naiveGetPosting s, univ := s.univ } ast
    | none => .ok s.univ
  match candidatesE with
  | .error e => .error e
  | .ok candidates =>
    let res := scanLoop (fun d => mapLookup s.docs d) (fun d => decide (d ∈ candidates))
      options.cursor qArg (fun indexed => canSee indexed.entry requester) limit
      s.updatedOrder []
    .ok { items := res.1, next_cursor := res.2 }

/-- Projection of the optimized state onto the naive variant's fields. The
registry, posting, universe and sort-order code of the two variants is
identical, so this projection commutes with all mutating operations. -/
def toNaive (s : CoreState) : NaiveState :=
  { nextDocId := s.nextDocId
    idToDoc := s.idToDoc
    docs := s.docs
    tokenToPosting := s.tokenToPosting
    presenceToPosting := s.presenceToPosting
    univ := s.univ
    updatedOrder := s.updatedOrder }

/-! ## Specification-side definitions for refinement comparison -/

mutual
/-- The cardinality estimator as the specification words it, for comparison
with `estimateCardinality`: identical except that the `or` estimate is "the
sum, saturated at universe size". Modelled from the spec, not the source. -/
def specSaturatedEstimate (ctx : EvalContext) : FilterNode → Except FilterError Nat
  | .eq key value =>
    match resolveCoreKey key with
    | .error e => .error e
    | .ok resolved => .ok (ctx.getPosting (eqToken resolved.scope resolved.key value)).card
  | .present key =>
    match resolveCoreKey key with
    | .error e => .error e
    | .ok resolved => .ok (ctx.getPosting (presentToken resolved.scope resolved.key)).card
  | .and children =>
    match children with
    | [] => .ok 0
    | c :: rest =>
      match specSaturatedEstimate ctx c, specSaturatedEstimateList ctx rest with
      | .ok e, .ok es => .ok (es.foldl min e)
      | .error e, _ => .error e
      | _, .error e => .error e
  | .or children =>
    match specSaturatedEstimateList ctx children with
    | .ok es => .ok (min (es.foldl (· + ·) 0) ctx.univ.card)
    | .error e => .error e
  | .not child =>
    match specSaturatedEstimate ctx child with
    | .ok e => .ok (ctx.univ.card - e)
    | .error e => .error e

def specSaturatedEstimateList (ctx : EvalContext) :
    List FilterNode → Except FilterError (List Nat)
  | [] => .ok []
  | c :: rest =>
    match specSaturatedEstimate ctx c, specSaturatedEstimateList ctx rest with
    | .ok e, .ok es => .ok (e :: es)
    | .error e, _ => .error e
    | _, .error e => .error e
end

/-! ## Concrete sample data for witnesses and counterexamples -/

def sampleEntry (id : String) (rev : Int) (upd : String)
    (attrs : List (String × List String)) : EntryRecord :=
  { id := id, rev := rev, type := "skill", nspace := "acme", name := id,
    description := "test entry", version := some "1.0.0", attrs := attrs,
    created_at := "2026-01-01T00:00:00.000Z", updated_at := upd }

def entryA : EntryRecord :=
  sampleEntry "A" 1 "2026-01-03T00:00:00.000Z"
    [("capability", ["summarize"]), ("visibility", ["public"])]

def entryB : EntryRecord :=
  sampleEntry "B" 1 "2026-01-02T00:00:00.000Z"
    [("capability", ["extract"]), ("visibility", ["public"])]

def entryRestricted : EntryRecord :=
  sampleEntry "R" 1 "2026-01-01T00:00:00.000Z"
    [("visibility", ["restricted"]), ("allowed_group", ["finance"])]

/-- A small index built from a snapshot of three entries. -/
def sampleState : CoreState :=
  buildFromSnapshot [entryA, entryB, entryRestricted] initState

def anonRequester : Requester := { isAuthenticated := false, groups := ∅, subject := none }

/-- The entry `s` at rev 2, and a different payload at the same rev. -/
def entryS1 : EntryRecord :=
  sampleEntry "s" 2 "2026-01-01T00:00:00.000Z" [("status", ["active"])]

def entryS2 : EntryRecord := { entryS1 with name := "other" }

def stateS : CoreState := buildFromSnapshot [entryS1] initState

/-- A posting context over a one-doc universe where two distinct eq postings
each hold that doc (so the or-estimate sums to 2 over a universe of size 1). -/
def ctxOrOverlap : EvalContext :=
  { getPosting := fun t =>
      if t = eqToken .attr "a" "x" then {1}
      else if t = eqToken .attr "b" "y" then {1}
      else ∅
    univ := {1} }

/-! ## Helper lemmas: token shapes and injectivity -/

theorem append_cons_inj {c : Char} :
    ∀ {a₁ a₂ b₁ b₂ : List Char}, a₁ ++ c :: b₁ = a₂ ++ c :: b₂ → c ∉ a₁ → c ∉ a₂ →
      a₁ = a₂ ∧ b₁ = b₂ := by
  intro a₁
  induction a₁ with
  | nil =>
    intro a₂ b₁ b₂ h h₁ h₂
    cases a₂ with
    | nil => simpa using h
    | cons x t =>
      simp only [List.nil_append, List.cons_append, List.cons.injEq] at h
      exact absurd (h.1 ▸ List.mem_cons_self x t) h₂
  | cons x t ih =>
    intro a₂ b₁ b₂ h h₁ h₂
    cases a₂ with
    | nil =>
      simp only [List.nil_append, List.cons_append, List.cons.injEq] at h
      exact absurd (h.1.symm ▸ List.mem_cons_self x t) h₁
    | cons y u =>
      simp only [List.cons_append, List.cons.injEq] at h
      have ht : t = u ∧ b₁ = b₂ :=
        ih h.2 (fun hc => h₁ (List.mem_cons_of_mem _ hc))
          (fun hc => h₂ (h.1 ▸ List.mem_cons_of_mem _ hc))
      exact ⟨by rw [h.1, ht.1], ht.2⟩

theorem eqToken_data (s : CoreKeyScope) (k v : String) :
    (eqToken s k v).data =
      s.str.data ++ (':' :: 'k' :: ':' :: (k.data ++ '\x00' :: 'v' :: ':' :: v.data)) := by
  cases s <;> simp only [eqToken, CoreKeyScope.str, String.data_append, List.append_assoc] <;> rfl

theorem presentToken_data (s : CoreKeyScope) (k : String) :
    (presentToken s k).data =
      s.str.data ++ (':' :: 'k' :: ':' :: (k.data ++ '\x00' :: '*' :: [])) := by
  cases s <;> simp only [presentToken, CoreKeyScope.str, String.data_append, List.append_assoc] <;> rfl

theorem scope_key_prefix_inj {s₁ s₂ : CoreKeyScope} {k₁ k₂ : List Char}
    (h : s₁.str.data ++ (':' :: 'k' :: ':' :: k₁) = s₂.str.data ++ (':' :: 'k' :: ':' :: k₂)) :
    s₁ = s₂ ∧ k₁ = k₂ := by
  cases s₁ <;> cases s₂ <;>
    simp only [CoreKeyScope.str, show ("top" : String).data = ['t', 'o', 'p'] from rfl,
      show ("attr" : String).data = ['a', 't', 't', 'r'] from rfl,
      List.cons_append, List.nil_append, List.cons.injEq] at h ⊢ <;>
    simp_all

theorem nulFree_of_token_front {s : CoreKeyScope} {k : List Char} (hk : '\x00' ∉ k) :
    '\x00' ∉ s.str.data ++ (':' :: 'k' :: ':' :: k) := by
  intro hc
  rcases List.mem_append.1 hc with h | h
  · cases s <;> revert h <;> decide
  · simp only [List.mem_cons] at h
    rcases h with h | h | h | h
    · exact absurd h (by decide)
    · exact absurd h (by decide)
    · exact absurd h (by decide)
    · exact hk h

theorem eqToken_inj {s₁ s₂ : CoreKeyScope} {k₁ v₁ k₂ v₂ : String}
    (h₁ : '\x00' ∉ k₁.data) (h₂ : '\x00' ∉ k₂.data)
    (h : eqToken s₁ k₁ v₁ = eqToken s₂ k₂ v₂) : s₁ = s₂ ∧ k₁ = k₂ ∧ v₁ = v₂ := by
  have hd := congrArg String.data h
  rw [eqToken_data, eqToken_data] at hd
  have hd' : (s₁.str.data ++ ':' :: 'k' :: ':' :: k₁.data) ++ '\x00' :: ('v' :: ':' :: v₁.data) =
      (s₂.str.data ++ ':' :: 'k' :: ':' :: k₂.data) ++ '\x00' :: ('v' :: ':' :: v₂.data) := by
    simpa [List.append_assoc] using hd
  have hsplit := append_cons_inj hd' (nulFree_of_token_front h₁) (nulFree_of_token_front h₂)
  have hsk := scope_key_prefix_inj (by simpa [List.append_assoc] using hsplit.1)
  refine ⟨hsk.1, congrArg String.mk hsk.2, ?_⟩
  have hv : v₁.data = v₂.data := by simpa using hsplit.2
  exact congrArg String.mk hv

theorem presentToken_inj {s₁ s₂ : CoreKeyScope} {k₁ k₂ : String}
    (h₁ : '\x00' ∉ k₁.data) (h₂ : '\x00' ∉ k₂.data)
    (h : presentToken s₁ k₁ = presentToken s₂ k₂) : s₁ = s₂ ∧ k₁ = k₂ := by
  have hd := congrArg String.data h
  rw [presentToken_data, presentToken_data] at hd
  have hd' : (s₁.str.data ++ ':' :: 'k' :: ':' :: k₁.data) ++ '\x00' :: ('*' :: []) =
      (s₂.str.data ++ ':' :: 'k' :: ':' :: k₂.data) ++ '\x00' :: ('*' :: []) := by
    simpa [List.append_assoc] using hd
  have hsplit := append_cons_inj hd' (nulFree_of_token_front h₁) (nulFree_of_token_front h₂)
  have hsk := scope_key_prefix_inj (by simpa [List.append_assoc] using hsplit.1)
  exact ⟨hsk.1, congrArg String.mk hsk.2⟩

/-! ## Helper lemmas: filter evaluation -/

theorem resolveFilterKey_error {k : String} {e : FilterError}
    (h : resolveFilterKey k = .error e) : e = NUL_KEY_ERROR := by
  simp only [resolveFilterKey] at h
  split at h
  · split at h
    · cases h; rfl
    · cases h
  · split at h <;> cases h

theorem resolveCoreKey_error {k : String} {e : FilterError}
    (h : resolveCoreKey k = .error e) : e = NUL_KEY_ERROR := by
  unfold resolveCoreKey at h
  cases hr : resolveFilterKey k with
  | error e2 => rw [hr] at h; cases h; exact resolveFilterKey_error hr
  | ok r => cases r <;> rw [hr] at h <;> cases h

mutual
theorem estimateCardinality_error {ctx : EvalContext} :
    ∀ {F : FilterNode} {e : FilterError}, estimateCardinality ctx F = .error e → e = NUL_KEY_ERROR
  | .eq key value, e => by
    intro h
    unfold estimateCardinality at h
    cases hr : resolveCoreKey key with
    | error e2 => rw [hr] at h; cases h; exact resolveCoreKey_error hr
    | ok r => rw [hr] at h; cases h
  | .present key, e => by
    intro h
    unfold estimateCardinality at h
    cases hr : resolveCoreKey key with
    | error e2 => rw [hr] at h; cases h; exact resolveCoreKey_error hr
    | ok r => rw [hr] at h; cases h
  | .and [], e => by intro h; cases h
  | .and (c :: rest), e => by
    intro h
    unfold estimateCardinality at h
    cases hc : estimateCardinality ctx c with
    | error e2 =>
      rw [hc] at h
      cases hrest : estimateList ctx rest with
      | error e3 => rw [hrest] at h; cases h; exact estimateCardinality_error hc
      | ok es => rw [hrest] at h; cases h; exact estimateCardinality_error hc
    | ok n =>
      rw [hc] at h
      cases hrest : estimateList ctx rest with
      | error e3 => rw [hrest] at h; cases h; exact estimateList_error hrest
      | ok es => rw [hrest] at h; cases h
  | .or children, e => by
    intro h
    unfold estimateCardinality at h
    cases hrest : estimateList ctx children with
    | error e3 => rw [hrest] at h; cases h; exact estimateList_error hrest
    | ok es => rw [hrest] at h; cases h
  | .not child, e => by
    intro h
    unfold estimateCardinality at h
    cases hc : estimateCardinality ctx child with
    | error e2 => rw [hc] at h; cases h; exact estimateCardinality_error hc
    | ok n => rw [hc] at h; cases h

theorem estimateList_error {ctx : EvalContext} :
    ∀ {l : List FilterNode} {e : FilterError}, estimateList ctx l = .error e → e = NUL_KEY_ERROR
  | [], e => by intro h; cases h
  | c :: rest, e => by
    intro h
    unfold estimateList at h
    cases hc : estimateCardinality ctx c with
    | error e2 =>
      rw [hc] at h
      cases hrest : estimateList ctx rest with
      | error e3 => rw [hrest] at h; cases h; exact estimateCardinality_error hc
      | ok es => rw [hrest] at h; cases h; exact estimateCardinality_error hc
    | ok n =>
      rw [hc] at h
      cases hrest : estimateList ctx rest with
      | error e3 => rw [hrest] at h; cases h; exact estimateList_error hrest
      | ok es => rw [hrest] at h; cases h
end

theorem estimateList_length {ctx : EvalContext} :
    ∀ {l : List FilterNode} {es : List Nat}, estimateList ctx l = .ok es → es.length = l.length := by
  intro l
  induction l with
  | nil => intro es h; cases h; rfl
  | cons c rest ih =>
    intro es h
    unfold estimateList at h
    cases hc : estimateCardinality ctx c with
    | error e2 =>
      rw [hc] at h
      cases hrest : estimateList ctx rest with
      | error e3 => rw [hrest] at h; cases h
      | ok es2 => rw [hrest] at h; cases h
    | ok n =>
      rw [hc] at h
      cases hrest : estimateList ctx rest with
      | error e3 => rw [hrest] at h; cases h
      | ok es2 => rw [hrest] at h; cases h; simpa using ih hrest

theorem evalList_length {ctx : EvalContext} :
    ∀ {l : List FilterNode} {rs : List (Finset Nat)}, evalList ctx l = .ok rs → rs.length = l.length := by
  intro l
  induction l with
  | nil => intro rs h; cases h; rfl
  | cons c rest ih =>
    intro rs h
    unfold evalList at h
    cases hc : evalNode ctx c with
    | error e2 =>
      rw [hc] at h
      cases hrest : evalList ctx rest with
      | error e3 => rw [hrest] at h; cases h
      | ok rs2 => rw [hrest] at h; cases h
    | ok r =>
      rw [hc] at h
      cases hrest : evalList ctx rest with
      | error e3 => rw [hrest] at h; cases h
      | ok rs2 => rw [hrest] at h; cases h; simpa using ih hrest

theorem evalList_eq_map {ctx : EvalContext} :
    ∀ {l : List FilterNode} {rs : List (Finset Nat)}, evalList ctx l = .ok rs →
      rs = l.map (evalD ctx) := by
  intro l
  induction l with
  | nil => intro rs h; cases h; rfl
  | cons c rest ih =>
    intro rs h
    unfold evalList at h
    cases hc : evalNode ctx c with
    | error e2 =>
      rw [hc] at h
      cases hrest : evalList ctx rest with
      | error e3 => rw [hrest] at h; cases h
      | ok rs2 => rw [hrest] at h; cases h
    | ok r =>
      rw [hc] at h
      cases hrest : evalList ctx rest with
      | error e3 => rw [hrest] at h; cases h
      | ok rs2 =>
        rw [hrest] at h; cases h
        simp only [List.map, List.cons.injEq]
        exact ⟨by simp [evalD, hc], ih hrest⟩

theorem foldl_inter_empty : ∀ (l : List (Finset Nat)), l.foldl (· ∩ ·) ∅ = ∅ := by
  intro l
  induction l with
  | nil => rfl
  | cons x t ih => simpa using ih

theorem andLoop_eq_foldl : ∀ (l : List (Finset Nat)) (b : Finset Nat),
    andLoop b l = l.foldl (· ∩ ·) b := by
  intro l
  induction l with
  | nil => intro b; rfl
  | cons x t ih =>
    intro b
    unfold andLoop
    by_cases hb : b = ∅
    · simp only [hb, if_true]
      rw [List.foldl_cons, Finset.empty_inter, foldl_inter_empty]
    · simp only [hb, if_false]
      exact ih (b ∩ x)

theorem interFold_go : ∀ (l : List (Finset Nat)) (b : Finset Nat),
    l.foldl (fun acc x => match acc with | none => some x | some a => some (a ∩ x)) (some b) =
      some (l.foldl (· ∩ ·) b) := by
  intro l
  induction l with
  | nil => intro b; rfl
  | cons x t ih => intro b; simpa using ih (b ∩ x)

theorem interFold_cons (b : Finset Nat) (l : List (Finset Nat)) :
    interFold (b :: l) = some (l.foldl (· ∩ ·) b) := by
  unfold interFold
  simpa using interFold_go l b

theorem interFold_perm {l l' : List (Finset Nat)} (h : l.Perm l') :
    interFold l = interFold l' := by
  haveI : RightCommutative fun (acc : Option (Finset Nat)) (x : Finset Nat) =>
      match acc with | none => some x | some a => some (a ∩ x) := by
    constructor
    intro b a₁ a₂
    cases b with
    | none => simp [Finset.inter_comm]
    | some a => simp only [Finset.inter_assoc]; rw [Finset.inter_comm a₁ a₂]
  exact List.Perm.foldl_eq h none


theorem estimateList_ok_cons {ctx : EvalContext} {c : FilterNode} {rest : List FilterNode}
    {es : List Nat} (h : estimateList ctx (c :: rest) = .ok es) :
    ∃ e es', estimateCardinality ctx c = .ok e ∧ estimateList ctx rest = .ok es' ∧
      es = e :: es' := by
  unfold estimateList at h
  cases hc : estimateCardinality ctx c with
  | error e2 =>
    rw [hc] at h
    cases hrest : estimateList ctx rest with
    | error e3 => rw [hrest] at h; cases h
    | ok es2 => rw [hrest] at h; cases h
  | ok n =>
    rw [hc] at h
    cases hrest : estimateList ctx rest with
    | error e3 => rw [hrest] at h; cases h
    | ok es2 => rw [hrest] at h; cases h; exact ⟨n, es2, rfl, rfl, rfl⟩

theorem estimateList_cons_of {ctx : EvalContext} {c : FilterNode} {rest : List FilterNode}
    {e : Nat} {es : List Nat} (hc : estimateCardinality ctx c = .ok e)
    (hrest : estimateList ctx rest = .ok es) :
    estimateList ctx (c :: rest) = .ok (e :: es) := by
  unfold estimateList
  rw [hc, hrest]

theorem evalList_ok_cons {ctx : EvalContext} {c : FilterNode} {rest : List FilterNode}
    {rs : List (Finset Nat)} (h : evalList ctx (c :: rest) = .ok rs) :
    ∃ r rs', evalNode ctx c = .ok r ∧ evalList ctx rest = .ok rs' ∧ rs = r :: rs' := by
  unfold evalList at h
  cases hc : evalNode ctx c with
  | error e2 =>
    rw [hc] at h
    cases hrest : evalList ctx rest with
    | error e3 => rw [hrest] at h; cases h
    | ok rs2 => rw [hrest] at h; cases h
  | ok r =>
    rw [hc] at h
    cases hrest : evalList ctx rest with
    | error e3 => rw [hrest] at h; cases h
    | ok rs2 => rw [hrest] at h; cases h; exact ⟨r, rs2, rfl, rfl, rfl⟩

theorem evalList_cons_of {ctx : EvalContext} {c : FilterNode} {rest : List FilterNode}
    {r : Finset Nat} {rs : List (Finset Nat)} (hc : evalNode ctx c = .ok r)
    (hrest : evalList ctx rest = .ok rs) :
    evalList ctx (c :: rest) = .ok (r :: rs) := by
  unfold evalList
  rw [hc, hrest]

mutual
theorem est_ok_eval_ok {ctx : EvalContext} :
    ∀ {F : FilterNode} {n : Nat}, estimateCardinality ctx F = .ok n →
      ∃ r, evalNode ctx F = .ok r
  | .eq key value, n => by
    intro h
    unfold estimateCardinality at h
    cases hr : resolveCoreKey key with
    | error e2 => rw [hr] at h; cases h
    | ok r =>
      exact ⟨ctx.getPosting (eqToken r.scope r.key value), by unfold evalNode; rw [hr]⟩
  | .present key, n => by
    intro h
    unfold estimateCardinality at h
    cases hr : resolveCoreKey key with
    | error e2 => rw [hr] at h; cases h
    | ok r =>
      exact ⟨ctx.getPosting (presentToken r.scope r.key), by unfold evalNode; rw [hr]⟩
  | .and [], n => by
    intro h
    exact ⟨∅, rfl⟩
  | .and (c :: rest), n => by
    intro h
    unfold estimateCardinality at h
    cases hc : estimateCardinality ctx c with
    | error e2 =>
      rw [hc] at h
      cases hrest : estimateList ctx rest with
      | error e3 => rw [hrest] at h; cases h
      | ok es => rw [hrest] at h; cases h
    | ok e =>
      rw [hc] at h
      cases hrest : estimateList ctx rest with
      | error e3 => rw [hrest] at h; cases h
      | ok es =>
        obtain ⟨r, hr⟩ := est_ok_eval_ok hc
        obtain ⟨rs, hrs⟩ := estList_ok_evalList_ok hrest
        cases hv : evalNode ctx (.and (c :: rest)) with
        | ok r2 => exact ⟨r2, rfl⟩
        | error e2 =>
          exfalso
          unfold evalNode at hv
          rw [estimateList_cons_of hc hrest, evalList_cons_of hr hrs] at hv
          dsimp only at hv
          cases hs : ((r :: rs).zip (e :: es)).insertionSort (fun a b => a.2 ≤ b.2) with
          | nil => rw [hs] at hv; cases hv
          | cons p ps => rw [hs] at hv; cases hv
  | .or children, n => by
    intro h
    unfold estimateCardinality at h
    cases hrest : estimateList ctx children with
    | error e3 => rw [hrest] at h; cases h
    | ok es =>
      obtain ⟨rs, hrs⟩ := estList_ok_evalList_ok hrest
      exact ⟨rs.foldl (· ∪ ·) ∅, by unfold evalNode; rw [hrs]⟩
  | .not child, n => by
    intro h
    unfold estimateCardinality at h
    cases hc : estimateCardinality ctx child with
    | error e2 => rw [hc] at h; cases h
    | ok e =>
      obtain ⟨r, hr⟩ := est_ok_eval_ok hc
      exact ⟨ctx.univ \ r, by unfold evalNode; rw [hr]⟩

theorem estList_ok_evalList_ok {ctx : EvalContext} :
    ∀ {l : List FilterNode} {es : List Nat}, estimateList ctx l = .ok es →
      ∃ rs, evalList ctx l = .ok rs
  | [], es => by intro h; exact ⟨[], rfl⟩
  | c :: rest, es => by
    intro h
    obtain ⟨e, es', hc, hrest, rfl⟩ := estimateList_ok_cons h
    obtain ⟨r, hr⟩ := est_ok_eval_ok hc
    obtain ⟨rs, hrs⟩ := estList_ok_evalList_ok hrest
    exact ⟨r :: rs, evalList_cons_of hr hrs⟩
end

theorem evalNode_and_inter {ctx : EvalContext} {c : FilterNode} {cs : List FilterNode}
    {es : List Nat} {rs : List (Finset Nat)}
    (h1 : estimateList ctx (c :: cs) = .ok es)
    (h2 : evalList ctx (c :: cs) = .ok rs) :
    evalNode ctx (.and (c :: cs)) = .ok ((interFold rs).getD ∅) := by
  have hlen1 : es.length = (c :: cs).length := estimateList_length h1
  have hlen2 : rs.length = (c :: cs).length := evalList_length h2
  have hmapfst : (rs.zip es).map Prod.fst = rs :=
    List.map_fst_zip rs es (by omega)
  have hperm : (((rs.zip es).insertionSort (fun a b => a.2 ≤ b.2)).map Prod.fst).Perm rs := by
    have hp := (List.perm_insertionSort (fun (a b : Finset Nat × Nat) => a.2 ≤ b.2) (rs.zip es)).map Prod.fst
    rwa [hmapfst] at hp
  cases hsorted : ((rs.zip es).insertionSort (fun a b => a.2 ≤ b.2)).map Prod.fst with
  | nil =>
    rw [hsorted] at hperm
    have : rs = [] := hperm.nil_eq.symm
    rw [this] at hlen2
    simp at hlen2
  | cons b rest =>
    unfold evalNode
    rw [h1, h2]
    dsimp only
    rw [hsorted]
    dsimp only
    rw [andLoop_eq_foldl]
    rw [hsorted] at hperm
    rw [interFold_perm hperm.symm, interFold_cons]
    rfl


theorem estList_error_mem {ctx : EvalContext} :
    ∀ {l : List FilterNode} {e : FilterError}, estimateList ctx l = .error e →
      ∃ c ∈ l, ∃ e2, estimateCardinality ctx c = .error e2 := by
  intro l
  induction l with
  | nil => intro e h; cases h
  | cons c rest ih =>
    intro e h
    unfold estimateList at h
    cases hc : estimateCardinality ctx c with
    | error e2 => exact ⟨c, List.mem_cons_self _ _, e2, hc⟩
    | ok n =>
      rw [hc] at h
      cases hrest : estimateList ctx rest with
      | error e3 =>
        obtain ⟨c2, hm, e4, hc2⟩ := ih hrest
        exact ⟨c2, List.mem_cons_of_mem _ hm, e4, hc2⟩
      | ok es => rw [hrest] at h; cases h

theorem estList_error_of_mem {ctx : EvalContext} :
    ∀ {l : List FilterNode} {c : FilterNode} {e : FilterError}, c ∈ l →
      estimateCardinality ctx c = .error e → ∃ e2, estimateList ctx l = .error e2 := by
  intro l
  induction l with
  | nil => intro c e hm; cases hm
  | cons c0 rest ih =>
    intro c e hm hc
    rcases List.mem_cons.1 hm with rfl | hm2
    · refine ⟨?_, ?_⟩
      · exact match hr : estimateList ctx rest with
          | .error e3 => e
          | .ok es => e
      · unfold estimateList
        rw [hc]
        cases hr : estimateList ctx rest <;> simp
    · cases hc0 : estimateCardinality ctx c0 with
      | error e2 =>
        refine ⟨e2, ?_⟩
        unfold estimateList
        rw [hc0]
        obtain ⟨e3, hr⟩ := ih hm2 hc
        rw [hr]
      | ok n =>
        obtain ⟨e3, hr⟩ := ih hm2 hc
        refine ⟨e3, ?_⟩
        unfold estimateList
        rw [hc0, hr]

theorem estList_ok_mem {ctx : EvalContext} :
    ∀ {l : List FilterNode} {es : List Nat}, estimateList ctx l = .ok es →
      ∀ c ∈ l, ∃ n, estimateCardinality ctx c = .ok n := by
  intro l
  induction l with
  | nil => intro es h c hm; cases hm
  | cons c0 rest ih =>
    intro es h c hm
    obtain ⟨e, es', hc0, hrest, rfl⟩ := estimateList_ok_cons h
    rcases List.mem_cons.1 hm with rfl | hm2
    · exact ⟨e, hc0⟩
    · exact ih hrest c hm2

theorem estList_ok_of_mem {ctx : EvalContext} :
    ∀ {l : List FilterNode}, (∀ c ∈ l, ∃ n, estimateCardinality ctx c = .ok n) →
      ∃ es, estimateList ctx l = .ok es := by
  intro l
  induction l with
  | nil => intro _; exact ⟨[], rfl⟩
  | cons c0 rest ih =>
    intro hall
    obtain ⟨n, hc0⟩ := hall c0 (List.mem_cons_self _ _)
    obtain ⟨es, hrest⟩ := ih (fun c hm => hall c (List.mem_cons_of_mem _ hm))
    exact ⟨n :: es, estimateList_cons_of hc0 hrest⟩

theorem evalNode_and_perm {ctx : EvalContext} {l l' : List FilterNode} (hp : l.Perm l') :
    evalNode ctx (.and l) = evalNode ctx (.and l') := by
  cases l with
  | nil => rw [hp.symm.eq_nil]
  | cons c cs =>
    cases l' with
    | nil => cases hp.eq_nil
    | cons c' cs' =>
      cases hel : estimateList ctx (c :: cs) with
      | error e =>
        obtain ⟨cbad, hmem, e2, hbad⟩ := estList_error_mem hel
        obtain ⟨e3, hel'⟩ := estList_error_of_mem (hp.mem_iff.mp hmem) hbad
        have h1 : evalNode ctx (.and (c :: cs)) = .error e := by
          unfold evalNode; rw [hel]
          cases hev : evalList ctx (c :: cs) <;> rfl
        have h2 : evalNode ctx (.and (c' :: cs')) = .error e3 := by
          unfold evalNode; rw [hel']
          cases hev : evalList ctx (c' :: cs') <;> rfl
        rw [h1, h2, estimateList_error hel, estimateList_error hel']
      | ok es =>
        have hmemok := estList_ok_mem hel
        obtain ⟨es', hel'⟩ :=
          estList_ok_of_mem (fun x hx => hmemok x (hp.mem_iff.mpr hx))
        obtain ⟨rs, hrs⟩ := estList_ok_evalList_ok hel
        obtain ⟨rs', hrs'⟩ := estList_ok_evalList_ok hel'
        rw [evalNode_and_inter hel hrs, evalNode_and_inter hel' hrs']
        have h1 : rs = (c :: cs).map (evalD ctx) := evalList_eq_map hrs
        have h2 : rs' = (c' :: cs').map (evalD ctx) := evalList_eq_map hrs'
        have hpr : rs.Perm rs' := by rw [h1, h2]; exact hp.map _
        rw [interFold_perm hpr]

/-! ## Helper lemmas: association-list maps -/

theorem mapLookup_nil {κ ν : Type} [DecidableEq κ] (k : κ) :
    mapLookup ([] : List (κ × ν)) k = none := rfl

theorem mapLookup_cons {κ ν : Type} [DecidableEq κ] (p : κ × ν) (m : List (κ × ν)) (k : κ) :
    mapLookup (p :: m) k = if p.1 = k then some p.2 else mapLookup m k := by
  unfold mapLookup
  by_cases h : p.1 = k
  · simp [List.find?, h]
  · simp [List.find?, h]

theorem mapLookup_mapSet_self {κ ν : Type} [DecidableEq κ] (k : κ) (v : ν)
    (m : List (κ × ν)) : mapLookup (mapSet k v m) k = some v := by
  induction m with
  | nil => simp [mapSet, mapLookup_cons]
  | cons p t ih =>
    unfold mapSet
    by_cases h : p.1 = k
    · simp [h, mapLookup_cons]
    · simp [h, mapLookup_cons, ih]

theorem mapLookup_mapSet_ne {κ ν : Type} [DecidableEq κ] {k k' : κ} (v : ν)
    (m : List (κ × ν)) (h : k' ≠ k) :
    mapLookup (mapSet k v m) k' = mapLookup m k' := by
  induction m with
  | nil => simp [mapSet, mapLookup_cons, Ne.symm h]
  | cons p t ih =>
    unfold mapSet
    by_cases hp : p.1 = k
    · simp [hp, mapLookup_cons, Ne.symm h]
    · simp [hp, mapLookup_cons, ih]

theorem mapSet_self {κ ν : Type} [DecidableEq κ] {k : κ} {v : ν} {m : List (κ × ν)}
    (h : mapLookup m k = some v) : mapSet k v m = m := by
  induction m with
  | nil => cases h
  | cons p t ih =>
    rw [mapLookup_cons] at h
    unfold mapSet
    by_cases hp : p.1 = k
    · simp only [hp, if_true] at h ⊢
      cases h
      cases p
      simp_all
    · simp only [hp, if_false] at h ⊢
      simp [ih h]

theorem mapLookup_none_iff {κ ν : Type} [DecidableEq κ] {m : List (κ × ν)} {k : κ} :
    mapLookup m k = none ↔ ∀ p ∈ m, p.1 ≠ k := by
  induction m with
  | nil => simp [mapLookup_nil]
  | cons p t ih =>
    rw [mapLookup_cons]
    by_cases hp : p.1 = k
    · simp [hp]
    · simp [hp, ih]

theorem mapLookup_some_mem {κ ν : Type} [DecidableEq κ] {m : List (κ × ν)} {k : κ} {v : ν}
    (h : mapLookup m k = some v) : (k, v) ∈ m := by
  induction m with
  | nil => cases h
  | cons p t ih =>
    rw [mapLookup_cons] at h
    by_cases hp : p.1 = k
    · simp only [hp, if_true] at h
      cases h
      cases p
      simp_all
    · simp only [hp, if_false] at h
      exact List.mem_cons_of_mem _ (ih h)

theorem mapSet_append_of_none {κ ν : Type} [DecidableEq κ] {m : List (κ × ν)} {k : κ}
    (v : ν) (h : mapLookup m k = none) : mapSet k v m = m ++ [(k, v)] := by
  induction m with
  | nil => rfl
  | cons p t ih =>
    rw [mapLookup_cons] at h
    by_cases hp : p.1 = k
    · simp [hp] at h
    · simp only [mapSet, hp, if_false, List.cons_append, List.cons.injEq, true_and]
      exact ih (by simpa [hp] using h)

theorem mapSet_keys_of_some {κ ν : Type} [DecidableEq κ] {m : List (κ × ν)} {k : κ} {w : ν}
    (v : ν) (h : mapLookup m k = some w) :
    (mapSet k v m).map Prod.fst = m.map Prod.fst := by
  induction m with
  | nil => cases h
  | cons p t ih =>
    rw [mapLookup_cons] at h
    unfold mapSet
    by_cases hp : p.1 = k
    · simp [hp]
    · simp only [hp, if_false, List.map_cons, List.cons.injEq, true_and]
      exact ih (by simpa [hp] using h)

theorem mem_mapSet_of_none {κ ν : Type} [DecidableEq κ] {m : List (κ × ν)} {k : κ} {v : ν}
    {p : κ × ν} (h : mapLookup m k = none) :
    p ∈ mapSet k v m ↔ p ∈ m ∨ p = (k, v) := by
  rw [mapSet_append_of_none v h]
  simp

theorem mem_mapSet_of_some {κ ν : Type} [DecidableEq κ] {m : List (κ × ν)} {k : κ} {w : ν}
    {v : ν} {p : κ × ν} (hnodup : (m.map Prod.fst).Nodup) (h : mapLookup m k = some w) :
    p ∈ mapSet k v m ↔ p = (k, v) ∨ (p ∈ m ∧ p.1 ≠ k) := by
  induction m with
  | nil => cases h
  | cons q t ih =>
    rw [mapLookup_cons] at h
    simp only [List.map_cons, List.nodup_cons] at hnodup
    unfold mapSet
    by_cases hq : q.1 = k
    · simp only [hq, if_true] at h ⊢
      constructor
      · intro hm
        rcases List.mem_cons.1 hm with rfl | hm2
        · exact Or.inl rfl
        · refine Or.inr ⟨List.mem_cons_of_mem _ hm2, ?_⟩
          intro hc
          exact hnodup.1 (hq ▸ hc ▸ List.mem_map_of_mem Prod.fst hm2)
      · intro hm
        rcases hm with rfl | ⟨hm2, hne⟩
        · exact List.mem_cons_self _ _
        · rcases List.mem_cons.1 hm2 with rfl | hm3
          · exact absurd hq hne
          · exact List.mem_cons_of_mem _ hm3
    · simp only [hq, if_false] at h ⊢
      constructor
      · intro hm
        rcases List.mem_cons.1 hm with rfl | hm2
        · exact Or.inr ⟨List.mem_cons_self _ _, hq⟩
        · rcases (ih hnodup.2 h).1 hm2 with h1 | ⟨h1, h2⟩
          · exact Or.inl h1
          · exact Or.inr ⟨List.mem_cons_of_mem _ h1, h2⟩
      · intro hm
        rcases hm with rfl | ⟨hm2, hne⟩
        · exact List.mem_cons_of_mem _ ((ih hnodup.2 h).2 (Or.inl rfl))
        · rcases List.mem_cons.1 hm2 with rfl | hm3
          · exact List.mem_cons_self _ _
          · exact List.mem_cons_of_mem _ ((ih hnodup.2 h).2 (Or.inr ⟨hm3, hne⟩))

theorem mapLookup_eq_some_of_mem_nodup {κ ν : Type} [DecidableEq κ] {m : List (κ × ν)}
    {p : κ × ν} (hnodup : (m.map Prod.fst).Nodup) (hm : p ∈ m) :
    mapLookup m p.1 = some p.2 := by
  induction m with
  | nil => cases hm
  | cons q t ih =>
    simp only [List.map_cons, List.nodup_cons] at hnodup
    rw [mapLookup_cons]
    rcases List.mem_cons.1 hm with rfl | hm2
    · simp
    · by_cases hq : q.1 = p.1
      · exact absurd (hq ▸ List.mem_map_of_mem Prod.fst hm2) hnodup.1
      · simp only [hq, if_false]
        exact ih hnodup.2 hm2


/-! Posting fold characterizations -/

theorem foldl_addPosting_apply (l : List String) (m : String → Finset Nat) (dId : Nat)
    (t : String) :
    (l.foldl (fun m tok => addPosting m tok dId) m) t =
      if t ∈ l then insert dId (m t) else m t := by
  induction l generalizing m with
  | nil => simp
  | cons tok rest ih =>
    rw [List.foldl_cons, ih]
    by_cases ht : t ∈ rest
    · by_cases he : t = tok <;> simp [addPosting, ht, he, Finset.insert_idem]
    · by_cases he : t = tok
      · subst he
        simp [addPosting, ht]
      · simp [addPosting, ht, he, Ne.symm he]

theorem foldl_removePosting_apply (l : List String) (m : String → Finset Nat) (dId : Nat)
    (t : String) :
    (l.foldl (fun m tok => removePosting m tok dId) m) t =
      if t ∈ l then (m t).erase dId else m t := by
  induction l generalizing m with
  | nil => simp
  | cons tok rest ih =>
    rw [List.foldl_cons, ih]
    by_cases ht : t ∈ rest
    · by_cases he : t = tok <;> simp [removePosting, ht, he, Finset.erase_idem]
    · by_cases he : t = tok
      · subst he
        simp [removePosting, ht]
      · simp [removePosting, ht, he, Ne.symm he]

theorem foldl_add_remove_restore (l : List String) (m : String → Finset Nat) (dId : Nat)
    (hmem : ∀ t ∈ l, dId ∈ m t) :
    (l.foldl (fun m tok => addPosting m tok dId)
      (l.foldl (fun m tok => removePosting m tok dId) m)) = m := by
  funext t
  rw [foldl_addPosting_apply, foldl_removePosting_apply]
  by_cases ht : t ∈ l
  · simp [ht, Finset.insert_erase (hmem t ht)]
  · simp [ht]


/-! Effect of addEntryToIndexes / removeEntryFromIndexes on each component -/

theorem addVis_unchanged (doc : IndexedDoc) (s : CoreState) :
    (addVisibilityPosting doc s).docs = s.docs ∧
    (addVisibilityPosting doc s).idToDoc = s.idToDoc ∧
    (addVisibilityPosting doc s).nextDocId = s.nextDocId ∧
    (addVisibilityPosting doc s).univ = s.univ ∧
    (addVisibilityPosting doc s).updatedOrder = s.updatedOrder ∧
    (addVisibilityPosting doc s).docSortRank = s.docSortRank ∧
    (addVisibilityPosting doc s).tokenToPosting = s.tokenToPosting ∧
    (addVisibilityPosting doc s).presenceToPosting = s.presenceToPosting := by
  unfold addVisibilityPosting
  cases readVisibility doc.entry.attrs <;> exact ⟨rfl, rfl, rfl, rfl, rfl, rfl, rfl, rfl⟩

theorem addEntry_docs (doc : IndexedDoc) (s : CoreState) :
    (addEntryToIndexes doc s).docs = s.docs := by
  unfold addEntryToIndexes
  exact (addVis_unchanged doc _).1

theorem addEntry_idToDoc (doc : IndexedDoc) (s : CoreState) :
    (addEntryToIndexes doc s).idToDoc = s.idToDoc := by
  unfold addEntryToIndexes
  exact (addVis_unchanged doc _).2.1

theorem addEntry_nextDocId (doc : IndexedDoc) (s : CoreState) :
    (addEntryToIndexes doc s).nextDocId = s.nextDocId := by
  unfold addEntryToIndexes
  exact (addVis_unchanged doc _).2.2.1

theorem addEntry_univ (doc : IndexedDoc) (s : CoreState) :
    (addEntryToIndexes doc s).univ = insert doc.docId s.univ := by
  unfold addEntryToIndexes
  exact (addVis_unchanged doc _).2.2.2.1

theorem addVis_pub_mem (doc : IndexedDoc) (s : CoreState) (d : Nat) :
    (d ∈ (addVisibilityPosting doc s).visibilityPublic ↔
      d ∈ s.visibilityPublic ∨ (readVisibility doc.entry.attrs = .pub ∧ d = doc.docId)) := by
  unfold addVisibilityPosting
  cases hv : readVisibility doc.entry.attrs <;> simp [hv, Finset.mem_insert, or_comm, eq_comm]

theorem addVis_int_mem (doc : IndexedDoc) (s : CoreState) (d : Nat) :
    (d ∈ (addVisibilityPosting doc s).visibilityInternal ↔
      d ∈ s.visibilityInternal ∨
        (readVisibility doc.entry.attrs = .internal ∧ d = doc.docId)) := by
  unfold addVisibilityPosting
  cases hv : readVisibility doc.entry.attrs <;> simp [hv, Finset.mem_insert, or_comm, eq_comm]

theorem addVis_res_mem (doc : IndexedDoc) (s : CoreState) (d : Nat) :
    (d ∈ (addVisibilityPosting doc s).visibilityRestricted ↔
      d ∈ s.visibilityRestricted ∨
        (readVisibility doc.entry.attrs = .restricted ∧ d = doc.docId)) := by
  unfold addVisibilityPosting
  cases hv : readVisibility doc.entry.attrs <;> simp [hv, Finset.mem_insert, or_comm, eq_comm]

theorem addVis_group_mem (doc : IndexedDoc) (s : CoreState) (d : Nat) (g : String) :
    (d ∈ (addVisibilityPosting doc s).groupToPosting g ↔
      d ∈ s.groupToPosting g ∨
        (readVisibility doc.entry.attrs = .restricted ∧
          g ∈ allowedGroupList doc.entry.attrs ∧ d = doc.docId)) := by
  unfold addVisibilityPosting
  cases hv : readVisibility doc.entry.attrs
  · simp [hv]
  · simp [hv]
  · simp only [hv, true_and]
    rw [foldl_addPosting_apply]
    by_cases hg : g ∈ allowedGroupList doc.entry.attrs <;>
      simp [hg, Finset.mem_insert, or_comm, eq_comm]

theorem removeVis_unchanged (doc : IndexedDoc) (s : CoreState) :
    (removeVisibilityPosting doc s).docs = s.docs ∧
    (removeVisibilityPosting doc s).idToDoc = s.idToDoc ∧
    (removeVisibilityPosting doc s).nextDocId = s.nextDocId ∧
    (removeVisibilityPosting doc s).univ = s.univ ∧
    (removeVisibilityPosting doc s).updatedOrder = s.updatedOrder ∧
    (removeVisibilityPosting doc s).docSortRank = s.docSortRank ∧
    (removeVisibilityPosting doc s).tokenToPosting = s.tokenToPosting ∧
    (removeVisibilityPosting doc s).presenceToPosting = s.presenceToPosting := by
  unfold removeVisibilityPosting
  cases readVisibility doc.entry.attrs <;> exact ⟨rfl, rfl, rfl, rfl, rfl, rfl, rfl, rfl⟩

theorem removeVis_pub_mem (doc : IndexedDoc) (s : CoreState) (d : Nat) :
    (d ∈ (removeVisibilityPosting doc s).visibilityPublic ↔
      d ∈ s.visibilityPublic ∧
        ¬(readVisibility doc.entry.attrs = .pub ∧ d = doc.docId)) := by
  unfold removeVisibilityPosting
  cases hv : readVisibility doc.entry.attrs <;>
    simp [hv, Finset.mem_erase, and_comm, eq_comm]

theorem removeVis_int_mem (doc : IndexedDoc) (s : CoreState) (d : Nat) :
    (d ∈ (removeVisibilityPosting doc s).visibilityInternal ↔
      d ∈ s.visibilityInternal ∧
        ¬(readVisibility doc.entry.attrs = .internal ∧ d = doc.docId)) := by
  unfold removeVisibilityPosting
  cases hv : readVisibility doc.entry.attrs <;>
    simp [hv, Finset.mem_erase, and_comm, eq_comm]

theorem removeVis_res_mem (doc : IndexedDoc) (s : CoreState) (d : Nat) :
    (d ∈ (removeVisibilityPosting doc s).visibilityRestricted ↔
      d ∈ s.visibilityRestricted ∧
        ¬(readVisibility doc.entry.attrs = .restricted ∧ d = doc.docId)) := by
  unfold removeVisibilityPosting
  cases hv : readVisibility doc.entry.attrs <;>
    simp [hv, Finset.mem_erase, and_comm, eq_comm]

theorem removeVis_group_mem (doc : IndexedDoc) (s : CoreState) (d : Nat) (g : String) :
    (d ∈ (removeVisibilityPosting doc s).groupToPosting g ↔
      d ∈ s.groupToPosting g ∧
        ¬(readVisibility doc.entry.attrs = .restricted ∧
          g ∈ allowedGroupList doc.entry.attrs ∧ d = doc.docId)) := by
  unfold removeVisibilityPosting
  cases hv : readVisibility doc.entry.attrs
  · simp [hv]
  · simp [hv]
  · simp only [hv, true_and]
    rw [foldl_removePosting_apply]
    by_cases hg : g ∈ allowedGroupList doc.entry.attrs <;>
      simp [hg, Finset.mem_erase, and_comm, eq_comm]

theorem addEntry_pub_mem (doc : IndexedDoc) (s : CoreState) (d : Nat) :
    (d ∈ (addEntryToIndexes doc s).visibilityPublic ↔
      d ∈ s.visibilityPublic ∨ (readVisibility doc.entry.attrs = .pub ∧ d = doc.docId)) := by
  unfold addEntryToIndexes
  exact addVis_pub_mem doc _ d

theorem addEntry_int_mem (doc : IndexedDoc) (s : CoreState) (d : Nat) :
    (d ∈ (addEntryToIndexes doc s).visibilityInternal ↔
      d ∈ s.visibilityInternal ∨
        (readVisibility doc.entry.attrs = .internal ∧ d = doc.docId)) := by
  unfold addEntryToIndexes
  exact addVis_int_mem doc _ d

theorem addEntry_res_mem (doc : IndexedDoc) (s : CoreState) (d : Nat) :
    (d ∈ (addEntryToIndexes doc s).visibilityRestricted ↔
      d ∈ s.visibilityRestricted ∨
        (readVisibility doc.entry.attrs = .restricted ∧ d = doc.docId)) := by
  unfold addEntryToIndexes
  exact addVis_res_mem doc _ d

theorem addEntry_group_mem (doc : IndexedDoc) (s : CoreState) (d : Nat) (g : String) :
    (d ∈ (addEntryToIndexes doc s).groupToPosting g ↔
      d ∈ s.groupToPosting g ∨
        (readVisibility doc.entry.attrs = .restricted ∧
          g ∈ allowedGroupList doc.entry.attrs ∧ d = doc.docId)) := by
  unfold addEntryToIndexes
  exact addVis_group_mem doc _ d g

theorem removeEntry_docs (doc : IndexedDoc) (s : CoreState) :
    (removeEntryFromIndexes doc s).docs = s.docs := by
  unfold removeEntryFromIndexes
  exact (removeVis_unchanged doc _).1

theorem removeEntry_idToDoc (doc : IndexedDoc) (s : CoreState) :
    (removeEntryFromIndexes doc s).idToDoc = s.idToDoc := by
  unfold removeEntryFromIndexes
  exact (removeVis_unchanged doc _).2.1

theorem removeEntry_nextDocId (doc : IndexedDoc) (s : CoreState) :
    (removeEntryFromIndexes doc s).nextDocId = s.nextDocId := by
  unfold removeEntryFromIndexes
  exact (removeVis_unchanged doc _).2.2.1

theorem removeEntry_univ (doc : IndexedDoc) (s : CoreState) :
    (removeEntryFromIndexes doc s).univ = s.univ.erase doc.docId := by
  unfold removeEntryFromIndexes
  exact (removeVis_unchanged doc _).2.2.2.1

theorem removeEntry_pub_mem (doc : IndexedDoc) (s : CoreState) (d : Nat) :
    (d ∈ (removeEntryFromIndexes doc s).visibilityPublic ↔
      d ∈ s.visibilityPublic ∧
        ¬(readVisibility doc.entry.attrs = .pub ∧ d = doc.docId)) := by
  unfold removeEntryFromIndexes
  exact removeVis_pub_mem doc _ d

theorem removeEntry_int_mem (doc : IndexedDoc) (s : CoreState) (d : Nat) :
    (d ∈ (removeEntryFromIndexes doc s).visibilityInternal ↔
      d ∈ s.visibilityInternal ∧
        ¬(readVisibility doc.entry.attrs = .internal ∧ d = doc.docId)) := by
  unfold removeEntryFromIndexes
  exact removeVis_int_mem doc _ d

theorem removeEntry_res_mem (doc : IndexedDoc) (s : CoreState) (d : Nat) :
    (d ∈ (removeEntryFromIndexes doc s).visibilityRestricted ↔
      d ∈ s.visibilityRestricted ∧
        ¬(readVisibility doc.entry.attrs = .restricted ∧ d = doc.docId)) := by
  unfold removeEntryFromIndexes
  exact removeVis_res_mem doc _ d

theorem removeEntry_group_mem (doc : IndexedDoc) (s : CoreState) (d : Nat) (g : String) :
    (d ∈ (removeEntryFromIndexes doc s).groupToPosting g ↔
      d ∈ s.groupToPosting g ∧
        ¬(readVisibility doc.entry.attrs = .restricted ∧
          g ∈ allowedGroupList doc.entry.attrs ∧ d = doc.docId)) := by
  unfold removeEntryFromIndexes
  exact removeVis_group_mem doc _ d g


/-! The well-formedness invariant of reachable index states -/

structure WFCore (s : CoreState) : Prop where
  keysBound : ∀ p ∈ s.docs, p.1 < s.nextDocId
  docsNodup : (s.docs.map Prod.fst).Nodup
  docsDocId : ∀ p ∈ s.docs, (p.2).docId = p.1
  docsId : ∀ p ∈ s.docs, mapLookup s.idToDoc (p.2).entry.id = some p.1
  idOk : ∀ q ∈ s.idToDoc, ∃ doc, mapLookup s.docs q.2 = some doc ∧ doc.entry.id = q.1
  univEq : s.univ = (s.docs.map Prod.fst).toFinset
  visPub : ∀ d, d ∈ s.visibilityPublic ↔
    ∃ doc, docsLookup s d = some doc ∧ readVisibility doc.entry.attrs = .pub
  visInt : ∀ d, d ∈ s.visibilityInternal ↔
    ∃ doc, docsLookup s d = some doc ∧ readVisibility doc.entry.attrs = .internal
  visRes : ∀ d, d ∈ s.visibilityRestricted ↔
    ∃ doc, docsLookup s d = some doc ∧ readVisibility doc.entry.attrs = .restricted
  visGroup : ∀ d g, d ∈ s.groupToPosting g ↔
    ∃ doc, docsLookup s d = some doc ∧ readVisibility doc.entry.attrs = .restricted ∧
      g ∈ allowedGroupList doc.entry.attrs

theorem wfcore_init : WFCore initState := by
  constructor <;> simp [initState, docsLookup, mapLookup]

theorem wfcore_resort {s : CoreState} (h : WFCore s) : WFCore (resortUpdatedOrder s) := by
  cases h with
  | mk kb dn dd di io ue vp vi vr vg => exact ⟨kb, dn, dd, di, io, ue, vp, vi, vr, vg⟩

theorem wfcore_addEntry {s2 : CoreState} {new : IndexedDoc}
    (hdocs : mapLookup s2.docs new.docId = some new)
    (kb : ∀ p ∈ s2.docs, p.1 < s2.nextDocId)
    (dn : (s2.docs.map Prod.fst).Nodup)
    (dd : ∀ p ∈ s2.docs, (p.2).docId = p.1)
    (di : ∀ p ∈ s2.docs, mapLookup s2.idToDoc (p.2).entry.id = some p.1)
    (io : ∀ q ∈ s2.idToDoc, ∃ doc, mapLookup s2.docs q.2 = some doc ∧ doc.entry.id = q.1)
    (ue : s2.univ = ((s2.docs.map Prod.fst).toFinset).erase new.docId)
    (vp : ∀ d, d ∈ s2.visibilityPublic ↔ d ≠ new.docId ∧
      ∃ doc, docsLookup s2 d = some doc ∧ readVisibility doc.entry.attrs = .pub)
    (vi : ∀ d, d ∈ s2.visibilityInternal ↔ d ≠ new.docId ∧
      ∃ doc, docsLookup s2 d = some doc ∧ readVisibility doc.entry.attrs = .internal)
    (vr : ∀ d, d ∈ s2.visibilityRestricted ↔ d ≠ new.docId ∧
      ∃ doc, docsLookup s2 d = some doc ∧ readVisibility doc.entry.attrs = .restricted)
    (vg : ∀ d g, d ∈ s2.groupToPosting g ↔ d ≠ new.docId ∧
      ∃ doc, docsLookup s2 d = some doc ∧ readVisibility doc.entry.attrs = .restricted ∧
        g ∈ allowedGroupList doc.entry.attrs) :
    WFCore (addEntryToIndexes new s2) := by
  have hdocseq := addEntry_docs new s2
  have hid := addEntry_idToDoc new s2
  have hnext := addEntry_nextDocId new s2
  have huniv := addEntry_univ new s2
  have hmemnew : new.docId ∈ (s2.docs.map Prod.fst).toFinset := by
    simp only [List.mem_toFinset, List.mem_map]
    exact ⟨(new.docId, new), mapLookup_some_mem hdocs, rfl⟩
  refine ⟨?_, ?_, ?_, ?_, ?_, ?_, ?_, ?_, ?_, ?_⟩
  · rw [hdocseq, hnext]; exact kb
  · rw [hdocseq]; exact dn
  · rw [hdocseq]; exact dd
  · rw [hdocseq, hid]; exact di
  · rw [hdocseq, hid]; exact io
  · rw [huniv, hdocseq, ue, Finset.insert_erase hmemnew]
  · intro d
    rw [addEntry_pub_mem, vp]
    unfold docsLookup
    rw [hdocseq]
    by_cases hd : d = new.docId
    · subst hd
      simp [hdocs]
    · simp [hd]
  · intro d
    rw [addEntry_int_mem, vi]
    unfold docsLookup
    rw [hdocseq]
    by_cases hd : d = new.docId
    · subst hd
      simp [hdocs]
    · simp [hd]
  · intro d
    rw [addEntry_res_mem, vr]
    unfold docsLookup
    rw [hdocseq]
    by_cases hd : d = new.docId
    · subst hd
      simp [hdocs]
    · simp [hd]
  · intro d g
    rw [addEntry_group_mem, vg]
    unfold docsLookup
    rw [hdocseq]
    by_cases hd : d = new.docId
    · subst hd
      simp [hdocs]
    · simp [hd]


theorem wfcore_upsertEntry (e : EntryRecord) (b : Bool) {s : CoreState} (hwf : WFCore s) :
    WFCore (upsertEntry e b s) := by
  unfold upsertEntry
  cases hid : mapLookup s.idToDoc e.id with
  | none =>
    -- fresh insert path
    have hnone : mapLookup s.docs s.nextDocId = none := by
      rw [mapLookup_none_iff]
      intro p hp
      exact Nat.ne_of_lt (hwf.keysBound p hp)
    have hkeys : (mapSet s.nextDocId (buildIndexedDoc s.nextDocId e) s.docs).map Prod.fst =
        s.docs.map Prod.fst ++ [s.nextDocId] := by
      rw [mapSet_append_of_none _ hnone]
      simp
    have hnmem : s.nextDocId ∉ s.docs.map Prod.fst := by
      intro hc
      obtain ⟨p, hp, hp1⟩ := List.mem_map.1 hc
      exact Nat.ne_of_lt (hwf.keysBound p hp) hp1
    have h3 : WFCore (addEntryToIndexes (buildIndexedDoc s.nextDocId e)
        { s with
          nextDocId := s.nextDocId + 1
          idToDoc := mapSet e.id s.nextDocId s.idToDoc
          docs := mapSet s.nextDocId (buildIndexedDoc s.nextDocId e) s.docs }) := by
      refine wfcore_addEntry (mapLookup_mapSet_self _ _ _) ?_ ?_ ?_ ?_ ?_ ?_ ?_ ?_ ?_ ?_
      · intro p hp
        rcases (mem_mapSet_of_none hnone).1 hp with hp2 | rfl
        · exact Nat.lt_succ_of_lt (hwf.keysBound p hp2)
        · exact Nat.lt_succ_self _
      · rw [hkeys]
        simp only [List.nodup_append, List.nodup_cons, List.not_mem_nil, not_false_iff,
          List.nodup_nil, and_true, true_and]
        exact ⟨hwf.docsNodup, by simpa using hnmem⟩
      · intro p hp
        rcases (mem_mapSet_of_none hnone).1 hp with hp2 | rfl
        · exact hwf.docsDocId p hp2
        · rfl
      · intro p hp
        rcases (mem_mapSet_of_none hnone).1 hp with hp2 | rfl
        · have hne : (p.2).entry.id ≠ e.id := by
            intro hc
            rw [← hc] at hid
            rw [hwf.docsId p hp2] at hid
            cases hid
          rw [mapLookup_mapSet_ne _ _ hne]
          exact hwf.docsId p hp2
        · exact mapLookup_mapSet_self _ _ _
      · intro q hq
        rcases (mem_mapSet_of_none hid).1 hq with hq2 | rfl
        · obtain ⟨doc, hdoc, hdid⟩ := hwf.idOk q hq2
          have hne : q.2 ≠ s.nextDocId := by
            intro hc
            rw [hc, hnone] at hdoc
            cases hdoc
          exact ⟨doc, by rw [mapLookup_mapSet_ne _ _ hne]; exact hdoc, hdid⟩
        · exact ⟨buildIndexedDoc s.nextDocId e, mapLookup_mapSet_self _ _ _, rfl⟩
      · show s.univ = _
        rw [hwf.univEq, hkeys]
        simp only [List.toFinset_append, List.toFinset_cons, List.toFinset_nil]
        rw [Finset.union_comm]
        show _ = (insert s.nextDocId (s.docs.map Prod.fst).toFinset).erase s.nextDocId
        rw [Finset.erase_insert (by simpa using hnmem)]
      · intro d
        show d ∈ s.visibilityPublic ↔ _
        rw [hwf.visPub d]
        unfold docsLookup
        by_cases hd : d = s.nextDocId
        · subst hd
          simp [hnone, buildIndexedDoc]
        · simp [buildIndexedDoc, hd, mapLookup_mapSet_ne _ _ hd]
      · intro d
        show d ∈ s.visibilityInternal ↔ _
        rw [hwf.visInt d]
        unfold docsLookup
        by_cases hd : d = s.nextDocId
        · subst hd
          simp [hnone, buildIndexedDoc]
        · simp [buildIndexedDoc, hd, mapLookup_mapSet_ne _ _ hd]
      · intro d
        show d ∈ s.visibilityRestricted ↔ _
        rw [hwf.visRes d]
        unfold docsLookup
        by_cases hd : d = s.nextDocId
        · subst hd
          simp [hnone, buildIndexedDoc]
        · simp [buildIndexedDoc, hd, mapLookup_mapSet_ne _ _ hd]
      · intro d g
        show d ∈ s.groupToPosting g ↔ _
        rw [hwf.visGroup d g]
        unfold docsLookup
        by_cases hd : d = s.nextDocId
        · subst hd
          simp [hnone, buildIndexedDoc]
        · simp [buildIndexedDoc, hd, mapLookup_mapSet_ne _ _ hd]
    cases b
    · exact h3
    · exact wfcore_resort h3
  | some d0 =>
    cases hdoc : docsLookup s d0 with
    | none =>
      -- impossible under idOk
      exfalso
      obtain ⟨doc, hdoc2, _⟩ := hwf.idOk (e.id, d0) (mapLookup_some_mem hid)
      unfold docsLookup at hdoc
      rw [hdoc2] at hdoc
      cases hdoc
    | some old =>
      dsimp only
      rw [hdoc]
      dsimp only
      by_cases hrev : old.entry.rev > e.rev
      · rw [if_pos hrev]
        exact hwf
      · rw [if_neg hrev]
        -- replace path
        have hpair : (d0, old) ∈ s.docs := mapLookup_some_mem hdoc
        have holdid : old.docId = d0 := hwf.docsDocId (d0, old) hpair
        have holdentry : old.entry.id = e.id := by
          obtain ⟨doc, hdoc2, hdid⟩ := hwf.idOk (e.id, d0) (mapLookup_some_mem hid)
          have : doc = old := by
            unfold docsLookup at hdoc
            rw [hdoc] at hdoc2
            cases hdoc2
            rfl
          rw [← this, hdid]
        have hdoc' : mapLookup s.docs d0 = some old := hdoc
        have hpub0 : d0 ∈ s.visibilityPublic ↔ readVisibility old.entry.attrs = .pub := by
          rw [hwf.visPub d0]
          constructor
          · rintro ⟨doc, hdoc2, hv⟩
            unfold docsLookup at hdoc2
            rw [hdoc'] at hdoc2
            cases hdoc2
            exact hv
          · intro hv
            exact ⟨old, hdoc, hv⟩
        have hint0 : d0 ∈ s.visibilityInternal ↔ readVisibility old.entry.attrs = .internal := by
          rw [hwf.visInt d0]
          constructor
          · rintro ⟨doc, hdoc2, hv⟩
            unfold docsLookup at hdoc2
            rw [hdoc'] at hdoc2
            cases hdoc2
            exact hv
          · intro hv
            exact ⟨old, hdoc, hv⟩
        have hres0 : d0 ∈ s.visibilityRestricted ↔ readVisibility old.entry.attrs = .restricted := by
          rw [hwf.visRes d0]
          constructor
          · rintro ⟨doc, hdoc2, hv⟩
            unfold docsLookup at hdoc2
            rw [hdoc'] at hdoc2
            cases hdoc2
            exact hv
          · intro hv
            exact ⟨old, hdoc, hv⟩
        have hgrp0 : ∀ g, d0 ∈ s.groupToPosting g ↔
            (readVisibility old.entry.attrs = .restricted ∧
              g ∈ allowedGroupList old.entry.attrs) := by
          intro g
          rw [hwf.visGroup d0 g]
          constructor
          · rintro ⟨doc, hdoc2, hv, hg⟩
            unfold docsLookup at hdoc2
            rw [hdoc'] at hdoc2
            cases hdoc2
            exact ⟨hv, hg⟩
          · rintro ⟨hv, hg⟩
            exact ⟨old, hdoc, hv, hg⟩
        have h3 : WFCore (addEntryToIndexes (buildIndexedDoc d0 e)
            { removeEntryFromIndexes old s with
              docs := mapSet d0 (buildIndexedDoc d0 e) (removeEntryFromIndexes old s).docs }) := by
          refine wfcore_addEntry ?_ ?_ ?_ ?_ ?_ ?_ ?_ ?_ ?_ ?_ ?_
          · show mapLookup (mapSet d0 _ _) _ = _
            rw [removeEntry_docs]
            exact mapLookup_mapSet_self _ _ _
          · intro p hp
            show p.1 < (removeEntryFromIndexes old s).nextDocId
            rw [removeEntry_nextDocId]
            rw [removeEntry_docs] at hp
            rcases (mem_mapSet_of_some hwf.docsNodup hdoc').1 hp with rfl | ⟨hp2, _⟩
            · exact hwf.keysBound (d0, old) hpair
            · exact hwf.keysBound p hp2
          · show ((mapSet d0 _ (removeEntryFromIndexes old s).docs).map Prod.fst).Nodup
            rw [removeEntry_docs, mapSet_keys_of_some _ hdoc']
            exact hwf.docsNodup
          · intro p hp
            rw [removeEntry_docs] at hp
            rcases (mem_mapSet_of_some hwf.docsNodup hdoc').1 hp with rfl | ⟨hp2, _⟩
            · rfl
            · exact hwf.docsDocId p hp2
          · intro p hp
            show mapLookup (removeEntryFromIndexes old s).idToDoc _ = _
            rw [removeEntry_idToDoc]
            rw [removeEntry_docs] at hp
            rcases (mem_mapSet_of_some hwf.docsNodup hdoc').1 hp with rfl | ⟨hp2, _⟩
            · exact hid
            · exact hwf.docsId p hp2
          · intro q hq
            show ∃ doc, mapLookup (mapSet d0 _ (removeEntryFromIndexes old s).docs) q.2 = _ ∧ _
            rw [removeEntry_docs]
            rw [removeEntry_idToDoc] at hq
            obtain ⟨doc, hdoc2, hdid⟩ := hwf.idOk q hq
            by_cases hq2 : q.2 = d0
            · refine ⟨buildIndexedDoc d0 e, ?_, ?_⟩
              · rw [hq2]
                exact mapLookup_mapSet_self _ _ _
              · show e.id = q.1
                rw [hq2, hdoc'] at hdoc2
                cases hdoc2
                rw [← holdentry, hdid]
            · exact ⟨doc, by rw [mapLookup_mapSet_ne _ _ hq2]; exact hdoc2, hdid⟩
          · show (removeEntryFromIndexes old s).univ = _
            rw [removeEntry_univ, removeEntry_docs, mapSet_keys_of_some _ hdoc',
              hwf.univEq, holdid]
            rfl
          · intro d
            show d ∈ (removeEntryFromIndexes old s).visibilityPublic ↔ _
            rw [removeEntry_pub_mem, holdid]
            unfold docsLookup
            show _ ↔ _ ≠ _ ∧ ∃ doc, mapLookup (mapSet d0 _ (removeEntryFromIndexes old s).docs) d = _ ∧ _
            rw [removeEntry_docs]
            by_cases hd : d = d0
            · subst hd
              simp [hpub0, buildIndexedDoc]
            · rw [mapLookup_mapSet_ne _ _ hd]
              simp [hd, hwf.visPub d, docsLookup, buildIndexedDoc]
          · intro d
            show d ∈ (removeEntryFromIndexes old s).visibilityInternal ↔ _
            rw [removeEntry_int_mem, holdid]
            unfold docsLookup
            show _ ↔ _ ≠ _ ∧ ∃ doc, mapLookup (mapSet d0 _ (removeEntryFromIndexes old s).docs) d = _ ∧ _
            rw [removeEntry_docs]
            by_cases hd : d = d0
            · subst hd
              simp [hint0, buildIndexedDoc]
            · rw [mapLookup_mapSet_ne _ _ hd]
              simp [hd, hwf.visInt d, docsLookup, buildIndexedDoc]
          · intro d
            show d ∈ (removeEntryFromIndexes old s).visibilityRestricted ↔ _
            rw [removeEntry_res_mem, holdid]
            unfold docsLookup
            show _ ↔ _ ≠ _ ∧ ∃ doc, mapLookup (mapSet d0 _ (removeEntryFromIndexes old s).docs) d = _ ∧ _
            rw [removeEntry_docs]
            by_cases hd : d = d0
            · subst hd
              simp [hres0, buildIndexedDoc]
            · rw [mapLookup_mapSet_ne _ _ hd]
              simp [hd, hwf.visRes d, docsLookup, buildIndexedDoc]
          · intro d g
            show d ∈ (removeEntryFromIndexes old s).groupToPosting g ↔ _
            rw [removeEntry_group_mem, holdid]
            unfold docsLookup
            show _ ↔ _ ≠ _ ∧ ∃ doc, mapLookup (mapSet d0 _ (removeEntryFromIndexes old s).docs) d = _ ∧ _
            rw [removeEntry_docs]
            by_cases hd : d = d0
            · subst hd
              simp [hgrp0, buildIndexedDoc]
            · rw [mapLookup_mapSet_ne _ _ hd]
              simp [hd, hwf.visGroup d g, docsLookup, buildIndexedDoc]
        cases b
        · exact h3
        · exact wfcore_resort h3


/-- The full invariant: the core invariant plus the derived sort order and
rank map, which every public mutation re-establishes. -/
structure WF (s : CoreState) extends WFCore s : Prop where
  order : s.updatedOrder =
    (s.docs.map Prod.fst).insertionSort (fun a b => docCompare s.docs a b ≤ 0)
  rank : s.docSortRank = buildRank s.updatedOrder

theorem upsertEntry_true_shape (e : EntryRecord) (s : CoreState) :
    upsertEntry e true s = s ∨ ∃ s3, upsertEntry e true s = resortUpdatedOrder s3 := by
  unfold upsertEntry
  cases hid : mapLookup s.idToDoc e.id with
  | none => right; exact ⟨_, rfl⟩
  | some d =>
    dsimp only
    cases hdoc : docsLookup s d with
    | none => right; exact ⟨_, rfl⟩
    | some doc =>
      dsimp only
      by_cases h : doc.entry.rev > e.rev
      · left; rw [if_pos h]
      · right
        rw [if_neg h]
        exact ⟨_, rfl⟩

theorem resort_order_rank (s : CoreState) :
    (resortUpdatedOrder s).updatedOrder =
      ((resortUpdatedOrder s).docs.map Prod.fst).insertionSort
        (fun a b => docCompare (resortUpdatedOrder s).docs a b ≤ 0) ∧
    (resortUpdatedOrder s).docSortRank = buildRank (resortUpdatedOrder s).updatedOrder := by
  constructor <;> rfl

theorem wf_resort {s : CoreState} (h : WFCore s) : WF (resortUpdatedOrder s) :=
  { toWFCore := wfcore_resort h
    order := (resort_order_rank s).1
    rank := (resort_order_rank s).2 }

theorem wf_init : WF initState :=
  { toWFCore := wfcore_init, order := rfl, rank := rfl }

theorem wf_upsertEntry_true (e : EntryRecord) {s : CoreState} (hwf : WF s) :
    WF (upsertEntry e true s) := by
  rcases upsertEntry_true_shape e s with h | ⟨s3, h⟩
  · rw [h]; exact hwf
  · have hcore : WFCore (upsertEntry e true s) := wfcore_upsertEntry e true hwf.toWFCore
    rw [h] at hcore ⊢
    exact { toWFCore := hcore
            order := (resort_order_rank s3).1
            rank := (resort_order_rank s3).2 }

theorem wf_applyChange (c : ChangeRef) (row : Option EntryRecord) {s : CoreState}
    (hwf : WF s) : WF (applyChange c row s) := by
  unfold applyChange
  cases row with
  | none => exact hwf
  | some r =>
    dsimp only
    split
    · exact hwf
    · exact wf_upsertEntry_true r hwf

theorem wfcore_foldl_upsert (rows : List EntryRecord) :
    ∀ s : CoreState, WFCore s →
      WFCore (rows.foldl (fun st row => upsertEntry row false st) s) := by
  induction rows with
  | nil => intro s h; exact h
  | cons r rest ih =>
    intro s h
    exact ih _ (wfcore_upsertEntry r false h)

theorem wf_buildFromSnapshot (rows : List EntryRecord) (s : CoreState) :
    WF (buildFromSnapshot rows s) :=
  wf_resort (wfcore_foldl_upsert rows initState wfcore_init)

/-- Index states reachable through the public mutation API: the fresh state,
and anything obtained by `buildFromSnapshot` or `applyChange`. -/
inductive Reachable : CoreState → Prop where
  | init : Reachable initState
  | snapshot (rows : List EntryRecord) {s : CoreState} (h : Reachable s) :
      Reachable (buildFromSnapshot rows s)
  | change (c : ChangeRef) (row : Option EntryRecord) {s : CoreState} (h : Reachable s) :
      Reachable (applyChange c row s)

theorem reachable_wf {s : CoreState} (h : Reachable s) : WF s := by
  induction h with
  | init => exact wf_init
  | snapshot rows _ _ => exact wf_buildFromSnapshot rows _
  | change c row _ ih => exact wf_applyChange c row ih

/-! ## Claims -/

/-- C9: `applyChange` with a null entry row is a no-op: the document
registry, both posting maps, the visibility and group bitmaps, the universe,
the sort order and the rank map are all unchanged. -/
theorem c9_applyChange_null_noop (s : CoreState) (id : String) (rev : Int) :
    applyChange { id := id, rev := rev } none s = s := rfl

/-- C3 counterexample: on an index holding id `s` at rev 2, applying a change
for `s` with the same rev 2 (not strictly greater) and a different payload
replaces the stored entry — the update is not ignored, so a `rev = k` update
does not leave the stored entry unchanged. -/
theorem c3_counterexample :
    (docsLookup stateS 1).map (fun doc => doc.entry.name) = some "s" ∧
    (docsLookup (applyChange { id := "s", rev := 2 } (some entryS2) stateS) 1).map
        (fun doc => doc.entry.name) = some "other" := by decide

/-- C3 (amended): an incoming change whose rev is strictly less than the rev
stored for that id leaves the index state (in particular the stored entry)
unchanged; an equal rev is re-applied, replacing the stored payload. -/
theorem c3_stale_rev_ignored (s : CoreState) (id : String) (rev : Int)
    (entry : EntryRecord) (d : Nat) (doc : IndexedDoc)
    (hid : mapLookup s.idToDoc id = some d)
    (hdoc : docsLookup s d = some doc)
    (hrev : rev < doc.entry.rev) :
    applyChange { id := id, rev := rev } (some entry) s = s := by
  simp only [applyChange, hid, hdoc]
  rw [if_pos]
  exact decide_eq_true hrev

/-- C3 witness: a concrete stale update (rev 1 against stored rev 2) is
discarded. -/
theorem c3_stale_rev_ignored_witness :
    applyChange { id := "s", rev := 1 } (some entryS2) stateS = stateS :=
  c3_stale_rev_ignored stateS "s" 1 entryS2 1 (buildIndexedDoc 1 entryS1)
    (by decide) (by decide) (by decide)

/-- C7 counterexample: `(rev=abc)` parses to an eq node, and searching with
it returns an ordinary (empty) result instead of reporting `invalid_filter`;
the SQL compiler does reject it, but its error value carries only a code and
a message — no byte position. -/
theorem c7_counterexample :
    parseFilter "(rev=abc)" = .ok (.eq "rev" "abc") ∧
    search sampleState (some (.eq "rev" "abc")) { limit := 20, cursor := none, q := none }
        anonRequester = .ok { items := [], next_cursor := none } ∧
    compileToSql (.eq "rev" "abc") =
      .error { code := "invalid_filter", message := "rev must be an integer." } :=
  ⟨rfl, by decide, by decide⟩

/-- C7 (amended): parsing `(rev=abc)` succeeds with an eq node; the SQL
compiler treats `rev` as integer-valued and reports `invalid_filter` (message
only, no byte position in the error value); the in-memory evaluator does not
validate `rev` and simply returns the posting of the literal token — an empty
result when no doc has `rev` textually equal to `abc`. -/
theorem c7_rev_abc_behavior :
    parseFilter "(rev=abc)" = .ok (.eq "rev" "abc") ∧
    (∀ ctx : EvalContext, evaluateFilterAst ctx (.eq "rev" "abc") =
      .ok (ctx.getPosting (eqToken .top "rev" "abc"))) ∧
    compileToSql (.eq "rev" "abc") = .error (invalidFilter "rev must be an integer.") :=
  ⟨rfl, fun _ => rfl, by decide⟩

/-- C8 counterexample: the delimiter between the scope and the key part is
the literal `":k:"`, not a NUL byte: the actual token differs from the
claimed `scope NUL "k:" key NUL "v:" value` shape at a concrete input. -/
theorem c8_counterexample :
    eqToken .top "a" "b" = "top:k:a\x00v:b" ∧
    eqToken .top "a" "b" ≠ "top\x00k:a\x00v:b" ∧
    presentToken .top "a" = "top:k:a\x00*" ∧
    presentToken .top "a" ≠ "top\x00k:a\x00*" := by decide

/-- C8 (amended): equality tokens are `scope ":k:" key NUL "v:" value` and
presence tokens `scope ":k:" key NUL "*"`; the NUL byte delimits the key part
from the value part, and for keys free of NUL bytes no two distinct
`(scope, key, value)` triples (resp. `(scope, key)` pairs) map to the same
token. -/
theorem c8_token_forms_injective :
    (∀ (scope : CoreKeyScope) (key value : String),
      eqToken scope key value = scope.str ++ ":k:" ++ key ++ "\x00" ++ "v:" ++ value) ∧
    (∀ (scope : CoreKeyScope) (key : String),
      presentToken scope key = scope.str ++ ":k:" ++ key ++ "\x00" ++ "*") ∧
    (∀ (s₁ : CoreKeyScope) (k₁ v₁ : String) (s₂ : CoreKeyScope) (k₂ v₂ : String),
      '\x00' ∉ k₁.data → '\x00' ∉ k₂.data →
      eqToken s₁ k₁ v₁ = eqToken s₂ k₂ v₂ → s₁ = s₂ ∧ k₁ = k₂ ∧ v₁ = v₂) ∧
    (∀ (s₁ : CoreKeyScope) (k₁ : String) (s₂ : CoreKeyScope) (k₂ : String),
      '\x00' ∉ k₁.data → '\x00' ∉ k₂.data →
      presentToken s₁ k₁ = presentToken s₂ k₂ → s₁ = s₂ ∧ k₁ = k₂) :=
  ⟨fun _ _ _ => rfl, fun _ _ => rfl,
   fun _ _ _ _ _ _ h₁ h₂ h => eqToken_inj h₁ h₂ h,
   fun _ _ _ _ h₁ h₂ h => presentToken_inj h₁ h₂ h⟩

/-- C8 witness: the injectivity part applied at a concrete NUL-free input. -/
theorem c8_token_forms_injective_witness :
    ('\x00' ∉ ("capability" : String).data) ∧
    (CoreKeyScope.attr = .attr ∧ ("capability" : String) = "capability" ∧
      ("summarize" : String) = "summarize") :=
  ⟨by decide,
   c8_token_forms_injective.2.2.1 .attr "capability" "summarize" .attr "capability"
     "summarize" (by decide) (by decide) rfl⟩

/-- C6 counterexample: the or-estimate is the plain sum of the children's
estimates, not saturated at the universe size: over a one-doc universe with
two overlapping postings the code estimates 2 while the claim's saturated
estimator yields 1. -/
theorem c6_counterexample :
    estimateCardinality ctxOrOverlap (.or [.eq "a" "x", .eq "b" "y"]) = .ok 2 ∧
    specSaturatedEstimate ctxOrOverlap (.or [.eq "a" "x", .eq "b" "y"]) = .ok 1 ∧
    ctxOrOverlap.univ.card = 1 ∧
    estimateCardinality ctxOrOverlap (.or [.eq "a" "x", .eq "b" "y"]) ≠
      specSaturatedEstimate ctxOrOverlap (.or [.eq "a" "x", .eq "b" "y"]) := by decide

/-- C6 (amended): the AND evaluator sorts children by ascending estimated
cardinality, where the estimate of an eq/present child is the matching
posting's size (0 when absent, since a missing posting is the empty set), of
an and child the minimum over its children, of an or child the plain
(unsaturated) sum of its children's estimates, and of a not child the
universe size minus the child's estimate clamped at zero (Nat subtraction);
and evaluating an AND node over any permutation of its children yields the
same result. -/
theorem c6_estimator_and_reorder_safe :
    (∀ (ctx : EvalContext) (key value : String) (r : ResolvedCoreKey),
      resolveCoreKey key = .ok r →
      estimateCardinality ctx (.eq key value) =
        .ok (ctx.getPosting (eqToken r.scope r.key value)).card) ∧
    (∀ (ctx : EvalContext) (key : String) (r : ResolvedCoreKey),
      resolveCoreKey key = .ok r →
      estimateCardinality ctx (.present key) =
        .ok (ctx.getPosting (presentToken r.scope r.key)).card) ∧
    (∀ (ctx : EvalContext) (c : FilterNode) (rest : List FilterNode) (e : Nat) (es : List Nat),
      estimateCardinality ctx c = .ok e → estimateList ctx rest = .ok es →
      estimateCardinality ctx (.and (c :: rest)) = .ok (es.foldl min e)) ∧
    (∀ (ctx : EvalContext) (children : List FilterNode) (es : List Nat),
      estimateList ctx children = .ok es →
      estimateCardinality ctx (.or children) = .ok (es.foldl (· + ·) 0)) ∧
    (∀ (ctx : EvalContext) (child : FilterNode) (e : Nat),
      estimateCardinality ctx child = .ok e →
      estimateCardinality ctx (.not child) = .ok (ctx.univ.card - e)) ∧
    (∀ (ctx : EvalContext) (l l' : List FilterNode), l.Perm l' →
      evalNode ctx (.and l) = evalNode ctx (.and l')) := by
  refine ⟨?_, ?_, ?_, ?_, ?_, ?_⟩
  · intro ctx key value r hr; unfold estimateCardinality; rw [hr]
  · intro ctx key r hr; unfold estimateCardinality; rw [hr]
  · intro ctx c rest e es hc hrest; unfold estimateCardinality; rw [hc, hrest]
  · intro ctx children es h; unfold estimateCardinality; rw [h]
  · intro ctx child e h; unfold estimateCardinality; rw [h]
  · intro ctx l l2 hp; exact evalNode_and_perm hp

/-- C6 witness: the or-estimate and the reorder-safety applied at concrete
inputs. -/
theorem c6_estimator_and_reorder_safe_witness :
    estimateCardinality ctxOrOverlap (.or [.eq "a" "x", .eq "b" "y"]) =
      .ok ([1, 1].foldl (· + ·) 0) ∧
    evalNode ctxOrOverlap (.and [.eq "a" "x", .eq "b" "y"]) =
      evalNode ctxOrOverlap (.and [.eq "b" "y", .eq "a" "x"]) :=
  ⟨c6_estimator_and_reorder_safe.2.2.2.1 ctxOrOverlap [.eq "a" "x", .eq "b" "y"] [1, 1]
     (by decide),
   c6_estimator_and_reorder_safe.2.2.2.2.2 ctxOrOverlap _ _
     (List.Perm.swap (FilterNode.eq "b" "y") (FilterNode.eq "a" "x") [])⟩


/-- C2: in every state reachable through `buildFromSnapshot` and
`applyChange`, each live doc id lies in a visibility bitmap exactly when that
bitmap matches the doc's visibility attribute (`attrs.visibility[0]`, default
public) — hence it lies in exactly one of the three — and it lies in
`groupToPosting g` iff the doc is restricted and `g` is one of its
`allowed_group` values. -/
theorem c2_visibility_partition {s : CoreState} (hs : Reachable s)
    {d : Nat} {doc : IndexedDoc} (hdoc : docsLookup s d = some doc) :
    (d ∈ s.visibilityPublic ↔ readVisibility doc.entry.attrs = .pub) ∧
    (d ∈ s.visibilityInternal ↔ readVisibility doc.entry.attrs = .internal) ∧
    (d ∈ s.visibilityRestricted ↔ readVisibility doc.entry.attrs = .restricted) ∧
    ∀ g, d ∈ s.groupToPosting g ↔
      readVisibility doc.entry.attrs = .restricted ∧
        g ∈ allowedGroupList doc.entry.attrs := by
  have hwf := (reachable_wf hs).toWFCore
  refine ⟨?_, ?_, ?_, ?_⟩
  · rw [hwf.visPub d]
    constructor
    · rintro ⟨doc', hdoc', hv⟩
      rw [hdoc] at hdoc'
      injection hdoc' with h
      subst h
      exact hv
    · intro hv
      exact ⟨doc, hdoc, hv⟩
  · rw [hwf.visInt d]
    constructor
    · rintro ⟨doc', hdoc', hv⟩
      rw [hdoc] at hdoc'
      injection hdoc' with h
      subst h
      exact hv
    · intro hv
      exact ⟨doc, hdoc, hv⟩
  · rw [hwf.visRes d]
    constructor
    · rintro ⟨doc', hdoc', hv⟩
      rw [hdoc] at hdoc'
      injection hdoc' with h
      subst h
      exact hv
    · intro hv
      exact ⟨doc, hdoc, hv⟩
  · intro g
    rw [hwf.visGroup d g]
    constructor
    · rintro ⟨doc', hdoc', hv, hg⟩
      rw [hdoc] at hdoc'
      injection hdoc' with h
      subst h
      exact ⟨hv, hg⟩
    · rintro ⟨hv, hg⟩
      exact ⟨doc, hdoc, hv, hg⟩

theorem c2_visibility_partition_witness :
    Reachable sampleState ∧
    docsLookup sampleState 3 = some (buildIndexedDoc 3 entryRestricted) ∧
    ((3 ∈ sampleState.visibilityRestricted ↔
      readVisibility (buildIndexedDoc 3 entryRestricted).entry.attrs = .restricted) ∧
     (3 ∈ sampleState.groupToPosting "finance" ↔
      readVisibility (buildIndexedDoc 3 entryRestricted).entry.attrs = .restricted ∧
        "finance" ∈ allowedGroupList (buildIndexedDoc 3 entryRestricted).entry.attrs)) := by
  have hreach : Reachable sampleState :=
    Reachable.snapshot [entryA, entryB, entryRestricted] Reachable.init
  have hdoc : docsLookup sampleState 3 = some (buildIndexedDoc 3 entryRestricted) := by
    decide
  have h := c2_visibility_partition hreach hdoc
  exact ⟨hreach, hdoc, h.2.2.1, h.2.2.2 "finance"⟩


/-! Remaining field effects of addEntryToIndexes / removeEntryFromIndexes,
and a record-extensionality helper -/

theorem coreState_eq {a b : CoreState}
    (h1 : a.nextDocId = b.nextDocId) (h2 : a.idToDoc = b.idToDoc)
    (h3 : a.docs = b.docs) (h4 : a.tokenToPosting = b.tokenToPosting)
    (h5 : a.presenceToPosting = b.presenceToPosting)
    (h6 : a.visibilityPublic = b.visibilityPublic)
    (h7 : a.visibilityInternal = b.visibilityInternal)
    (h8 : a.visibilityRestricted = b.visibilityRestricted)
    (h9 : a.groupToPosting = b.groupToPosting) (h10 : a.univ = b.univ)
    (h11 : a.updatedOrder = b.updatedOrder) (h12 : a.docSortRank = b.docSortRank) :
    a = b := by
  cases a
  cases b
  simp_all

theorem addEntry_token (doc : IndexedDoc) (s : CoreState) :
    (addEntryToIndexes doc s).tokenToPosting =
      (buildTokenBag doc.entry).eqTokens.foldl
        (fun m t => addPosting m t doc.docId) s.tokenToPosting := by
  unfold addEntryToIndexes
  exact (addVis_unchanged doc _).2.2.2.2.2.2.1

theorem addEntry_presence (doc : IndexedDoc) (s : CoreState) :
    (addEntryToIndexes doc s).presenceToPosting =
      (buildTokenBag doc.entry).presenceTokens.foldl
        (fun m t => addPosting m t doc.docId) s.presenceToPosting := by
  unfold addEntryToIndexes
  exact (addVis_unchanged doc _).2.2.2.2.2.2.2

theorem addEntry_updatedOrder (doc : IndexedDoc) (s : CoreState) :
    (addEntryToIndexes doc s).updatedOrder = s.updatedOrder ++ [doc.docId] := by
  unfold addEntryToIndexes
  dsimp only
  rw [(addVis_unchanged doc _).2.2.2.2.1]

theorem addEntry_rank (doc : IndexedDoc) (s : CoreState) :
    (addEntryToIndexes doc s).docSortRank = s.docSortRank := by
  unfold addEntryToIndexes
  exact (addVis_unchanged doc _).2.2.2.2.2.1

theorem removeEntry_token (doc : IndexedDoc) (s : CoreState) :
    (removeEntryFromIndexes doc s).tokenToPosting =
      (buildTokenBag doc.entry).eqTokens.foldl
        (fun m t => removePosting m t doc.docId) s.tokenToPosting := by
  unfold removeEntryFromIndexes
  exact (removeVis_unchanged doc _).2.2.2.2.2.2.1

theorem removeEntry_presence (doc : IndexedDoc) (s : CoreState) :
    (removeEntryFromIndexes doc s).presenceToPosting =
      (buildTokenBag doc.entry).presenceTokens.foldl
        (fun m t => removePosting m t doc.docId) s.presenceToPosting := by
  unfold removeEntryFromIndexes
  exact (removeVis_unchanged doc _).2.2.2.2.2.2.2

theorem removeEntry_rank (doc : IndexedDoc) (s : CoreState) :
    (removeEntryFromIndexes doc s).docSortRank = s.docSortRank := by
  unfold removeEntryFromIndexes
  exact (removeVis_unchanged doc _).2.2.2.2.2.1

theorem resort_unchanged (s : CoreState) :
    (resortUpdatedOrder s).nextDocId = s.nextDocId ∧
    (resortUpdatedOrder s).idToDoc = s.idToDoc ∧
    (resortUpdatedOrder s).docs = s.docs ∧
    (resortUpdatedOrder s).tokenToPosting = s.tokenToPosting ∧
    (resortUpdatedOrder s).presenceToPosting = s.presenceToPosting ∧
    (resortUpdatedOrder s).visibilityPublic = s.visibilityPublic ∧
    (resortUpdatedOrder s).visibilityInternal = s.visibilityInternal ∧
    (resortUpdatedOrder s).visibilityRestricted = s.visibilityRestricted ∧
    (resortUpdatedOrder s).groupToPosting = s.groupToPosting ∧
    (resortUpdatedOrder s).univ = s.univ :=
  ⟨rfl, rfl, rfl, rfl, rfl, rfl, rfl, rfl, rfl, rfl⟩

theorem resort_updatedOrder (s : CoreState) :
    (resortUpdatedOrder s).updatedOrder =
      (s.docs.map Prod.fst).insertionSort (fun a b => docCompare s.docs a b ≤ 0) := rfl

theorem resort_rank (s : CoreState) :
    (resortUpdatedOrder s).docSortRank =
      buildRank ((s.docs.map Prod.fst).insertionSort
        (fun a b => docCompare s.docs a b ≤ 0)) := rfl

/-! The "installed" facts that hold for an entry right after it has been
upserted, and the re-sortedness of the order/rank fields; together they make
a second identical upsert a no-op. -/

structure Installed (e : EntryRecord) (D : Nat) (s : CoreState) : Prop where
  idOk : mapLookup s.idToDoc e.id = some D
  docOk : docsLookup s D = some (buildIndexedDoc D e)
  tokOk : ∀ t ∈ (buildTokenBag e).eqTokens, D ∈ s.tokenToPosting t
  presOk : ∀ t ∈ (buildTokenBag e).presenceTokens, D ∈ s.presenceToPosting t
  univOk : D ∈ s.univ
  visPubOk : readVisibility e.attrs = .pub → D ∈ s.visibilityPublic
  visIntOk : readVisibility e.attrs = .internal → D ∈ s.visibilityInternal
  visResOk : readVisibility e.attrs = .restricted → D ∈ s.visibilityRestricted
  visGroupOk : readVisibility e.attrs = .restricted →
    ∀ g ∈ allowedGroupList e.attrs, D ∈ s.groupToPosting g

def Resorted (s : CoreState) : Prop :=
  s.updatedOrder =
    (s.docs.map Prod.fst).insertionSort (fun a b => docCompare s.docs a b ≤ 0) ∧
  s.docSortRank = buildRank s.updatedOrder

theorem resorted_resort (s : CoreState) : Resorted (resortUpdatedOrder s) :=
  resort_order_rank s

theorem installed_resort {e : EntryRecord} {D : Nat} {s : CoreState}
    (h : Installed e D s) : Installed e D (resortUpdatedOrder s) :=
  ⟨h.idOk, h.docOk, h.tokOk, h.presOk, h.univOk, h.visPubOk, h.visIntOk, h.visResOk,
    h.visGroupOk⟩

theorem installed_addEntry {e : EntryRecord} {D : Nat} {s2 : CoreState}
    (hdoc : mapLookup s2.docs D = some (buildIndexedDoc D e))
    (hid : mapLookup s2.idToDoc e.id = some D) :
    Installed e D (addEntryToIndexes (buildIndexedDoc D e) s2) := by
  have htok := addEntry_token (buildIndexedDoc D e) s2
  have hpres := addEntry_presence (buildIndexedDoc D e) s2
  refine ⟨?_, ?_, ?_, ?_, ?_, ?_, ?_, ?_, ?_⟩
  · rw [addEntry_idToDoc]
    exact hid
  · unfold docsLookup
    rw [addEntry_docs]
    exact hdoc
  · intro t ht
    rw [htok, foldl_addPosting_apply]
    simp only [buildIndexedDoc] at *
    simp [ht]
  · intro t ht
    rw [hpres, foldl_addPosting_apply]
    simp only [buildIndexedDoc] at *
    simp [ht]
  · rw [addEntry_univ]
    exact Finset.mem_insert_self _ _
  · intro hv
    rw [addEntry_pub_mem]
    exact Or.inr ⟨hv, rfl⟩
  · intro hv
    rw [addEntry_int_mem]
    exact Or.inr ⟨hv, rfl⟩
  · intro hv
    rw [addEntry_res_mem]
    exact Or.inr ⟨hv, rfl⟩
  · intro hv g hg
    rw [addEntry_group_mem]
    exact Or.inr ⟨hv, hg, rfl⟩

theorem upsertEntry_installs (e : EntryRecord) (s : CoreState)
    (hlive : ∀ D doc, mapLookup s.idToDoc e.id = some D →
      docsLookup s D = some doc → ¬ doc.entry.rev > e.rev) :
    ∃ D, Installed e D (upsertEntry e true s) ∧ Resorted (upsertEntry e true s) := by
  unfold upsertEntry
  cases hid : mapLookup s.idToDoc e.id with
  | none =>
    dsimp only
    refine ⟨s.nextDocId, installed_resort (installed_addEntry ?_ ?_), resorted_resort _⟩
    · exact mapLookup_mapSet_self _ _ _
    · exact mapLookup_mapSet_self _ _ _
  | some D =>
    dsimp only
    cases hdoc : docsLookup s D with
    | none =>
      dsimp only
      refine ⟨D, installed_resort (installed_addEntry ?_ ?_), resorted_resort _⟩
      · exact mapLookup_mapSet_self _ _ _
      · exact hid
    | some doc =>
      dsimp only
      rw [if_neg (hlive D doc hid hdoc)]
      refine ⟨D, installed_resort (installed_addEntry ?_ ?_), resorted_resort _⟩
      · exact mapLookup_mapSet_self _ _ _
      · rw [removeEntry_idToDoc]
        exact hid


theorem reinstall_eq {e : EntryRecord} {D : Nat} {s' : CoreState}
    (hI : Installed e D s') (hR : Resorted s') :
    resortUpdatedOrder (addEntryToIndexes (buildIndexedDoc D e)
      { removeEntryFromIndexes (buildIndexedDoc D e) s' with
        docs := mapSet D (buildIndexedDoc D e)
          (removeEntryFromIndexes (buildIndexedDoc D e) s').docs }) = s' := by
  set nd := buildIndexedDoc D e with hnd
  have hdid : nd.docId = D := rfl
  have hent : nd.entry = e := rfl
  set s1 := removeEntryFromIndexes nd s' with hs1
  set s2 : CoreState := { s1 with docs := mapSet D nd s1.docs } with hs2
  set X := addEntryToIndexes nd s2 with hX
  have hnext : X.nextDocId = s'.nextDocId := by
    rw [hX, addEntry_nextDocId, hs2]
    dsimp only
    rw [hs1, removeEntry_nextDocId]
  have hids : X.idToDoc = s'.idToDoc := by
    rw [hX, addEntry_idToDoc, hs2]
    dsimp only
    rw [hs1, removeEntry_idToDoc]
  have hdocs : X.docs = s'.docs := by
    rw [hX, addEntry_docs, hs2]
    dsimp only
    rw [hs1, removeEntry_docs]
    exact mapSet_self hI.docOk
  have htok : X.tokenToPosting = s'.tokenToPosting := by
    have h2 : s2.tokenToPosting = (buildTokenBag nd.entry).eqTokens.foldl
        (fun m t => removePosting m t nd.docId) s'.tokenToPosting := by
      rw [hs2]
      dsimp only
      rw [hs1, removeEntry_token]
    rw [hX, addEntry_token, h2, hent, hdid]
    exact foldl_add_remove_restore _ _ _ hI.tokOk
  have hpres : X.presenceToPosting = s'.presenceToPosting := by
    have h2 : s2.presenceToPosting = (buildTokenBag nd.entry).presenceTokens.foldl
        (fun m t => removePosting m t nd.docId) s'.presenceToPosting := by
      rw [hs2]
      dsimp only
      rw [hs1, removeEntry_presence]
    rw [hX, addEntry_presence, h2, hent, hdid]
    exact foldl_add_remove_restore _ _ _ hI.presOk
  have huniv : X.univ = s'.univ := by
    have h2 : s2.univ = s'.univ.erase D := by
      rw [hs2]
      dsimp only
      rw [hs1, removeEntry_univ, hdid]
    rw [hX, addEntry_univ, h2, hdid]
    exact Finset.insert_erase hI.univOk
  have hpub : X.visibilityPublic = s'.visibilityPublic := by
    ext d
    have h2 : d ∈ s2.visibilityPublic ↔ d ∈ s'.visibilityPublic ∧
        ¬(readVisibility nd.entry.attrs = .pub ∧ d = nd.docId) := by
      rw [hs2]
      dsimp only
      rw [hs1]
      exact removeEntry_pub_mem nd s' d
    rw [hX, addEntry_pub_mem, h2, hent, hdid]
    by_cases hd : d = D
    · subst hd
      by_cases hv : readVisibility e.attrs = .pub
      · simp [hv, hI.visPubOk hv]
      · simp [hv]
    · simp [hd]
  have hint : X.visibilityInternal = s'.visibilityInternal := by
    ext d
    have h2 : d ∈ s2.visibilityInternal ↔ d ∈ s'.visibilityInternal ∧
        ¬(readVisibility nd.entry.attrs = .internal ∧ d = nd.docId) := by
      rw [hs2]
      dsimp only
      rw [hs1]
      exact removeEntry_int_mem nd s' d
    rw [hX, addEntry_int_mem, h2, hent, hdid]
    by_cases hd : d = D
    · subst hd
      by_cases hv : readVisibility e.attrs = .internal
      · simp [hv, hI.visIntOk hv]
      · simp [hv]
    · simp [hd]
  have hres : X.visibilityRestricted = s'.visibilityRestricted := by
    ext d
    have h2 : d ∈ s2.visibilityRestricted ↔ d ∈ s'.visibilityRestricted ∧
        ¬(readVisibility nd.entry.attrs = .restricted ∧ d = nd.docId) := by
      rw [hs2]
      dsimp only
      rw [hs1]
      exact removeEntry_res_mem nd s' d
    rw [hX, addEntry_res_mem, h2, hent, hdid]
    by_cases hd : d = D
    · subst hd
      by_cases hv : readVisibility e.attrs = .restricted
      · simp [hv, hI.visResOk hv]
      · simp [hv]
    · simp [hd]
  have hgrp : X.groupToPosting = s'.groupToPosting := by
    funext g
    ext d
    have h2 : d ∈ s2.groupToPosting g ↔ d ∈ s'.groupToPosting g ∧
        ¬(readVisibility nd.entry.attrs = .restricted ∧
          g ∈ allowedGroupList nd.entry.attrs ∧ d = nd.docId) := by
      rw [hs2]
      dsimp only
      rw [hs1]
      exact removeEntry_group_mem nd s' d g
    rw [hX, addEntry_group_mem, h2, hent, hdid]
    by_cases hd : d = D
    · subst hd
      by_cases hv : readVisibility e.attrs = .restricted
      · by_cases hg : g ∈ allowedGroupList e.attrs
        · simp [hv, hg, hI.visGroupOk hv g hg]
        · simp [hv, hg]
      · simp [hv]
    · simp [hd]
  have hord : (resortUpdatedOrder X).updatedOrder = s'.updatedOrder := by
    rw [resort_updatedOrder, hdocs, ← hR.1]
  have hrank : (resortUpdatedOrder X).docSortRank = s'.docSortRank := by
    rw [resort_rank, hdocs, ← hR.1, ← hR.2]
  refine coreState_eq ?_ ?_ ?_ ?_ ?_ ?_ ?_ ?_ ?_ ?_ hord hrank
  · rw [(resort_unchanged X).1, hnext]
  · rw [(resort_unchanged X).2.1, hids]
  · rw [(resort_unchanged X).2.2.1, hdocs]
  · rw [(resort_unchanged X).2.2.2.1, htok]
  · rw [(resort_unchanged X).2.2.2.2.1, hpres]
  · rw [(resort_unchanged X).2.2.2.2.2.1, hpub]
  · rw [(resort_unchanged X).2.2.2.2.2.2.1, hint]
  · rw [(resort_unchanged X).2.2.2.2.2.2.2.1, hres]
  · rw [(resort_unchanged X).2.2.2.2.2.2.2.2.1, hgrp]
  · rw [(resort_unchanged X).2.2.2.2.2.2.2.2.2, huniv]

theorem upsert_on_installed {e : EntryRecord} {D : Nat} {s' : CoreState}
    (hI : Installed e D s') (hR : Resorted s') : upsertEntry e true s' = s' := by
  unfold upsertEntry
  rw [hI.idOk]
  dsimp only
  rw [hI.docOk]
  dsimp only
  have hng : ¬ (buildIndexedDoc D e).entry.rev > e.rev := lt_irrefl e.rev
  rw [if_neg hng]
  exact reinstall_eq hI hR

theorem applyChange_unfold (e : EntryRecord) (c : ChangeRef) (t : CoreState) :
    applyChange c (some e) t =
      (if (match mapLookup t.idToDoc c.id with
           | some existingDocId =>
             match docsLookup t existingDocId with
             | some existing => decide (existing.entry.rev > c.rev)
             | none => false
           | none => false : Bool)
       then t else upsertEntry e true t) := rfl

theorem applyChange_self_after_upsert (e : EntryRecord) (s : CoreState)
    (hlive : ∀ D doc, mapLookup s.idToDoc e.id = some D →
      docsLookup s D = some doc → ¬ doc.entry.rev > e.rev) :
    applyChange ⟨e.id, e.rev⟩ (some e) (upsertEntry e true s) = upsertEntry e true s := by
  obtain ⟨D, hI, hR⟩ := upsertEntry_installs e s hlive
  rw [applyChange_unfold]
  dsimp only
  rw [hI.idOk]
  dsimp only
  rw [hI.docOk]
  dsimp only
  have hng : decide ((buildIndexedDoc D e).entry.rev > e.rev) = false :=
    decide_eq_false (lt_irrefl e.rev)
  rw [hng, if_neg Bool.false_ne_true]
  exact upsert_on_installed hI hR


/-- C4: `applyChange` is idempotent — applying the same `(id, rev, entry)`
change twice yields exactly the same index state (registry, postings,
visibility bitmaps, universe, sort order and rank) as applying it once. -/
theorem c4_applyChange_idempotent (e : EntryRecord) (s : CoreState) :
    applyChange ⟨e.id, e.rev⟩ (some e) (applyChange ⟨e.id, e.rev⟩ (some e) s) =
      applyChange ⟨e.id, e.rev⟩ (some e) s := by
  cases hid : mapLookup s.idToDoc e.id with
  | none =>
    have h1 : applyChange ⟨e.id, e.rev⟩ (some e) s = upsertEntry e true s := by
      rw [applyChange_unfold]
      dsimp only
      rw [hid]
      dsimp only
      rw [if_neg Bool.false_ne_true]
    rw [h1]
    refine applyChange_self_after_upsert e s ?_
    intro D doc hD _
    rw [hid] at hD
    simp at hD
  | some D =>
    cases hdoc : docsLookup s D with
    | none =>
      have h1 : applyChange ⟨e.id, e.rev⟩ (some e) s = upsertEntry e true s := by
        rw [applyChange_unfold]
        dsimp only
        rw [hid]
        dsimp only
        rw [hdoc]
        dsimp only
        rw [if_neg Bool.false_ne_true]
      rw [h1]
      refine applyChange_self_after_upsert e s ?_
      intro D' doc' hD hdoc'
      rw [hid] at hD
      injection hD with h
      subst h
      rw [hdoc] at hdoc'
      simp at hdoc'
    | some doc =>
      by_cases hgt : doc.entry.rev > e.rev
      · have h1 : applyChange ⟨e.id, e.rev⟩ (some e) s = s := by
          rw [applyChange_unfold]
          dsimp only
          rw [hid]
          dsimp only
          rw [hdoc]
          dsimp only
          rw [if_pos (decide_eq_true hgt)]
        rw [h1]
        exact h1
      · have h1 : applyChange ⟨e.id, e.rev⟩ (some e) s = upsertEntry e true s := by
          rw [applyChange_unfold]
          dsimp only
          rw [hid]
          dsimp only
          rw [hdoc]
          dsimp only
          rw [decide_eq_false hgt, if_neg Bool.false_ne_true]
        rw [h1]
        refine applyChange_self_after_upsert e s ?_
        intro D' doc' hD hdoc'
        rw [hid] at hD
        injection hD with h
        subst h
        rw [hdoc] at hdoc'
        injection hdoc' with h2
        subst h2
        exact hgt


/-! Visibility consequences for unauthenticated requesters, and membership
bounds on search results -/

theorem getAllowedDocs_unauth {r : Requester} (h : r.isAuthenticated = false)
    (s : CoreState) : getAllowedDocs s r = s.visibilityPublic := by
  unfold getAllowedDocs
  rw [h]
  rfl

theorem canSee_unauth {r : Requester} (h : r.isAuthenticated = false)
    (entry : EntryRecord) :
    canSee entry r = decide (readVisibility entry.attrs = .pub) := by
  unfold canSee
  cases hv : readVisibility entry.attrs <;> simp [h, hv]

theorem scanLoop_mem {lookup : Nat → Option IndexedDoc} {inCand : Nat → Bool}
    {cur : Option SearchCursor} {q : Option String} {extraOk : IndexedDoc → Bool}
    {lim : Nat} :
    ∀ (order : List Nat) (init : List CoreSearchHit),
      ∀ hit ∈ (scanLoop lookup inCand cur q extraOk lim order init).1,
        hit ∈ init ∨ ∃ d doc, lookup d = some doc ∧ inCand d = true ∧
          extraOk doc = true ∧ hit = mkHit doc := by
  intro order
  induction order with
  | nil =>
    intro init hit hmem
    exact Or.inl hmem
  | cons d rest ih =>
    intro init hit hmem
    simp only [scanLoop] at hmem
    by_cases hcand : inCand d = true
    · rw [hcand] at hmem
      simp only [Bool.not_true] at hmem
      rw [if_neg Bool.false_ne_true] at hmem
      cases hlook : lookup d with
      | none =>
        rw [hlook] at hmem
        exact ih init hit hmem
      | some doc =>
        rw [hlook] at hmem
        dsimp only at hmem
        by_cases h1 : cursorFails cur doc = true
        · rw [if_pos h1] at hmem
          exact ih init hit hmem
        · rw [if_neg h1] at hmem
          by_cases h2 : qFails q doc = true
          · rw [if_pos h2] at hmem
            exact ih init hit hmem
          · rw [if_neg h2] at hmem
            by_cases h3 : extraOk doc = true
            · rw [h3] at hmem
              simp only [Bool.not_true] at hmem
              rw [if_neg Bool.false_ne_true] at hmem
              by_cases h4 : lim ≤ (init ++ [mkHit doc]).length
              · rw [if_pos h4] at hmem
                rcases List.mem_append.mp hmem with h | h
                · exact Or.inl h
                · exact Or.inr ⟨d, doc, hlook, hcand, h3, List.mem_singleton.mp h⟩
              · rw [if_neg h4] at hmem
                rcases ih _ hit hmem with h | h
                · rcases List.mem_append.mp h with h' | h'
                  · exact Or.inl h'
                  · exact Or.inr ⟨d, doc, hlook, hcand, h3, List.mem_singleton.mp h'⟩
                · exact Or.inr h
            · have h3' : extraOk doc = false := by
                cases hx : extraOk doc
                · rfl
                · exact absurd hx h3
              rw [h3'] at hmem
              simp only [Bool.not_false, if_true] at hmem
              exact ih init hit hmem
    · have hcand' : inCand d = false := by
        cases hx : inCand d
        · rfl
        · exact absurd hx hcand
      rw [hcand'] at hmem
      simp only [Bool.not_false, if_true] at hmem
      exact ih init hit hmem

theorem insertTopDoc_mem {rank : Nat → Option Nat} {tds : List IndexedDoc}
    {c : IndexedDoc} {lim : Nat} {x : IndexedDoc}
    (hx : x ∈ insertTopDoc rank tds c lim) : x ∈ tds ∨ x = c := by
  unfold insertTopDoc at hx
  cases hr : rank c.docId with
  | none =>
    rw [hr] at hx
    exact Or.inl hx
  | some rc =>
    rw [hr] at hx
    dsimp only at hx
    have hx' : x ∈ tds.take (tds.length -
        (tds.reverse.takeWhile (fun previous =>
          match rank previous.docId with
          | none => false
          | some previousRank => decide (rc < previousRank))).length) ++
        c :: tds.drop (tds.length -
        (tds.reverse.takeWhile (fun previous =>
          match rank previous.docId with
          | none => false
          | some previousRank => decide (rc < previousRank))).length) := by
      split at hx
      · exact (List.dropLast_sublist _).subset hx
      · exact hx
    rcases List.mem_append.mp hx' with h | h
    · exact Or.inl (List.take_subset _ _ h)
    · rcases List.mem_cons.mp h with h' | h'
      · exact Or.inr h'
      · exact Or.inl (List.drop_subset _ _ h')

theorem selectiveFold_mem {s : CoreState} {cur : Option SearchCursor} {q : Option String}
    {lim : Nat} :
    ∀ (l : List Nat) (acc : List IndexedDoc) (x : IndexedDoc),
      x ∈ l.foldl (fun topDocs docId =>
        match docsLookup s docId with
        | none => topDocs
        | some indexed =>
          if cursorFails cur indexed then topDocs
          else if qFails q indexed then topDocs
          else insertTopDoc s.docSortRank topDocs indexed lim) acc →
      x ∈ acc ∨ ∃ d, d ∈ l ∧ docsLookup s d = some x := by
  intro l
  induction l with
  | nil =>
    intro acc x hx
    exact Or.inl hx
  | cons d rest ih =>
    intro acc x hx
    rw [List.foldl_cons] at hx
    cases hlook : docsLookup s d with
    | none =>
      rw [hlook] at hx
      rcases ih _ x hx with h | ⟨d', hd', hl⟩
      · exact Or.inl h
      · exact Or.inr ⟨d', List.mem_cons_of_mem _ hd', hl⟩
    | some doc =>
      rw [hlook] at hx
      dsimp only at hx
      by_cases h1 : cursorFails cur doc = true
      · rw [if_pos h1] at hx
        rcases ih _ x hx with h | ⟨d', hd', hl⟩
        · exact Or.inl h
        · exact Or.inr ⟨d', List.mem_cons_of_mem _ hd', hl⟩
      · rw [if_neg h1] at hx
        by_cases h2 : qFails q doc = true
        · rw [if_pos h2] at hx
          rcases ih _ x hx with h | ⟨d', hd', hl⟩
          · exact Or.inl h
          · exact Or.inr ⟨d', List.mem_cons_of_mem _ hd', hl⟩
        · rw [if_neg h2] at hx
          rcases ih _ x hx with h | ⟨d', hd', hl⟩
          · rcases insertTopDoc_mem h with h' | h'
            · exact Or.inl h'
            · subst h'
              exact Or.inr ⟨d, List.mem_cons_self _ _, hlook⟩
          · exact Or.inr ⟨d', List.mem_cons_of_mem _ hd', hl⟩

theorem emitLoop_mem {lim : Nat} :
    ∀ (tds : List IndexedDoc) (init : List CoreSearchHit),
      ∀ hit ∈ (emitLoop lim tds init).1,
        hit ∈ init ∨ ∃ doc ∈ tds, hit = mkHit doc := by
  intro tds
  induction tds with
  | nil =>
    intro init hit h
    exact Or.inl h
  | cons doc rest ih =>
    intro init hit h
    simp only [emitLoop] at h
    by_cases hl : lim ≤ (init ++ [mkHit doc]).length
    · rw [if_pos hl] at h
      rcases List.mem_append.mp h with h' | h'
      · exact Or.inl h'
      · exact Or.inr ⟨doc, List.mem_cons_self _ _, List.mem_singleton.mp h'⟩
    · rw [if_neg hl] at h
      rcases ih _ hit h with h' | ⟨doc', hd, he⟩
      · rcases List.mem_append.mp h' with h'' | h''
        · exact Or.inl h''
        · exact Or.inr ⟨doc, List.mem_cons_self _ _, List.mem_singleton.mp h''⟩
      · exact Or.inr ⟨doc', List.mem_cons_of_mem _ hd, he⟩

theorem mem_finsetAscend {c : Finset Nat} {d : Nat} (h : d ∈ finsetAscend c) :
    d ∈ c := by
  unfold finsetAscend at h
  rcases List.mem_filter.mp h with ⟨-, h2⟩
  exact of_decide_eq_true h2


theorem collectScan_mem {s : CoreState} {cand : Finset Nat} {cur : Option SearchCursor}
    {q : Option String} {lim : Nat} :
    ∀ hit ∈ (collectScanResults s cand cur q lim).1,
      ∃ d doc, docsLookup s d = some doc ∧ d ∈ cand ∧ hit = mkHit doc := by
  intro hit h
  unfold collectScanResults at h
  rcases scanLoop_mem _ _ hit h with h' | ⟨d, doc, hl, hc, _, he⟩
  · simp at h'
  · exact ⟨d, doc, hl, of_decide_eq_true hc, he⟩

theorem collectSelective_mem {s : CoreState} {cand : Finset Nat}
    {cur : Option SearchCursor} {q : Option String} {lim : Nat} :
    ∀ hit ∈ (collectSelectiveResults s cand cur q lim).1,
      ∃ d doc, docsLookup s d = some doc ∧ d ∈ cand ∧ hit = mkHit doc := by
  intro hit h
  simp only [collectSelectiveResults] at h
  rcases emitLoop_mem _ _ hit h with h' | ⟨doc, hd, he⟩
  · simp at h'
  · rcases selectiveFold_mem _ _ _ hd with h'' | ⟨d, _, hl⟩
    · simp at h''
    · exact ⟨d, doc, hl, mem_finsetAscend (by assumption), he⟩

theorem search_items_mem {s : CoreState} {f : Option FilterNode}
    {o : CoreSearchOptions} {r : Requester} {res : CoreSearchResult}
    (h : search s f o r = .ok res) :
    ∀ hit ∈ res.items, ∃ d doc, docsLookup s d = some doc ∧
      d ∈ getAllowedDocs s r ∧ hit = mkHit doc := by
  intro hit hmem
  simp only [search] at h
  by_cases hemp : getAllowedDocs s r = ∅
  · rw [if_pos hemp] at h
    injection h with h'
    rw [← h'] at hmem
    simp at hmem
  · rw [if_neg hemp] at h
    cases f with
    | none =>
      dsimp only at h
      injection h with h'
      rw [← h'] at hmem
      dsimp only at hmem
      rcases scanLoop_mem _ _ hit hmem with h'' | ⟨d, doc, hl, hc, _, he⟩
      · simp at h''
      · exact ⟨d, doc, hl, of_decide_eq_true hc, he⟩
    | some ast =>
      dsimp only at h
      cases hev : evaluateFilterAst { getPosting := getPosting s, univ := s.univ } ast with
      | error e =>
        rw [hev] at h
        simp at h
      | ok c0 =>
        rw [hev] at h
        dsimp only at h
        by_cases hc0 : c0 = ∅
        · rw [if_pos hc0] at h
          injection h with h'
          rw [← h'] at hmem
          simp at hmem
        · rw [if_neg hc0] at h
          by_cases hci : c0 ∩ getAllowedDocs s r = ∅
          · rw [if_pos hci] at h
            injection h with h'
            rw [← h'] at hmem
            simp at hmem
          · rw [if_neg hci] at h
            by_cases hsel2 : ((decide ((c0 ∩ getAllowedDocs s r).card ≤ SELECTIVE_RETRIEVAL_THRESHOLD)) ||
                (decide (0 < s.univ.card) && decide ((c0 ∩ getAllowedDocs s r).card ≤ s.univ.card / 100))) = true
            · rw [if_pos hsel2] at h
              injection h with h'
              rw [← h'] at hmem
              dsimp only at hmem
              rcases collectSelective_mem hit hmem with ⟨d, doc, hl, hcand, he⟩
              exact ⟨d, doc, hl, (Finset.mem_inter.mp hcand).2, he⟩
            · rw [if_neg hsel2] at h
              injection h with h'
              rw [← h'] at hmem
              dsimp only at hmem
              rcases collectScan_mem hit hmem with ⟨d, doc, hl, hcand, he⟩
              exact ⟨d, doc, hl, (Finset.mem_inter.mp hcand).2, he⟩


theorem batchGet_items_pub {s : CoreState} {g : Finset String} {sub : Option String} :
    ∀ (ids : List String) (acc : CoreBatchGetResult),
      (∀ hit ∈ acc.items, ∃ d doc, docsLookup s d = some doc ∧
        readVisibility doc.entry.attrs = .pub ∧ hit = mkHit doc) →
      ∀ hit ∈ (ids.foldl
        (fun acc id =>
          match mapLookup s.idToDoc id with
          | none => acc
          | some docId =>
            match docsLookup s docId with
            | none => acc
            | some indexed =>
              if !canSee indexed.entry ⟨false, g, sub⟩ then
                { acc with omitted := acc.omitted + 1 }
              else { acc with items := acc.items ++ [mkHit indexed] }) acc).items,
        ∃ d doc, docsLookup s d = some doc ∧
          readVisibility doc.entry.attrs = .pub ∧ hit = mkHit doc := by
  intro ids
  induction ids with
  | nil =>
    intro acc hacc hit h
    exact hacc hit h
  | cons i rest ih =>
    intro acc hacc hit h
    rw [List.foldl_cons] at h
    cases hm : mapLookup s.idToDoc i with
    | none =>
      rw [hm] at h
      exact ih _ hacc hit h
    | some docId =>
      rw [hm] at h
      dsimp only at h
      cases hd : docsLookup s docId with
      | none =>
        rw [hd] at h
        exact ih _ hacc hit h
      | some indexed =>
        rw [hd] at h
        dsimp only at h
        rw [canSee_unauth rfl] at h
        by_cases hv : readVisibility indexed.entry.attrs = .pub
        · rw [decide_eq_true hv] at h
          simp only [Bool.not_true] at h
          rw [if_neg Bool.false_ne_true] at h
          refine ih _ ?_ hit h
          intro hit' h'
          rcases List.mem_append.mp h' with h'' | h''
          · exact hacc hit' h''
          · exact ⟨docId, indexed, hd, hv, List.mem_singleton.mp h''⟩
        · rw [decide_eq_false hv] at h
          simp only [Bool.not_false, if_true] at h
          refine ih _ ?_ hit h
          intro hit' h'
          exact hacc hit' h'

/-- C10: for an unauthenticated requester the groups set is irrelevant —
`search`, `read` and `batchGet` return identical results for any two group
sets, the allowed set is exactly the public visibility bitmap, and (in any
reachable state) every item any of the three returns is a public doc, so no
internal or restricted doc is ever returned. -/
theorem c10_unauthenticated_independence {s : CoreState} (hs : Reachable s)
    (g1 g2 : Finset String) (sub : Option String) (f : Option FilterNode)
    (o : CoreSearchOptions) (id : String) (ids : List String) :
    search s f o ⟨false, g1, sub⟩ = search s f o ⟨false, g2, sub⟩ ∧
    read s id ⟨false, g1, sub⟩ = read s id ⟨false, g2, sub⟩ ∧
    batchGet s ids ⟨false, g1, sub⟩ = batchGet s ids ⟨false, g2, sub⟩ ∧
    getAllowedDocs s ⟨false, g1, sub⟩ = s.visibilityPublic ∧
    (∀ res, search s f o ⟨false, g1, sub⟩ = .ok res →
      ∀ hit ∈ res.items, ∃ d doc, docsLookup s d = some doc ∧
        readVisibility doc.entry.attrs = .pub ∧ hit = mkHit doc) ∧
    (∀ hit, read s id ⟨false, g1, sub⟩ = some hit →
      ∃ d doc, docsLookup s d = some doc ∧
        readVisibility doc.entry.attrs = .pub ∧ hit = mkHit doc) ∧
    (∀ hit ∈ (batchGet s ids ⟨false, g1, sub⟩).items,
      ∃ d doc, docsLookup s d = some doc ∧
        readVisibility doc.entry.attrs = .pub ∧ hit = mkHit doc) := by
  have hcs : ∀ entry : EntryRecord, canSee entry ⟨false, g1, sub⟩ =
      canSee entry ⟨false, g2, sub⟩ := by
    intro entry
    rw [canSee_unauth rfl, canSee_unauth rfl]
  refine ⟨?_, ?_, ?_, getAllowedDocs_unauth rfl s, ?_, ?_, ?_⟩
  · unfold search
    rw [getAllowedDocs_unauth rfl s, getAllowedDocs_unauth rfl s]
  · unfold read
    cases mapLookup s.idToDoc id with
    | none => rfl
    | some docId =>
      dsimp only
      cases docsLookup s docId with
      | none => rfl
      | some indexed =>
        dsimp only
        rw [hcs indexed.entry]
  · unfold batchGet
    congr 1
  · intro res hres hit hmem
    obtain ⟨d, doc, hdoc, hall, hhit⟩ := search_items_mem hres hit hmem
    rw [getAllowedDocs_unauth rfl s] at hall
    obtain ⟨doc', hdoc', hv⟩ := ((reachable_wf hs).toWFCore.visPub d).mp hall
    rw [hdoc] at hdoc'
    injection hdoc' with he
    subst he
    exact ⟨d, doc, hdoc, hv, hhit⟩
  · intro hit hread
    unfold read at hread
    cases hm : mapLookup s.idToDoc id with
    | none =>
      rw [hm] at hread
      simp at hread
    | some docId =>
      rw [hm] at hread
      dsimp only at hread
      cases hd : docsLookup s docId with
      | none =>
        rw [hd] at hread
        simp at hread
      | some indexed =>
        rw [hd] at hread
        dsimp only at hread
        rw [canSee_unauth rfl] at hread
        by_cases hv : readVisibility indexed.entry.attrs = .pub
        · rw [decide_eq_true hv] at hread
          simp only [Bool.not_true] at hread
          rw [if_neg Bool.false_ne_true] at hread
          injection hread with he
          exact ⟨docId, indexed, hd, hv, he.symm⟩
        · rw [decide_eq_false hv] at hread
          simp only [Bool.not_false, if_true] at hread
          simp at hread
  · intro hit hmem
    unfold batchGet at hmem
    refine batchGet_items_pub ids { items := [], omitted := 0 } ?_ hit hmem
    intro hit' h'
    simp at h'


theorem c10_unauthenticated_independence_witness :
    Reachable sampleState ∧
    (search sampleState none { limit := 10, cursor := none, q := none }
        ⟨false, ∅, none⟩ =
      search sampleState none { limit := 10, cursor := none, q := none }
        ⟨false, {"finance"}, none⟩ ∧
     getAllowedDocs sampleState ⟨false, ∅, none⟩ = sampleState.visibilityPublic) := by
  have hreach : Reachable sampleState :=
    Reachable.snapshot [entryA, entryB, entryRestricted] Reachable.init
  have h := c10_unauthenticated_independence hreach ∅ {"finance"} none none
    { limit := 10, cursor := none, q := none } "R" ["A", "R"]
  exact ⟨hreach, h.1, h.2.2.2.1⟩


/-! Order theory for the lexicographic string comparison and the
`(updated_at desc, id desc)` sort keys -/

theorem listLt_irrefl : ∀ l : List Char, listLt l l = false := by
  intro l
  induction l with
  | nil => rfl
  | cons a as ih => simp [listLt, ih, lt_irrefl]

theorem listLt_asymm : ∀ {l1 l2 : List Char},
    listLt l1 l2 = true → listLt l2 l1 = false := by
  intro l1
  induction l1 with
  | nil =>
    intro l2 h
    cases l2 with
    | nil => exact absurd h (by simp [listLt])
    | cons b bs => rfl
  | cons a as ih =>
    intro l2 h
    cases l2 with
    | nil => exact absurd h (by simp [listLt])
    | cons b bs =>
      simp only [listLt] at h ⊢
      by_cases hab : a < b
      · rw [if_neg (not_lt_of_lt hab), if_pos hab]
      · rw [if_neg hab] at h
        by_cases hba : b < a
        · rw [if_pos hba] at h
          exact absurd h (by simp)
        · rw [if_neg hba] at h
          rw [if_neg hba, if_neg hab]
          exact ih h

theorem listLt_trans : ∀ {l1 l2 l3 : List Char},
    listLt l1 l2 = true → listLt l2 l3 = true → listLt l1 l3 = true := by
  intro l1
  induction l1 with
  | nil =>
    intro l2 l3 h1 h2
    cases l2 with
    | nil => exact absurd h1 (by simp [listLt])
    | cons b bs =>
      cases l3 with
      | nil => exact absurd h2 (by simp [listLt])
      | cons c cs => rfl
  | cons a as ih =>
    intro l2 l3 h1 h2
    cases l2 with
    | nil => exact absurd h1 (by simp [listLt])
    | cons b bs =>
      cases l3 with
      | nil => exact absurd h2 (by simp [listLt])
      | cons c cs =>
        simp only [listLt] at h1 h2 ⊢
        by_cases hab : a < b
        · by_cases hbc : b < c
          · rw [if_pos (lt_trans hab hbc)]
          · by_cases hcb : c < b
            · rw [if_pos hcb, if_neg hbc] at h2
              exact absurd h2 (by simp)
            · have hbc' : b = c := le_antisymm (le_of_not_lt hcb) (le_of_not_lt hbc)
              subst hbc'
              rw [if_pos hab]
        · rw [if_neg hab] at h1
          by_cases hba : b < a
          · rw [if_pos hba] at h1
            exact absurd h1 (by simp)
          · rw [if_neg hba] at h1
            have hab' : a = b := le_antisymm (le_of_not_lt hba) (le_of_not_lt hab)
            subst hab'
            by_cases hac : a < c
            · rw [if_pos hac]
            · rw [if_neg hac] at h2 ⊢
              by_cases hca : c < a
              · rw [if_pos hca] at h2
                exact absurd h2 (by simp)
              · rw [if_neg hca] at h2 ⊢
                exact ih h1 h2

theorem listLt_connex : ∀ {l1 l2 : List Char},
    listLt l1 l2 = false → listLt l2 l1 = false → l1 = l2 := by
  intro l1
  induction l1 with
  | nil =>
    intro l2 h1 _
    cases l2 with
    | nil => rfl
    | cons b bs => exact absurd h1 (by simp [listLt])
  | cons a as ih =>
    intro l2 h1 h2
    cases l2 with
    | nil => exact absurd h2 (by simp [listLt])
    | cons b bs =>
      simp only [listLt] at h1 h2
      by_cases hab : a < b
      · rw [if_pos hab] at h1
        exact absurd h1 (by simp)
      · rw [if_neg hab] at h1
        by_cases hba : b < a
        · rw [if_pos hba] at h2
          exact absurd h2 (by simp)
        · rw [if_neg hba] at h1
          rw [if_neg hba, if_neg hab] at h2
          have hab' : a = b := le_antisymm (le_of_not_lt hba) (le_of_not_lt hab)
          rw [hab', ih h1 h2]

theorem strLt_irrefl (a : String) : strLt a a = false := listLt_irrefl _

theorem strLt_asymm {a b : String} (h : strLt a b = true) : strLt b a = false :=
  listLt_asymm h

theorem strLt_trans {a b c : String} (h1 : strLt a b = true) (h2 : strLt b c = true) :
    strLt a c = true := listLt_trans h1 h2

theorem strLt_connex {a b : String} (h1 : strLt a b = false) (h2 : strLt b a = false) :
    a = b := by
  have h := listLt_connex h1 h2
  cases a
  cases b
  exact congrArg String.mk h

theorem compare_le_iff {aU aI bU bI : String} :
    compareSortKeys aU aI bU bI ≤ 0 ↔
      (strLt bU aU = true ∨ (bU = aU ∧ (strLt bI aI = true ∨ bI = aI))) := by
  unfold compareSortKeys
  by_cases h1 : strLt bU aU = true
  · simp [h1]
  · have h1' : strLt bU aU = false := by
      cases hx : strLt bU aU
      · rfl
      · exact absurd hx h1
    by_cases h2 : strLt aU bU = true
    · have hne : bU ≠ aU := by
        intro he
        subst he
        rw [strLt_irrefl] at h2
        exact absurd h2 (by simp)
      simp [h1', h2, hne]
    · have h2' : strLt aU bU = false := by
        cases hx : strLt aU bU
        · rfl
        · exact absurd hx h2
      have hequ : bU = aU := strLt_connex h1' h2'
      by_cases h3 : strLt bI aI = true
      · simp [h1', h2', h3, hequ, strLt_irrefl]
      · have h3' : strLt bI aI = false := by
          cases hx : strLt bI aI
          · rfl
          · exact absurd hx h3
        by_cases h4 : strLt aI bI = true
        · have hne : bI ≠ aI := by
            intro he
            subst he
            rw [strLt_irrefl] at h4
            exact absurd h4 (by simp)
          simp [h1', h2', h3', h4, hequ, hne, strLt_irrefl]
        · have h4' : strLt aI bI = false := by
            cases hx : strLt aI bI
            · rfl
            · exact absurd hx h4
          have heqi : bI = aI := strLt_connex h3' h4'
          simp [h1', h2', h3', h4', hequ, heqi, strLt_irrefl]

theorem compare_lt_iff {aU aI bU bI : String} :
    compareSortKeys aU aI bU bI < 0 ↔
      (strLt bU aU = true ∨ (bU = aU ∧ strLt bI aI = true)) := by
  unfold compareSortKeys
  by_cases h1 : strLt bU aU = true
  · simp [h1]
  · have h1' : strLt bU aU = false := by
      cases hx : strLt bU aU
      · rfl
      · exact absurd hx h1
    by_cases h2 : strLt aU bU = true
    · have hne : bU ≠ aU := by
        intro he
        subst he
        rw [strLt_irrefl] at h2
        exact absurd h2 (by simp)
      simp [h1', h2, hne]
    · have h2' : strLt aU bU = false := by
        cases hx : strLt aU bU
        · rfl
        · exact absurd hx h2
      have hequ : bU = aU := strLt_connex h1' h2'
      by_cases h3 : strLt bI aI = true
      · simp [h1', h2', h3, hequ, strLt_irrefl]
      · have h3' : strLt bI aI = false := by
          cases hx : strLt bI aI
          · rfl
          · exact absurd hx h3
        by_cases h4 : strLt aI bI = true
        · simp [h1', h2', h3', h4]
        · have h4' : strLt aI bI = false := by
            cases hx : strLt aI bI
            · rfl
            · exact absurd hx h4
          simp [h1', h2', h3', h4']

theorem compare_eq_zero_iff {aU aI bU bI : String} :
    compareSortKeys aU aI bU bI = 0 ↔ (aU = bU ∧ aI = bI) := by
  unfold compareSortKeys
  constructor
  · intro h
    by_cases h1 : strLt bU aU = true
    · rw [if_pos h1] at h
      exact absurd h (by simp)
    · have h1' : strLt bU aU = false := by
        cases hx : strLt bU aU
        · rfl
        · exact absurd hx h1
      rw [if_neg h1] at h
      by_cases h2 : strLt aU bU = true
      · rw [if_pos h2] at h
        exact absurd h (by simp)
      · have h2' : strLt aU bU = false := by
          cases hx : strLt aU bU
          · rfl
          · exact absurd hx h2
        rw [if_neg h2] at h
        by_cases h3 : strLt bI aI = true
        · rw [if_pos h3] at h
          exact absurd h (by simp)
        · have h3' : strLt bI aI = false := by
            cases hx : strLt bI aI
            · rfl
            · exact absurd hx h3
          rw [if_neg h3] at h
          by_cases h4 : strLt aI bI = true
          · rw [if_pos h4] at h
            exact absurd h (by simp)
          · have h4' : strLt aI bI = false := by
              cases hx : strLt aI bI
              · rfl
              · exact absurd hx h4
            exact ⟨strLt_connex h2' h1', strLt_connex h4' h3'⟩
  · rintro ⟨he1, he2⟩
    subst he1
    subst he2
    simp [strLt_irrefl]

theorem compare_self (u i : String) : compareSortKeys u i u i = 0 :=
  compare_eq_zero_iff.mpr ⟨rfl, rfl⟩

theorem compare_le_total (aU aI bU bI : String) :
    compareSortKeys aU aI bU bI ≤ 0 ∨ compareSortKeys bU bI aU aI ≤ 0 := by
  by_cases h1 : strLt bU aU = true
  · exact Or.inl (compare_le_iff.mpr (Or.inl h1))
  · have h1' : strLt bU aU = false := by
      cases hx : strLt bU aU
      · rfl
      · exact absurd hx h1
    by_cases h2 : strLt aU bU = true
    · exact Or.inr (compare_le_iff.mpr (Or.inl h2))
    · have h2' : strLt aU bU = false := by
        cases hx : strLt aU bU
        · rfl
        · exact absurd hx h2
      have hequ : bU = aU := strLt_connex h1' h2'
      by_cases h3 : strLt bI aI = true
      · exact Or.inl (compare_le_iff.mpr (Or.inr ⟨hequ, Or.inl h3⟩))
      · have h3' : strLt bI aI = false := by
          cases hx : strLt bI aI
          · rfl
          · exact absurd hx h3
        by_cases h4 : strLt aI bI = true
        · exact Or.inr (compare_le_iff.mpr (Or.inr ⟨hequ.symm, Or.inl h4⟩))
        · have h4' : strLt aI bI = false := by
            cases hx : strLt aI bI
            · rfl
            · exact absurd hx h4
          exact Or.inl (compare_le_iff.mpr (Or.inr ⟨hequ, Or.inr (strLt_connex h3' h4')⟩))

theorem compare_le_trans {aU aI bU bI cU cI : String}
    (h1 : compareSortKeys aU aI bU bI ≤ 0) (h2 : compareSortKeys bU bI cU cI ≤ 0) :
    compareSortKeys aU aI cU cI ≤ 0 := by
  rw [compare_le_iff] at h1 h2 ⊢
  rcases h1 with h1 | ⟨he1, h1⟩
  · rcases h2 with h2 | ⟨he2, h2⟩
    · exact Or.inl (strLt_trans h2 h1)
    · rw [he2]
      exact Or.inl h1
  · rcases h2 with h2 | ⟨he2, h2⟩
    · rw [← he1]
      exact Or.inl h2
    · refine Or.inr ⟨he2.trans he1, ?_⟩
      rcases h1 with h1 | he
      · rcases h2 with h2 | he'
        · exact Or.inl (strLt_trans h2 h1)
        · rw [he']
          exact Or.inl h1
      · rcases h2 with h2 | he'
        · rw [← he]
          exact Or.inl h2
        · exact Or.inr (he'.trans he)

theorem compare_lt_trans {aU aI bU bI cU cI : String}
    (h1 : compareSortKeys aU aI bU bI < 0) (h2 : compareSortKeys bU bI cU cI < 0) :
    compareSortKeys aU aI cU cI < 0 := by
  rw [compare_lt_iff] at h1 h2 ⊢
  rcases h1 with h1 | ⟨he1, h1⟩
  · rcases h2 with h2 | ⟨he2, h2⟩
    · exact Or.inl (strLt_trans h2 h1)
    · rw [he2]
      exact Or.inl h1
  · rcases h2 with h2 | ⟨he2, h2⟩
    · rw [← he1]
      exact Or.inl h2
    · exact Or.inr ⟨he2.trans he1, strLt_trans h2 h1⟩

theorem compare_le_not_swap_lt {aU aI bU bI : String}
    (h1 : compareSortKeys aU aI bU bI ≤ 0) : ¬ compareSortKeys bU bI aU aI < 0 := by
  intro h2
  rw [compare_le_iff] at h1
  rw [compare_lt_iff] at h2
  rcases h1 with h1 | ⟨he1, h1⟩
  · rcases h2 with h2 | ⟨he2, h2⟩
    · rw [strLt_asymm h1] at h2
      exact absurd h2 (by simp)
    · rw [he2, strLt_irrefl] at h1
      exact absurd h1 (by simp)
  · rcases h2 with h2 | ⟨he2, h2⟩
    · rw [he1, strLt_irrefl] at h2
      exact absurd h2 (by simp)
    · rcases h1 with h1 | he
      · rw [strLt_asymm h1] at h2
        exact absurd h2 (by simp)
      · rw [he, strLt_irrefl] at h2
        exact absurd h2 (by simp)

theorem compare_lt_swap {aU aI bU bI : String}
    (h : compareSortKeys aU aI bU bI < 0) : 0 < compareSortKeys bU bI aU aI := by
  rcases lt_trichotomy (compareSortKeys bU bI aU aI) 0 with h' | h' | h'
  · exact absurd h (compare_le_not_swap_lt (le_of_lt h'))
  · rcases compare_eq_zero_iff.mp h' with ⟨he1, he2⟩
    rw [he1, he2, compare_self] at h
    exact absurd h (by simp)
  · exact h'

theorem isAfter_iff {u i : String} {c : SearchCursor} :
    isAfterCursor u i c = true ↔ compareSortKeys c.updated_at c.id u i < 0 := by
  unfold isAfterCursor
  rw [compare_lt_iff]
  by_cases h1 : strLt u c.updated_at = true
  · simp [h1]
  · have h1' : strLt u c.updated_at = false := by
      cases hx : strLt u c.updated_at
      · rfl
      · exact absurd hx h1
    rw [if_neg h1]
    by_cases h2 : strLt c.updated_at u = true
    · have hne : u ≠ c.updated_at := by
        intro he
        rw [he, strLt_irrefl] at h2
        exact absurd h2 (by simp)
      simp [h1', h2, hne]
    · have h2' : strLt c.updated_at u = false := by
        cases hx : strLt c.updated_at u
        · rfl
        · exact absurd hx h2
      have hequ : u = c.updated_at := strLt_connex h1' h2'
      simp [h1', h2', hequ, strLt_irrefl]


/-! Page-shaped characterization of the collection loops: a search page is a
prefix of the "admitted" doc list (sort order filtered by candidate set,
cursor, query and visibility), plus the cursor of the last emitted doc. -/

/-- The admission test a doc id must pass to be collected. -/
def admitTest (lookup : Nat → Option IndexedDoc) (inCand : Nat → Bool)
    (cur : Option SearchCursor) (q : Option String) (extraOk : IndexedDoc → Bool)
    (d : Nat) : Option IndexedDoc :=
  if inCand d then
    match lookup d with
    | some doc =>
      if cursorFails cur doc then none
      else if qFails q doc then none
      else if extraOk doc then some doc else none
    | none => none
  else none

/-- The docs a scan admits, in scan order. -/
def admitted (lookup : Nat → Option IndexedDoc) (inCand : Nat → Bool)
    (cur : Option SearchCursor) (q : Option String) (extraOk : IndexedDoc → Bool)
    (order : List Nat) : List IndexedDoc :=
  order.filterMap (admitTest lookup inCand cur q extraOk)

/-- The page produced from an admitted-doc list: up to `lim` hits and, when
the limit is reached, the cursor of the last emitted doc. -/
def pageLoop (lim : Nat) : List IndexedDoc → List CoreSearchHit × Option SearchCursor
  | [] => ([], none)
  | doc :: rest =>
    if lim ≤ 1 then ([mkHit doc], some (cursorOfDoc doc))
    else
      let r := pageLoop (lim - 1) rest
      (mkHit doc :: r.1, r.2)

theorem pageLoop_items : ∀ (adm : List IndexedDoc) (lim : Nat), 1 ≤ lim →
    (pageLoop lim adm).1 = (adm.take lim).map mkHit := by
  intro adm
  induction adm with
  | nil =>
    intro lim h
    simp [pageLoop]
  | cons doc rest ih =>
    intro lim h
    by_cases h1 : lim ≤ 1
    · have h2 : lim = 1 := le_antisymm h1 h
      subst h2
      simp [pageLoop]
    · simp only [pageLoop]
      rw [if_neg h1]
      dsimp only
      rw [ih (lim - 1) (by omega)]
      have h3 : lim = (lim - 1) + 1 := by omega
      conv_rhs => rw [h3]
      simp

theorem pageLoop_cursor : ∀ (adm : List IndexedDoc) (lim : Nat), 1 ≤ lim →
    (pageLoop lim adm).2 =
      if lim ≤ adm.length then (adm[lim - 1]?).map cursorOfDoc else none := by
  intro adm
  induction adm with
  | nil =>
    intro lim h
    simp only [pageLoop, List.length_nil]
    rw [if_neg (by omega)]
  | cons doc rest ih =>
    intro lim h
    by_cases h1 : lim ≤ 1
    · have h2 : lim = 1 := le_antisymm h1 h
      subst h2
      simp [pageLoop]
    · simp only [pageLoop]
      rw [if_neg h1]
      dsimp only
      rw [ih (lim - 1) (by omega)]
      by_cases h4 : lim - 1 ≤ rest.length
      · rw [if_pos h4, if_pos (by simp; omega)]
        congr 1
        have h6 : lim - 1 = (lim - 1 - 1) + 1 := by omega
        conv_rhs => rw [h6]
        rw [List.getElem?_cons_succ]
      · rw [if_neg h4, if_neg (by simp; omega)]

theorem pageLoop_take {lim : Nat} (h : 1 ≤ lim) (adm : List IndexedDoc) :
    pageLoop lim (adm.take lim) = pageLoop lim adm := by
  refine Prod.ext ?_ ?_
  · rw [pageLoop_items _ _ h, pageLoop_items _ _ h, List.take_take, min_self]
  · rw [pageLoop_cursor _ _ h, pageLoop_cursor _ _ h, List.length_take]
    by_cases h5 : lim ≤ adm.length
    · rw [if_pos (by omega), if_pos h5, List.getElem?_take, if_pos (by omega)]
    · rw [if_neg (by omega), if_neg h5]

theorem scanLoop_pageLoop {lookup : Nat → Option IndexedDoc} {inCand : Nat → Bool}
    {cur : Option SearchCursor} {q : Option String} {extraOk : IndexedDoc → Bool}
    {lim : Nat} :
    ∀ (order : List Nat) (init : List CoreSearchHit), init.length < lim →
      scanLoop lookup inCand cur q extraOk lim order init =
        (init ++ (pageLoop (lim - init.length)
            (admitted lookup inCand cur q extraOk order)).1,
         (pageLoop (lim - init.length) (admitted lookup inCand cur q extraOk order)).2) := by
  intro order
  induction order with
  | nil =>
    intro init hlt
    simp [scanLoop, admitted, pageLoop]
  | cons d rest ih =>
    intro init hlt
    simp only [scanLoop]
    by_cases hcand : inCand d = true
    · rw [hcand]
      simp only [Bool.not_true] at *
      rw [if_neg Bool.false_ne_true]
      cases hlook : lookup d with
      | none =>
        have hnone : admitTest lookup inCand cur q extraOk d = none := by
          simp [admitTest, hcand, hlook]
        rw [ih init hlt]
        unfold admitted
        rw [List.filterMap_cons_none hnone]
      | some doc =>
        dsimp only
        by_cases h1 : cursorFails cur doc = true
        · rw [if_pos h1, ih init hlt]
          have hnone : admitTest lookup inCand cur q extraOk d = none := by
            simp [admitTest, hcand, hlook, h1]
          unfold admitted
          rw [List.filterMap_cons_none hnone]
        · rw [if_neg h1]
          by_cases h2 : qFails q doc = true
          · rw [if_pos h2, ih init hlt]
            have hnone : admitTest lookup inCand cur q extraOk d = none := by
              simp [admitTest, hcand, hlook, h1, h2]
            unfold admitted
            rw [List.filterMap_cons_none hnone]
          · rw [if_neg h2]
            by_cases h3 : extraOk doc = true
            · rw [h3]
              simp only [Bool.not_true]
              rw [if_neg Bool.false_ne_true]
              have hsome : admitTest lookup inCand cur q extraOk d = some doc := by
                simp only [admitTest, hcand, if_true, hlook]
                rw [if_neg h1, if_neg h2, if_pos h3]
              have hadm : admitted lookup inCand cur q extraOk (d :: rest) =
                  doc :: admitted lookup inCand cur q extraOk rest := by
                unfold admitted
                rw [List.filterMap_cons_some hsome]
              rw [hadm]
              by_cases hfin : lim ≤ (init ++ [mkHit doc]).length
              · rw [if_pos hfin]
                have hk : lim - init.length = 1 := by
                  simp at hfin
                  omega
                rw [hk]
                simp [pageLoop]
              · rw [if_neg hfin]
                rw [ih (init ++ [mkHit doc]) (by simp at hfin ⊢; omega)]
                have h2' : ¬ lim - init.length ≤ 1 := by
                  simp at hfin
                  omega
                simp only [pageLoop]
                rw [if_neg h2']
                dsimp only
                have hk : lim - (init ++ [mkHit doc]).length = lim - init.length - 1 := by
                  simp only [List.length_append, List.length_cons, List.length_nil]
                  omega
                rw [hk, ← List.append_cons]
            · have h3' : extraOk doc = false := by
                cases hx : extraOk doc
                · rfl
                · exact absurd hx h3
              rw [h3']
              simp only [Bool.not_false, if_true]
              rw [ih init hlt]
              have hnone : admitTest lookup inCand cur q extraOk d = none := by
                simp only [admitTest, hcand, if_true, hlook]
                rw [if_neg h1, if_neg h2, if_neg (by rw [h3']; simp)]
              unfold admitted
              rw [List.filterMap_cons_none hnone]
    · have hcand' : inCand d = false := by
        cases hx : inCand d
        · rfl
        · exact absurd hx hcand
      rw [hcand']
      simp only [Bool.not_false, if_true]
      rw [ih init hlt]
      have hnone : admitTest lookup inCand cur q extraOk d = none := by
        simp [admitTest, hcand']
      unfold admitted
      rw [List.filterMap_cons_none hnone]

theorem emitLoop_pageLoop {lim : Nat} :
    ∀ (tds : List IndexedDoc) (init : List CoreSearchHit), init.length < lim →
      emitLoop lim tds init =
        (init ++ (pageLoop (lim - init.length) tds).1,
         (pageLoop (lim - init.length) tds).2) := by
  intro tds
  induction tds with
  | nil =>
    intro init hlt
    simp [emitLoop, pageLoop]
  | cons doc rest ih =>
    intro init hlt
    simp only [emitLoop]
    by_cases hfin : lim ≤ (init ++ [mkHit doc]).length
    · rw [if_pos hfin]
      have hk : lim - init.length = 1 := by
        simp at hfin
        omega
      rw [hk]
      simp [pageLoop]
    · rw [if_neg hfin]
      rw [ih (init ++ [mkHit doc]) (by simp at hfin ⊢; omega)]
      have h2' : ¬ lim - init.length ≤ 1 := by
        simp at hfin
        omega
      simp only [pageLoop]
      rw [if_neg h2']
      dsimp only
      have hk : lim - (init ++ [mkHit doc]).length = lim - init.length - 1 := by
        simp only [List.length_append, List.length_cons, List.length_nil]
        omega
      rw [hk, ← List.append_cons]


/-! Characterization of `buildRank` on duplicate-free orders -/

theorem buildRank_append_singleton (l : List Nat) (x : Nat) :
    buildRank (l ++ [x]) = fun d => if d = x then some l.length else buildRank l d := by
  funext d
  unfold buildRank
  rw [List.enum_append, List.foldl_append]
  rfl

theorem buildRank_iff : ∀ (l : List Nat), l.Nodup → ∀ (d i : Nat),
    (buildRank l d = some i ↔ l[i]? = some d) := by
  intro l
  induction l using List.reverseRecOn with
  | nil =>
    intro _ d i
    simp [buildRank]
  | append_singleton l x ih =>
    intro hnd d i
    have hl : l.Nodup := (List.nodup_append.mp hnd).1
    have hx : x ∉ l := by
      intro hmem
      rcases List.nodup_append.mp hnd with ⟨-, -, hdisj⟩
      exact hdisj hmem (List.mem_singleton_self x)
    rw [buildRank_append_singleton]
    dsimp only
    by_cases hd : d = x
    · subst hd
      rw [if_pos rfl]
      constructor
      · intro h
        injection h with h'
        subst h'
        exact List.getElem?_concat_length l d
      · intro h
        rcases List.getElem?_eq_some.mp h with ⟨hi, -⟩
        rw [List.length_append, List.length_singleton] at hi
        by_cases hlt : i < l.length
        · exfalso
          apply hx
          have h2 : (l ++ [d])[i]? = l[i]? := by
            rw [List.getElem?_append, if_pos hlt]
          rw [h, List.getElem?_eq_getElem hlt] at h2
          injection h2 with h3
          rw [h3]
          exact List.getElem_mem hlt
        · have h4 : i = l.length := by omega
          rw [h4]
    · rw [if_neg hd, ih hl d i]
      by_cases hlt : i < l.length
      · rw [List.getElem?_append, if_pos hlt]
      · have h1 : l[i]? = none := List.getElem?_eq_none (by omega)
        rw [h1, List.getElem?_append_right (by omega)]
        constructor
        · intro h
          exact absurd h (by simp)
        · intro h
          rcases List.getElem?_eq_some.mp h with ⟨hb, he⟩
          exfalso
          apply hd
          rw [← he, List.getElem_singleton]
  
theorem buildRank_isSome_of_mem {l : List Nat} (hnd : l.Nodup) {d : Nat} (h : d ∈ l) :
    ∃ i, buildRank l d = some i := by
  rcases List.mem_iff_getElem.mp h with ⟨i, hi, he⟩
  refine ⟨i, (buildRank_iff l hnd d i).mpr ?_⟩
  rw [List.getElem?_eq_getElem hi, he]

theorem buildRank_pairwise {l : List Nat} (hnd : l.Nodup) :
    l.Pairwise (fun a b => ∀ i j, buildRank l a = some i → buildRank l b = some j →
      i < j) := by
  rw [List.pairwise_iff_getElem]
  intro i j hi hj hij ia jb ha hb
  have h1 := (buildRank_iff l hnd _ ia).mp ha
  have h2 := (buildRank_iff l hnd _ jb).mp hb
  rcases List.getElem?_eq_some.mp h1 with ⟨hia, hea⟩
  rcases List.getElem?_eq_some.mp h2 with ⟨hjb, heb⟩
  have h3 : ia = i := (hnd.getElem_inj_iff).mp hea
  have h4 : jb = j := (hnd.getElem_inj_iff).mp heb
  omega

theorem buildRank_inj {l : List Nat} (hnd : l.Nodup) {a b i : Nat}
    (ha : buildRank l a = some i) (hb : buildRank l b = some i) : a = b := by
  have h1 := (buildRank_iff l hnd a i).mp ha
  have h2 := (buildRank_iff l hnd b i).mp hb
  rw [h1] at h2
  injection h2


/-! Order facts about `updatedOrder` under the full invariant -/

/-- A total, transitive extension of the sort comparator: missing docs sort
first instead of comparing equal. On lists of live doc ids it agrees with
`docCompare · · ≤ 0`, and `insertionSort` only compares list members, so the
two relations sort `docs.map fst` identically. -/
def docKeyLe (docs : List (Nat × IndexedDoc)) (a b : Nat) : Prop :=
  match mapLookup docs a, mapLookup docs b with
  | some docA, some docB =>
    compareSortKeys docA.entry.updated_at docA.entry.id
      docB.entry.updated_at docB.entry.id ≤ 0
  | none, _ => True
  | some _, none => False

instance (docs : List (Nat × IndexedDoc)) (a b : Nat) : Decidable (docKeyLe docs a b) := by
  unfold docKeyLe
  split <;> infer_instance

instance (docs : List (Nat × IndexedDoc)) : IsTotal Nat (docKeyLe docs) := by
  constructor
  intro a b
  unfold docKeyLe
  cases ha : mapLookup docs a with
  | none => exact Or.inl trivial
  | some docA =>
    cases hb : mapLookup docs b with
    | none => exact Or.inr trivial
    | some docB => exact compare_le_total _ _ _ _

instance (docs : List (Nat × IndexedDoc)) : IsTrans Nat (docKeyLe docs) := by
  constructor
  intro a b c h1 h2
  unfold docKeyLe at *
  cases ha : mapLookup docs a with
  | none => trivial
  | some docA =>
    rw [ha] at h1
    cases hc : mapLookup docs c with
    | none =>
      rw [hc] at h2
      cases hb : mapLookup docs b with
      | none =>
        rw [hb] at h1
        exact h1
      | some docB =>
        rw [hb] at h2
        exact h2
    | some docC =>
      rw [hc] at h2
      cases hb : mapLookup docs b with
      | none =>
        rw [hb] at h1
        exact absurd h1 not_false
      | some docB =>
        rw [hb] at h1 h2
        exact compare_le_trans h1 h2

theorem orderedInsert_congr {α : Type} {r r' : α → α → Prop} [DecidableRel r]
    [DecidableRel r'] {a : α} :
    ∀ {l : List α}, (∀ b ∈ l, (r a b ↔ r' a b)) →
      l.orderedInsert r a = l.orderedInsert r' a := by
  intro l
  induction l with
  | nil => intro _; rfl
  | cons b t ih =>
    intro h
    simp only [List.orderedInsert]
    by_cases hr : r a b
    · rw [if_pos hr, if_pos ((h b (List.mem_cons_self _ _)).mp hr)]
    · rw [if_neg hr, if_neg (fun hc => hr ((h b (List.mem_cons_self _ _)).mpr hc))]
      rw [ih (fun c hc => h c (List.mem_cons_of_mem _ hc))]

theorem insertionSort_congr {α : Type} {r r' : α → α → Prop} [DecidableRel r]
    [DecidableRel r'] :
    ∀ {l : List α}, (∀ a ∈ l, ∀ b ∈ l, (r a b ↔ r' a b)) →
      l.insertionSort r = l.insertionSort r' := by
  intro l
  induction l with
  | nil => intro _; rfl
  | cons x t ih =>
    intro h
    simp only [List.insertionSort]
    rw [ih (fun a ha b hb => h a (List.mem_cons_of_mem _ ha) b (List.mem_cons_of_mem _ hb))]
    refine orderedInsert_congr ?_
    intro b hb
    rw [List.mem_insertionSort] at hb
    exact h x (List.mem_cons_self _ _) b (List.mem_cons_of_mem _ hb)

theorem docCompare_some {docs : List (Nat × IndexedDoc)} {a b : Nat}
    {docA docB : IndexedDoc} (ha : mapLookup docs a = some docA)
    (hb : mapLookup docs b = some docB) :
    docCompare docs a b = compareSortKeys docA.entry.updated_at docA.entry.id
      docB.entry.updated_at docB.entry.id := by
  unfold docCompare
  rw [ha, hb]

theorem wf_mem_docs_of_mem_keys {s : CoreState} {d : Nat}
    (h : d ∈ s.docs.map Prod.fst) : ∃ doc, docsLookup s d = some doc := by
  cases hl : docsLookup s d with
  | none =>
    exfalso
    unfold docsLookup at hl
    rcases List.mem_map.mp h with ⟨p, hp, he⟩
    exact (mapLookup_none_iff.mp hl p hp) he
  | some doc => exact ⟨doc, rfl⟩

theorem wf_ord_eq {s : CoreState} (hwf : WF s) :
    s.updatedOrder = (s.docs.map Prod.fst).insertionSort (docKeyLe s.docs) := by
  rw [hwf.order]
  refine insertionSort_congr ?_
  intro a ha b hb
  rcases wf_mem_docs_of_mem_keys ha with ⟨docA, hda⟩
  rcases wf_mem_docs_of_mem_keys hb with ⟨docB, hdb⟩
  unfold docsLookup at hda hdb
  rw [docCompare_some hda hdb]
  unfold docKeyLe
  rw [hda, hdb]

theorem wf_ord_nodup {s : CoreState} (hwf : WF s) : s.updatedOrder.Nodup := by
  rw [hwf.order]
  exact ((List.perm_insertionSort _ _).nodup_iff).mpr hwf.docsNodup

theorem wf_mem_ord_iff {s : CoreState} (hwf : WF s) (d : Nat) :
    d ∈ s.updatedOrder ↔ ∃ doc, docsLookup s d = some doc := by
  rw [hwf.order, List.mem_insertionSort]
  constructor
  · exact wf_mem_docs_of_mem_keys
  · rintro ⟨doc, hdoc⟩
    unfold docsLookup at hdoc
    exact List.mem_map.mpr ⟨(d, doc), mapLookup_some_mem hdoc, rfl⟩

theorem wf_ord_sorted {s : CoreState} (hwf : WF s) :
    List.Sorted (docKeyLe s.docs) s.updatedOrder := by
  rw [wf_ord_eq hwf]
  exact List.sorted_insertionSort _ _

/-- Along the sort order, the `(updated_at desc, id desc)` keys of live docs
strictly decrease (keys are distinct because entry ids are unique). -/
theorem wf_ord_pairwise {s : CoreState} (hwf : WF s) :
    s.updatedOrder.Pairwise (fun a b => ∀ docA docB, docsLookup s a = some docA →
      docsLookup s b = some docB →
      compareSortKeys docA.entry.updated_at docA.entry.id
        docB.entry.updated_at docB.entry.id < 0) := by
  have hs : s.updatedOrder.Pairwise (docKeyLe s.docs) := wf_ord_sorted hwf
  have hnd := wf_ord_nodup hwf
  have hne : s.updatedOrder.Pairwise (fun a b => a ≠ b) := hnd
  have hcomb := hs.and hne
  refine hcomb.imp_of_mem ?_
  intro a b _ _ hab docA docB hda hdb
  rcases hab with ⟨hle, hne⟩
  unfold docKeyLe at hle
  unfold docsLookup at hda hdb
  rw [hda, hdb] at hle
  rcases lt_or_eq_of_le hle with hlt | heq
  · exact hlt
  · exfalso
    apply hne
    rcases compare_eq_zero_iff.mp heq with ⟨-, hid⟩
    have hma := hwf.docsId (a, docA) (mapLookup_some_mem hda)
    have hmb := hwf.docsId (b, docB) (mapLookup_some_mem hdb)
    dsimp only at hma hmb
    rw [hid] at hma
    rw [hma] at hmb
    injection hmb

theorem wf_rank_isSome {s : CoreState} (hwf : WF s) {d : Nat} {doc : IndexedDoc}
    (h : docsLookup s d = some doc) : ∃ i, s.docSortRank d = some i := by
  rw [hwf.rank]
  exact buildRank_isSome_of_mem (wf_ord_nodup hwf) ((wf_mem_ord_iff hwf d).mpr ⟨doc, h⟩)

theorem wf_ord_rank_pairwise {s : CoreState} (hwf : WF s) :
    s.updatedOrder.Pairwise (fun a b => ∀ i j, s.docSortRank a = some i →
      s.docSortRank b = some j → i < j) := by
  rw [hwf.rank]
  exact buildRank_pairwise (wf_ord_nodup hwf)


/-! Properties of admitted-doc lists under the invariant -/

/-- The rank value of a doc (0 when absent; admitted docs always have one). -/
def rkv (rank : Nat → Option Nat) (x : IndexedDoc) : Nat := (rank x.docId).getD 0

theorem admitTest_eq_some {lookup : Nat → Option IndexedDoc} {inCand : Nat → Bool}
    {cur : Option SearchCursor} {q : Option String} {extraOk : IndexedDoc → Bool}
    {d : Nat} {x : IndexedDoc} :
    admitTest lookup inCand cur q extraOk d = some x ↔
      (inCand d = true ∧ lookup d = some x ∧ cursorFails cur x = false ∧
        qFails q x = false ∧ extraOk x = true) := by
  unfold admitTest
  by_cases hc : inCand d = true
  · rw [if_pos hc]
    cases hl : lookup d with
    | none => simp [hc]
    | some doc =>
      dsimp only
      by_cases h1 : cursorFails cur doc = true
      · rw [if_pos h1]
        constructor
        · intro h
          exact absurd h (by simp)
        · rintro ⟨-, he, h2, -, -⟩
          injection he with he'
          subst he'
          rw [h1] at h2
          exact absurd h2 (by simp)
      · rw [if_neg h1]
        by_cases h2 : qFails q doc = true
        · rw [if_pos h2]
          constructor
          · intro h
            exact absurd h (by simp)
          · rintro ⟨-, he, -, h3, -⟩
            injection he with he'
            subst he'
            rw [h2] at h3
            exact absurd h3 (by simp)
        · rw [if_neg h2]
          by_cases h3 : extraOk doc = true
          · rw [if_pos h3]
            constructor
            · intro h
              injection h with h'
              subst h'
              refine ⟨hc, rfl, ?_, ?_, h3⟩
              · cases hx : cursorFails cur doc
                · rfl
                · exact absurd hx h1
              · cases hx : qFails q doc
                · rfl
                · exact absurd hx h2
            · rintro ⟨-, he, -, -, -⟩
              rw [he]
          · rw [if_neg h3]
            constructor
            · intro h
              exact absurd h (by simp)
            · rintro ⟨-, he, -, -, h4⟩
              injection he with he'
              subst he'
              exact absurd h4 h3
  · rw [if_neg hc]
    constructor
    · intro h
      exact absurd h (by simp)
    · rintro ⟨h1, -⟩
      exact absurd h1 hc

theorem wf_docId_of_lookup {s : CoreState} (hwf : WF s) {d : Nat} {doc : IndexedDoc}
    (h : docsLookup s d = some doc) : doc.docId = d :=
  hwf.docsDocId (d, doc) (mapLookup_some_mem h)

theorem wf_admitted_live {s : CoreState} (hwf : WF s) {inCand : Nat → Bool}
    {cur : Option SearchCursor} {q : Option String} {extraOk : IndexedDoc → Bool}
    {x : IndexedDoc}
    (h : x ∈ admitted (docsLookup s) inCand cur q extraOk s.updatedOrder) :
    docsLookup s x.docId = some x ∧ inCand x.docId = true := by
  rcases List.mem_filterMap.mp h with ⟨d, -, ht⟩
  rcases admitTest_eq_some.mp ht with ⟨hc, hl, -, -, -⟩
  have hid : x.docId = d := wf_docId_of_lookup hwf hl
  rw [hid]
  exact ⟨hl, hc⟩

theorem wf_admitted_rkv_pairwise {s : CoreState} (hwf : WF s) {inCand : Nat → Bool}
    {cur : Option SearchCursor} {q : Option String} {extraOk : IndexedDoc → Bool} :
    (admitted (docsLookup s) inCand cur q extraOk s.updatedOrder).Pairwise
      (fun x y => rkv s.docSortRank x < rkv s.docSortRank y) := by
  refine List.Pairwise.filterMap _ ?_ (wf_ord_rank_pairwise hwf)
  intro a a' hr x hx x' hx'
  rw [Option.mem_def] at hx hx'
  rcases admitTest_eq_some.mp hx with ⟨-, hl, -, -, -⟩
  rcases admitTest_eq_some.mp hx' with ⟨-, hl', -, -, -⟩
  have hida : x.docId = a := wf_docId_of_lookup hwf hl
  have hida' : x'.docId = a' := wf_docId_of_lookup hwf hl'
  rcases wf_rank_isSome hwf hl with ⟨i, hi⟩
  rcases wf_rank_isSome hwf hl' with ⟨j, hj⟩
  have hlt := hr i j hi hj
  unfold rkv
  rw [hida, hida', hi, hj]
  simpa using hlt

theorem wf_admitted_key_pairwise {s : CoreState} (hwf : WF s) {inCand : Nat → Bool}
    {cur : Option SearchCursor} {q : Option String} {extraOk : IndexedDoc → Bool} :
    (admitted (docsLookup s) inCand cur q extraOk s.updatedOrder).Pairwise
      (fun x y => compareSortKeys x.entry.updated_at x.entry.id
        y.entry.updated_at y.entry.id < 0) := by
  refine List.Pairwise.filterMap _ ?_ (wf_ord_pairwise hwf)
  intro a a' hr x hx x' hx'
  rw [Option.mem_def] at hx hx'
  rcases admitTest_eq_some.mp hx with ⟨-, hl, -, -, -⟩
  rcases admitTest_eq_some.mp hx' with ⟨-, hl', -, -, -⟩
  exact hr x x' hl hl'


/-! Generic machinery for the bounded insertion buffer -/

theorem dropWhile_head_false {α : Type} {p : α → Bool} :
    ∀ {l : List α} {y : α} {t : List α}, l.dropWhile p = y :: t → p y = false := by
  intro l
  induction l with
  | nil =>
    intro y t h
    simp [List.dropWhile] at h
  | cons a as ih =>
    intro y t h
    rw [List.dropWhile_cons] at h
    by_cases ha : p a = true
    · rw [if_pos ha] at h
      exact ih h
    · rw [if_neg ha] at h
      injection h with h1 _
      subst h1
      cases hx : p a
      · rfl
      · exact absurd hx ha

theorem takeWhile_append_all {α : Type} {p : α → Bool} :
    ∀ {l1 l2 : List α}, (∀ x ∈ l1, p x = true) →
      (l1 ++ l2).takeWhile p = l1 ++ l2.takeWhile p := by
  intro l1
  induction l1 with
  | nil =>
    intro l2 _
    rfl
  | cons a t ih =>
    intro l2 h
    rw [List.cons_append, List.takeWhile_cons, if_pos (h a (List.mem_cons_self _ _)),
      ih (fun x hx => h x (List.mem_cons_of_mem _ hx)), List.cons_append]

theorem takeWhile_nil_of_all_false {α : Type} {p : α → Bool} {l : List α}
    (h : ∀ x ∈ l, p x = false) : l.takeWhile p = [] := by
  cases l with
  | nil => rfl
  | cons a t =>
    rw [List.takeWhile_cons, if_neg (by rw [h a (List.mem_cons_self _ _)]; simp)]

theorem strictSorted_perm_eq {α : Type} {k : α → Nat} :
    ∀ {l l' : List α}, l.Perm l' → l.Pairwise (fun a b => k a < k b) →
      l'.Pairwise (fun a b => k a < k b) → l = l' := by
  intro l
  induction l with
  | nil =>
    intro l' hp _ _
    exact (hp.symm.eq_nil).symm
  | cons a t ih =>
    intro l' hp h1 h2
    cases l' with
    | nil => exact absurd hp.eq_nil (by simp)
    | cons a' t' =>
      have haa : a = a' := by
        by_contra hne
        have ha1 : a ∈ a' :: t' := hp.mem_iff.mp (List.mem_cons_self _ _)
        have ha2 : a' ∈ a :: t := hp.mem_iff.mpr (List.mem_cons_self _ _)
        rcases List.mem_cons.mp ha1 with he | hmem1
        · exact hne he
        · rcases List.mem_cons.mp ha2 with he | hmem2
          · exact hne he.symm
          · have hx := (List.pairwise_cons.mp h1).1 a' hmem2
            have hy := (List.pairwise_cons.mp h2).1 a hmem1
            omega
      subst haa
      rw [ih hp.cons_inv (List.pairwise_cons.mp h1).2 (List.pairwise_cons.mp h2).2]

theorem take_cons_take {α : Type} (x : α) (l : List α) (n : Nat) :
    (x :: l.take n).take n = (x :: l).take n := by
  cases n with
  | zero => rfl
  | succ m =>
    rw [List.take_succ_cons, List.take_succ_cons, List.take_take,
      Nat.min_eq_left (by omega)]

theorem take_orderedInsert {α : Type} {r : α → α → Prop} [DecidableRel r] (c : α) :
    ∀ (l : List α) (lim : Nat),
      ((l.take lim).orderedInsert r c).take lim = (l.orderedInsert r c).take lim := by
  intro l
  induction l with
  | nil =>
    intro lim
    rw [List.take_nil]
  | cons b t ih =>
    intro lim
    cases lim with
    | zero => simp
    | succ n =>
      rw [List.take_succ_cons]
      simp only [List.orderedInsert]
      by_cases hr : r c b
      · rw [if_pos hr, if_pos hr, List.take_succ_cons, List.take_succ_cons,
          take_cons_take]
      · rw [if_neg hr, if_neg hr, List.take_succ_cons, List.take_succ_cons, ih n]

theorem filterMap_perm_cons {α β : Type} {f f' : α → Option β} {x : α} {doc : β} :
    ∀ {l : List α}, l.Nodup → x ∈ l → f' x = some doc → f x = none →
      (∀ a ∈ l, a ≠ x → f' a = f a) →
      (l.filterMap f').Perm (doc :: l.filterMap f) := by
  intro l
  induction l with
  | nil =>
    intro _ hx
    simp at hx
  | cons a t ih =>
    intro hnd hx hf' hf hagree
    rcases List.mem_cons.mp hx with he | hmem
    · subst he
      rw [List.filterMap_cons_some hf']
      have hth : ∀ b ∈ t, f' b = f b := by
        intro b hb
        refine hagree b (List.mem_cons_of_mem _ hb) ?_
        intro hbe
        subst hbe
        exact (List.nodup_cons.mp hnd).1 hb
      rw [List.filterMap_congr hth, List.filterMap_cons_none hf]
    · have hax : a ≠ x := by
        intro he
        subst he
        exact (List.nodup_cons.mp hnd).1 hmem
      have hfa : f' a = f a := hagree a (List.mem_cons_self _ _) hax
      have hperm := ih (List.nodup_cons.mp hnd).2 hmem hf' hf
        (fun b hb hbne => hagree b (List.mem_cons_of_mem _ hb) hbne)
      cases hval : f a with
      | none =>
        rw [List.filterMap_cons_none (by rw [hfa, hval]), List.filterMap_cons_none hval]
        exact hperm
      | some y =>
        rw [List.filterMap_cons_some (by rw [hfa, hval]), List.filterMap_cons_some hval]
        exact (hperm.cons y).trans (List.Perm.swap _ _ _)


theorem orderedInsert_decomp {rank : Nat → Option Nat} {c : IndexedDoc} {rc : Nat}
    (hrkvc : rkv rank c = rc) :
    ∀ {b : List IndexedDoc}, (∀ x ∈ b, rkv rank x ≠ rc) →
      b.orderedInsert (fun x y => rkv rank x ≤ rkv rank y) c =
        b.takeWhile (fun y => decide (rkv rank y < rc)) ++
          c :: b.dropWhile (fun y => decide (rkv rank y < rc)) := by
  intro b
  induction b with
  | nil =>
    intro _
    rfl
  | cons y t ih =>
    intro hdist
    simp only [List.orderedInsert, List.takeWhile_cons, List.dropWhile_cons]
    by_cases hy : rkv rank y < rc
    · rw [if_neg (by rw [hrkvc]; omega), if_pos (decide_eq_true hy),
        if_pos (decide_eq_true hy), List.cons_append,
        ih (fun x hx => hdist x (List.mem_cons_of_mem _ hx))]
    · have hne := hdist y (List.mem_cons_self _ _)
      have hgt : rc < rkv rank y := by omega
      rw [if_pos (by rw [hrkvc]; omega), if_neg (by simp [hy]),
        if_neg (by simp [hy]), List.nil_append]

theorem insertTopDoc_eq_orderedInsert {rank : Nat → Option Nat} {b : List IndexedDoc}
    {c : IndexedDoc} {lim rc : Nat}
    (hc : rank c.docId = some rc)
    (hsorted : b.Pairwise (fun x y => rkv rank x < rkv rank y))
    (hsome : ∀ x ∈ b, ∃ i, rank x.docId = some i)
    (hdist : ∀ x ∈ b, rkv rank x ≠ rc)
    (hlen : b.length ≤ lim) :
    insertTopDoc rank b c lim =
      (b.orderedInsert (fun x y => rkv rank x ≤ rkv rank y) c).take lim := by
  have hrkvc : rkv rank c = rc := by
    unfold rkv
    rw [hc]
    rfl
  set Q : IndexedDoc → Bool := fun y => decide (rkv rank y < rc) with hQ
  set pre := b.takeWhile Q with hpre
  set suf := b.dropWhile Q with hsuf
  have hps : pre ++ suf = b := List.takeWhile_append_dropWhile Q b
  have hpremem : ∀ x ∈ pre, x ∈ b := by
    intro x hx
    rw [← hps]
    exact List.mem_append_left _ hx
  have hsufmem : ∀ x ∈ suf, x ∈ b := by
    intro x hx
    rw [← hps]
    exact List.mem_append_right _ hx
  have hprelt : ∀ x ∈ pre, rkv rank x < rc := by
    intro x hx
    have h := List.mem_takeWhile_imp hx
    rw [hQ] at h
    exact of_decide_eq_true h
  have hsufgt : ∀ x ∈ suf, rc < rkv rank x := by
    intro x hx
    cases hsc : suf with
    | nil =>
      rw [hsc] at hx
      simp at hx
    | cons h0 t0 =>
      have hdw : b.dropWhile Q = h0 :: t0 := by
        rw [← hsuf]
        exact hsc
      have hh0 : Q h0 = false := dropWhile_head_false hdw
      have hh0' : ¬ rkv rank h0 < rc := by
        intro hlt
        rw [hQ] at hh0
        dsimp only at hh0
        rw [decide_eq_true hlt] at hh0
        exact absurd hh0 (by simp)
      have hh0mem : h0 ∈ b := hsufmem h0 (by rw [hsc]; exact List.mem_cons_self _ _)
      have hh0gt : rc < rkv rank h0 := by
        have := hdist h0 hh0mem
        omega
      rw [hsc] at hx
      rcases List.mem_cons.mp hx with he | hmem
      · rw [he]
        exact hh0gt
      · have hpw : suf.Pairwise (fun x y => rkv rank x < rkv rank y) := by
          rw [hsuf]
          exact List.Pairwise.sublist ((List.dropWhile_suffix Q).sublist) hsorted
        rw [hsc] at hpw
        have := (List.pairwise_cons.mp hpw).1 x hmem
        omega
  unfold insertTopDoc
  rw [hc]
  dsimp only
  have hshift : b.reverse.takeWhile (fun previous =>
      match rank previous.docId with
      | none => false
      | some previousRank => decide (rc < previousRank)) = suf.reverse := by
    conv_lhs => rw [← hps]
    rw [List.reverse_append]
    rw [takeWhile_append_all ?hall]
    case hall =>
      intro x hx
      rw [List.mem_reverse] at hx
      rcases hsome x (hsufmem x hx) with ⟨i, hi⟩
      rw [hi]
      have hri : rkv rank x = i := by
        unfold rkv
        rw [hi]
        rfl
      have hgt := hsufgt x hx
      rw [hri] at hgt
      exact decide_eq_true hgt
    rw [takeWhile_nil_of_all_false ?hpf, List.append_nil]
    case hpf =>
      intro x hx
      rw [List.mem_reverse] at hx
      rcases hsome x (hpremem x hx) with ⟨i, hi⟩
      rw [hi]
      have hri : rkv rank x = i := by
        unfold rkv
        rw [hi]
        rfl
      have hlt := hprelt x hx
      rw [hri] at hlt
      exact decide_eq_false (by omega)
  rw [hshift, List.length_reverse]
  have hlenps : pre.length + suf.length = b.length := by
    rw [← hps, List.length_append]
  have hins : b.length - suf.length = pre.length := by omega
  rw [hins]
  have htake : b.take pre.length = pre := by
    conv_lhs => rw [← hps]
    exact List.take_left _ _
  have hdrop : b.drop pre.length = suf := by
    conv_lhs => rw [← hps]
    exact List.drop_left _ _
  rw [htake, hdrop, orderedInsert_decomp hrkvc hdist, ← hQ, ← hpre, ← hsuf]
  have hlins : (pre ++ c :: suf).length = b.length + 1 := by
    rw [List.length_append, List.length_cons]
    omega
  by_cases hov : lim < (pre ++ c :: suf).length
  · rw [if_pos hov]
    have hbl : b.length = lim := by omega
    rw [List.dropLast_eq_take, hlins, hbl, Nat.add_sub_cancel]
  · rw [if_neg hov]
    rw [List.take_of_length_le (by omega)]


theorem admitTest_congr_inCand {lookup : Nat → Option IndexedDoc} {i1 i2 : Nat → Bool}
    {cur : Option SearchCursor} {q : Option String} {extraOk : IndexedDoc → Bool}
    {d : Nat} (h : i1 d = i2 d) :
    admitTest lookup i1 cur q extraOk d = admitTest lookup i2 cur q extraOk d := by
  unfold admitTest
  rw [h]

theorem admitTest_lookup_none {lookup : Nat → Option IndexedDoc} {inCand : Nat → Bool}
    {cur : Option SearchCursor} {q : Option String} {extraOk : IndexedDoc → Bool}
    {d : Nat} (h : lookup d = none) :
    admitTest lookup inCand cur q extraOk d = none := by
  unfold admitTest
  rw [h]
  split <;> rfl

theorem admitTest_inCand_false {lookup : Nat → Option IndexedDoc} {inCand : Nat → Bool}
    {cur : Option SearchCursor} {q : Option String} {extraOk : IndexedDoc → Bool}
    {d : Nat} (h : inCand d = false) :
    admitTest lookup inCand cur q extraOk d = none := by
  unfold admitTest
  rw [h]
  rfl

theorem admitTest_cursor_fails {lookup : Nat → Option IndexedDoc} {inCand : Nat → Bool}
    {cur : Option SearchCursor} {q : Option String} {extraOk : IndexedDoc → Bool}
    {d : Nat} {doc : IndexedDoc} (hl : lookup d = some doc)
    (h : cursorFails cur doc = true) :
    admitTest lookup inCand cur q extraOk d = none := by
  unfold admitTest
  rw [hl]
  split
  · dsimp only
    rw [if_pos h]
  · rfl

theorem admitTest_q_fails {lookup : Nat → Option IndexedDoc} {inCand : Nat → Bool}
    {cur : Option SearchCursor} {q : Option String} {extraOk : IndexedDoc → Bool}
    {d : Nat} {doc : IndexedDoc} (hl : lookup d = some doc)
    (h : qFails q doc = true) :
    admitTest lookup inCand cur q extraOk d = none := by
  unfold admitTest
  rw [hl]
  split
  · dsimp only
    by_cases hcf : cursorFails cur doc = true
    · rw [if_pos hcf]
    · rw [if_neg hcf, if_pos h]
  · rfl

theorem orderedInsert_strict_pairwise {rank : Nat → Option Nat} {L : List IndexedDoc}
    {c : IndexedDoc} {rc : Nat} (hc : rkv rank c = rc)
    (hL : L.Pairwise (fun x y => rkv rank x < rkv rank y))
    (hdist : ∀ x ∈ L, rkv rank x ≠ rc) :
    (L.orderedInsert (fun x y => rkv rank x ≤ rkv rank y) c).Pairwise
      (fun x y => rkv rank x < rkv rank y) := by
  haveI : IsTotal IndexedDoc (fun x y => rkv rank x ≤ rkv rank y) :=
    ⟨fun a b => le_total _ _⟩
  haveI : IsTrans IndexedDoc (fun x y => rkv rank x ≤ rkv rank y) :=
    ⟨fun a b c h1 h2 => le_trans h1 h2⟩
  have hsle : (L.orderedInsert (fun x y => rkv rank x ≤ rkv rank y) c).Sorted
      (fun x y => rkv rank x ≤ rkv rank y) :=
    List.Sorted.orderedInsert c L (hL.imp (fun h => le_of_lt h))
  have hne : (L.orderedInsert (fun x y => rkv rank x ≤ rkv rank y) c).Pairwise
      (fun x y => rkv rank x ≠ rkv rank y) := by
    refine ((List.perm_orderedInsert _ c L).pairwise_iff (fun h => Ne.symm h)).mpr ?_
    refine List.pairwise_cons.mpr ⟨?_, ?_⟩
    · intro y hy
      have := hdist y hy
      rw [hc]
      omega
    · exact hL.imp (fun h => by omega)
  have hcomb : (L.orderedInsert (fun x y => rkv rank x ≤ rkv rank y) c).Pairwise
      (fun x y => rkv rank x ≤ rkv rank y ∧ rkv rank x ≠ rkv rank y) :=
    List.Pairwise.and hsle hne
  exact hcomb.imp (fun h => by omega)


theorem selective_fold_inv {s : CoreState} (hwf : WF s) {cand : Finset Nat}
    {cur : Option SearchCursor} {q : Option String} {lim : Nat} :
    ∀ (todo : List Nat) (P : Nat → Bool),
      todo.Nodup → (∀ d ∈ todo, P d = false) →
      (∀ d ∈ todo, decide (d ∈ cand) = true) →
      todo.foldl
        (fun topDocs docId =>
          match docsLookup s docId with
          | none => topDocs
          | some indexed =>
            if cursorFails cur indexed then topDocs
            else if qFails q indexed then topDocs
            else insertTopDoc s.docSortRank topDocs indexed lim)
        ((admitted (docsLookup s) (fun d => decide (d ∈ cand) && P d) cur q
          (fun _ => true) s.updatedOrder).take lim) =
      (admitted (docsLookup s)
        (fun d => decide (d ∈ cand) && (P d || decide (d ∈ todo)))
        cur q (fun _ => true) s.updatedOrder).take lim := by
  intro todo
  induction todo with
  | nil =>
    intro P _ _ _
    rw [List.foldl_nil]
    have hfe : (fun d => decide (d ∈ cand) && (P d || decide (d ∈ ([] : List Nat)))) =
        (fun d => decide (d ∈ cand) && P d) := by
      funext d
      simp
    rw [hfe]
  | cons x rest ih =>
    intro P hnd hP hcand
    have hxcand : decide (x ∈ cand) = true := hcand x (List.mem_cons_self _ _)
    have hxP : P x = false := hP x (List.mem_cons_self _ _)
    have hxrest : x ∉ rest := (List.nodup_cons.mp hnd).1
    have hndr : rest.Nodup := (List.nodup_cons.mp hnd).2
    have hPr : ∀ d ∈ rest, P d = false := fun d hd => hP d (List.mem_cons_of_mem _ hd)
    have hcr : ∀ d ∈ rest, decide (d ∈ cand) = true :=
      fun d hd => hcand d (List.mem_cons_of_mem _ hd)
    rw [List.foldl_cons]
    cases hlook : docsLookup s x with
    | none =>
      dsimp only
      rw [ih P hndr hPr hcr]
      congr 1
      unfold admitted
      refine List.filterMap_congr ?_
      intro d _
      by_cases hdx : d = x
      · subst hdx
        rw [admitTest_lookup_none hlook, admitTest_lookup_none hlook]
      · refine admitTest_congr_inCand ?_
        simp [List.mem_cons, hdx]
    | some doc =>
      dsimp only
      by_cases hcf : cursorFails cur doc = true
      · rw [if_pos hcf]
        rw [ih P hndr hPr hcr]
        congr 1
        unfold admitted
        refine List.filterMap_congr ?_
        intro d _
        by_cases hdx : d = x
        · subst hdx
          rw [admitTest_cursor_fails hlook hcf, admitTest_cursor_fails hlook hcf]
        · refine admitTest_congr_inCand ?_
          simp [List.mem_cons, hdx]
      · rw [if_neg hcf]
        by_cases hqf : qFails q doc = true
        · rw [if_pos hqf]
          rw [ih P hndr hPr hcr]
          congr 1
          unfold admitted
          refine List.filterMap_congr ?_
          intro d _
          by_cases hdx : d = x
          · subst hdx
            rw [admitTest_q_fails hlook hqf, admitTest_q_fails hlook hqf]
          · refine admitTest_congr_inCand ?_
            simp [List.mem_cons, hdx]
        · rw [if_neg hqf]
          have hdid : doc.docId = x := wf_docId_of_lookup hwf hlook
          rcases wf_rank_isSome hwf hlook with ⟨rc, hrc⟩
          have hcdoc : s.docSortRank doc.docId = some rc := by
            rw [hdid]
            exact hrc
          have hrkvdoc : rkv s.docSortRank doc = rc := by
            unfold rkv
            rw [hcdoc]
            rfl
          set P' : Nat → Bool := fun d => P d || decide (d = x) with hP'
          set L := admitted (docsLookup s) (fun d => decide (d ∈ cand) && P d) cur q
            (fun _ => true) s.updatedOrder with hL
          have hLpw : L.Pairwise (fun a b => rkv s.docSortRank a < rkv s.docSortRank b) := by
            rw [hL]
            exact wf_admitted_rkv_pairwise hwf
          have hLlive : ∀ z ∈ L, docsLookup s z.docId = some z := by
            intro z hz
            rw [hL] at hz
            exact (wf_admitted_live hwf hz).1
          have hLP : ∀ z ∈ L, P z.docId = true := by
            intro z hz
            rw [hL] at hz
            have h2 := (wf_admitted_live hwf hz).2
            simp only [Bool.and_eq_true] at h2
            exact h2.2
          have hLsome : ∀ z ∈ L, ∃ i, s.docSortRank z.docId = some i := by
            intro z hz
            exact wf_rank_isSome hwf (hLlive z hz)
          have hLdist : ∀ z ∈ L, rkv s.docSortRank z ≠ rc := by
            intro z hz hzeq
            rcases hLsome z hz with ⟨i, hi⟩
            have hzi : rkv s.docSortRank z = i := by
              unfold rkv
              rw [hi]
              rfl
            have hieq : i = rc := by omega
            subst hieq
            have h1 : buildRank s.updatedOrder z.docId = some i := by
              rw [← hwf.rank]
              exact hi
            have h2 : buildRank s.updatedOrder x = some i := by
              rw [← hwf.rank]
              exact hrc
            have hzx : z.docId = x := buildRank_inj (wf_ord_nodup hwf) h1 h2
            have h3 := hLP z hz
            rw [hzx, hxP] at h3
            exact absurd h3 (by simp)
          have hstep : insertTopDoc s.docSortRank (L.take lim) doc lim =
              ((L.take lim).orderedInsert
                (fun a b => rkv s.docSortRank a ≤ rkv s.docSortRank b) doc).take lim := by
            refine insertTopDoc_eq_orderedInsert hcdoc ?_ ?_ ?_ ?_
            · exact List.Pairwise.sublist (List.take_sublist _ _) hLpw
            · intro z hz
              exact hLsome z (List.take_subset _ _ hz)
            · intro z hz
              exact hLdist z (List.take_subset _ _ hz)
            · rw [List.length_take]
              exact min_le_left _ _
          rw [hstep, take_orderedInsert]
          have hxord : x ∈ s.updatedOrder := (wf_mem_ord_iff hwf x).mpr ⟨doc, hlook⟩
          have hcf' : cursorFails cur doc = false := by
            cases hv : cursorFails cur doc
            · rfl
            · exact absurd hv hcf
          have hqf' : qFails q doc = false := by
            cases hv : qFails q doc
            · rfl
            · exact absurd hv hqf
          have hperm : (admitted (docsLookup s)
              (fun d => decide (d ∈ cand) && P' d) cur q
              (fun _ => true) s.updatedOrder).Perm (doc :: L) := by
            rw [hL]
            unfold admitted
            refine filterMap_perm_cons (wf_ord_nodup hwf) hxord ?_ ?_ ?_
            · refine admitTest_eq_some.mpr ⟨?_, hlook, hcf', hqf', rfl⟩
              rw [hP']
              dsimp only
              rw [hxcand, hxP]
              simp
            · refine admitTest_inCand_false ?_
              rw [hxP]
              simp
            · intro a _ hane
              refine admitTest_congr_inCand ?_
              rw [hP']
              dsimp only
              have hne : decide (a = x) = false := by
                simp [hane]
              rw [hne]
              simp
          have hP'pw : (admitted (docsLookup s)
              (fun d => decide (d ∈ cand) && P' d) cur q
              (fun _ => true) s.updatedOrder).Pairwise
              (fun a b => rkv s.docSortRank a < rkv s.docSortRank b) :=
            wf_admitted_rkv_pairwise hwf
          have hOpw := orderedInsert_strict_pairwise hrkvdoc hLpw hLdist
          have hordperm : (L.orderedInsert
              (fun a b => rkv s.docSortRank a ≤ rkv s.docSortRank b) doc).Perm
              (doc :: L) := List.perm_orderedInsert _ doc L
          have hFP' : admitted (docsLookup s)
              (fun d => decide (d ∈ cand) && P' d) cur q
              (fun _ => true) s.updatedOrder =
              L.orderedInsert (fun a b => rkv s.docSortRank a ≤ rkv s.docSortRank b)
                doc :=
            strictSorted_perm_eq (hperm.trans hordperm.symm) hP'pw hOpw
          rw [← hFP']
          have hih := ih P' hndr ?hp' ?hc'
          case hp' =>
            intro d hd
            rw [hP']
            dsimp only
            rw [hPr d hd]
            have hne : decide (d = x) = false := by
              simp
              intro he
              subst he
              exact hxrest hd
            rw [hne]
            rfl
          case hc' =>
            intro d hd
            exact hcr d hd
          rw [hih]
          congr 1
          unfold admitted
          refine List.filterMap_congr ?_
          intro d _
          refine admitTest_congr_inCand ?_
          rw [hP']
          dsimp only
          simp [List.mem_cons, Bool.or_assoc]


theorem finsetAscend_nodup (c : Finset Nat) : (finsetAscend c).Nodup :=
  (List.nodup_range _).filter _

theorem mem_finsetAscend_iff {c : Finset Nat} {d : Nat} :
    d ∈ finsetAscend c ↔ d ∈ c := by
  constructor
  · exact mem_finsetAscend
  · intro h
    unfold finsetAscend
    rw [List.mem_filter]
    refine ⟨List.mem_range.mpr ?_, decide_eq_true h⟩
    have := Finset.le_sup (f := id) h
    simp only [id] at this
    omega

theorem collectSelective_pageLoop {s : CoreState} (hwf : WF s) {cand : Finset Nat}
    {cur : Option SearchCursor} {q : Option String} {lim : Nat} (hlim : 1 ≤ lim) :
    collectSelectiveResults s cand cur q lim =
      pageLoop lim (admitted (docsLookup s) (fun d => decide (d ∈ cand)) cur q
        (fun _ => true) s.updatedOrder) := by
  have hbase : (admitted (docsLookup s)
      (fun d => decide (d ∈ cand) && (fun _ : Nat => false) d) cur q
      (fun _ => true) s.updatedOrder).take lim = ([] : List IndexedDoc) := by
    have hnil : admitted (docsLookup s)
        (fun d => decide (d ∈ cand) && (fun _ : Nat => false) d) cur q
        (fun _ => true) s.updatedOrder = [] := by
      unfold admitted
      rw [List.filterMap_eq_nil_iff]
      intro d _
      refine admitTest_inCand_false ?_
      simp
    rw [hnil, List.take_nil]
  have hinv := @selective_fold_inv s hwf cand cur q lim
    (finsetAscend cand) (fun _ => false)
    (finsetAscend_nodup cand) (fun _ _ => rfl)
    (fun d hd => decide_eq_true (mem_finsetAscend hd))
  rw [hbase] at hinv
  have h2 : admitted (docsLookup s)
      (fun d => decide (d ∈ cand) &&
        ((fun _ : Nat => false) d || decide (d ∈ finsetAscend cand))) cur q
      (fun _ => true) s.updatedOrder =
      admitted (docsLookup s) (fun d => decide (d ∈ cand)) cur q
        (fun _ => true) s.updatedOrder := by
    unfold admitted
    refine List.filterMap_congr ?_
    intro d _
    refine admitTest_congr_inCand ?_
    by_cases hdc : d ∈ cand
    · simp [hdc, mem_finsetAscend_iff]
    · simp [hdc]
  rw [h2] at hinv
  unfold collectSelectiveResults
  rw [hinv, emitLoop_pageLoop _ [] (by simpa using hlim)]
  rw [List.nil_append, List.length_nil, Nat.sub_zero, pageLoop_take hlim]


/-- The normalized free-text argument search passes to the collectors. -/
def searchQArg (o : CoreSearchOptions) : Option String :=
  if (match Option.map (fun v => strToLower (strTrim v)) o.q with
      | some v => !decide (v = "")
      | none => false) = true then
    Option.map (fun v => strToLower (strTrim v)) o.q
  else none

theorem search_two_pages {s : CoreState} (hwf : WF s) {f : Option FilterNode}
    {o : CoreSearchOptions} {r : Requester} {res : CoreSearchResult}
    (h : search s f o r = .ok res) :
    (res.items = [] ∧ res.next_cursor = none) ∨
    ∃ inC : Nat → Bool, ∃ qA : Option String,
      res.items = (pageLoop (min (max o.limit 1) 200)
        (admitted (docsLookup s) inC o.cursor qA (fun _ => true) s.updatedOrder)).1 ∧
      res.next_cursor = (pageLoop (min (max o.limit 1) 200)
        (admitted (docsLookup s) inC o.cursor qA (fun _ => true) s.updatedOrder)).2 ∧
      ∀ cur : SearchCursor,
        search s f { o with cursor := some cur } r =
          .ok ⟨(pageLoop (min (max o.limit 1) 200)
              (admitted (docsLookup s) inC (some cur) qA (fun _ => true)
                s.updatedOrder)).1,
            (pageLoop (min (max o.limit 1) 200)
              (admitted (docsLookup s) inC (some cur) qA (fun _ => true)
                s.updatedOrder)).2⟩ := by
  have hlim : 1 ≤ min (max o.limit 1) 200 := by omega
  have hlen0 : (([] : List CoreSearchHit)).length < min (max o.limit 1) 200 := by
    simp only [List.length_nil]
    omega
  simp only [search] at h
  by_cases hemp : getAllowedDocs s r = ∅
  · rw [if_pos hemp] at h
    injection h with h'
    rw [← h']
    exact Or.inl ⟨rfl, rfl⟩
  · rw [if_neg hemp] at h
    cases f with
    | none =>
      dsimp only at h
      injection h with h'
      right
      refine ⟨fun d => decide (d ∈ getAllowedDocs s r), searchQArg o, ?_, ?_, ?_⟩
      · rw [← h']
        dsimp only
        rw [scanLoop_pageLoop s.updatedOrder [] hlen0]
        simp only [List.length_nil, Nat.sub_zero, List.nil_append]
        rfl
      · rw [← h']
        dsimp only
        rw [scanLoop_pageLoop s.updatedOrder [] hlen0]
        simp only [List.length_nil, Nat.sub_zero]
        rfl
      · intro cur
        simp only [search]
        rw [if_neg hemp]
        rw [scanLoop_pageLoop s.updatedOrder [] hlen0]
        simp only [List.length_nil, Nat.sub_zero, List.nil_append]
        rfl
    | some ast =>
      dsimp only at h
      cases hev : evaluateFilterAst { getPosting := getPosting s, univ := s.univ } ast with
      | error e =>
        rw [hev] at h
        simp at h
      | ok c0 =>
        rw [hev] at h
        dsimp only at h
        by_cases hc0 : c0 = ∅
        · rw [if_pos hc0] at h
          injection h with h'
          rw [← h']
          exact Or.inl ⟨rfl, rfl⟩
        · rw [if_neg hc0] at h
          by_cases hci : c0 ∩ getAllowedDocs s r = ∅
          · rw [if_pos hci] at h
            injection h with h'
            rw [← h']
            exact Or.inl ⟨rfl, rfl⟩
          · rw [if_neg hci] at h
            by_cases hsel : ((decide ((c0 ∩ getAllowedDocs s r).card ≤
                SELECTIVE_RETRIEVAL_THRESHOLD)) ||
                (decide (0 < s.univ.card) &&
                  decide ((c0 ∩ getAllowedDocs s r).card ≤ s.univ.card / 100))) = true
            · rw [if_pos hsel] at h
              injection h with h'
              right
              refine ⟨fun d => decide (d ∈ c0 ∩ getAllowedDocs s r), searchQArg o, ?_, ?_, ?_⟩
              · rw [← h']
                dsimp only
                rw [collectSelective_pageLoop hwf hlim]
                rfl
              · rw [← h']
                dsimp only
                rw [collectSelective_pageLoop hwf hlim]
                rfl
              · intro cur
                simp only [search]
                rw [if_neg hemp]
                rw [hev]
                dsimp only
                rw [if_neg hc0, if_neg hci, if_pos hsel]
                rw [collectSelective_pageLoop hwf hlim]
                rfl
            · rw [if_neg hsel] at h
              injection h with h'
              right
              refine ⟨fun d => decide (d ∈ c0 ∩ getAllowedDocs s r), searchQArg o, ?_, ?_, ?_⟩
              · rw [← h']
                dsimp only
                unfold collectScanResults
                rw [scanLoop_pageLoop s.updatedOrder [] hlen0]
                simp only [List.length_nil, Nat.sub_zero, List.nil_append]
                rfl
              · rw [← h']
                dsimp only
                unfold collectScanResults
                rw [scanLoop_pageLoop s.updatedOrder [] hlen0]
                simp only [List.length_nil, Nat.sub_zero]
                rfl
              · intro cur
                simp only [search]
                rw [if_neg hemp]
                rw [hev]
                dsimp only
                rw [if_neg hc0, if_neg hci, if_neg hsel]
                unfold collectScanResults
                rw [scanLoop_pageLoop s.updatedOrder [] hlen0]
                simp only [List.length_nil, Nat.sub_zero, List.nil_append]
                rfl


/-! Re-issuing a search with the returned cursor restricts the admitted list
to the docs strictly after the previous page -/

theorem admitTest_cursor_bind {lookup : Nat → Option IndexedDoc} {inCand : Nat → Bool}
    {c1 c2 : Option SearchCursor} {q : Option String} {extraOk : IndexedDoc → Bool}
    {d : Nat}
    (himp : ∀ doc : IndexedDoc, cursorFails c2 doc = false → cursorFails c1 doc = false) :
    admitTest lookup inCand c2 q extraOk d =
      (admitTest lookup inCand c1 q extraOk d).bind
        (fun doc => if cursorFails c2 doc = true then none else some doc) := by
  unfold admitTest
  by_cases hc : inCand d = true
  · rw [if_pos hc, if_pos hc]
    cases hl : lookup d with
    | none => rfl
    | some doc =>
      dsimp only
      by_cases h2 : cursorFails c2 doc = true
      · rw [if_pos h2]
        by_cases h1 : cursorFails c1 doc = true
        · rw [if_pos h1]
          rfl
        · rw [if_neg h1]
          by_cases hq : qFails q doc = true
          · rw [if_pos hq]
            rfl
          · rw [if_neg hq]
            by_cases he : extraOk doc = true
            · rw [if_pos he, Option.some_bind, if_pos h2]
            · rw [if_neg he]
              rfl
      · have h1 : cursorFails c1 doc = false := by
          refine himp doc ?_
          cases hv : cursorFails c2 doc
          · rfl
          · exact absurd hv h2
        have hn1 : ¬cursorFails c1 doc = true := by
          rw [h1]
          simp
        rw [if_neg h2, if_neg hn1]
        by_cases hq : qFails q doc = true
        · rw [if_pos hq]
          rfl
        · rw [if_neg hq]
          by_cases he : extraOk doc = true
          · rw [if_pos he, Option.some_bind, if_neg h2]
          · rw [if_neg he]
            rfl
  · rw [if_neg hc, if_neg hc]
    rfl

theorem filterMap_ite_filter (p : IndexedDoc → Bool) :
    ∀ l : List IndexedDoc,
      l.filterMap (fun doc => if p doc = true then none else some doc) =
        l.filter (fun doc => !p doc) := by
  intro l
  induction l with
  | nil => rfl
  | cons a t ih =>
    by_cases ha : p a = true
    · rw [List.filterMap_cons_none (by rw [if_pos ha]),
        List.filter_cons_of_neg (by rw [ha]; simp), ih]
    · have ha' : p a = false := by
        cases hv : p a
        · rfl
        · exact absurd hv ha
      rw [List.filterMap_cons_some (f := fun doc => if p doc = true then none else some doc)
        (by dsimp only; rw [if_neg ha]),
        List.filter_cons_of_pos (by rw [ha']; simp), ih]

theorem admitted_cursor_drop {lookup : Nat → Option IndexedDoc} {inCand : Nat → Bool}
    {c1 : Option SearchCursor} {q : Option String} {extraOk : IndexedDoc → Bool}
    {order : List Nat} {cur : SearchCursor}
    (himp : ∀ doc : IndexedDoc, cursorFails (some cur) doc = false →
      cursorFails c1 doc = false) :
    admitted lookup inCand (some cur) q extraOk order =
      (admitted lookup inCand c1 q extraOk order).filter
        (fun doc => !cursorFails (some cur) doc) := by
  unfold admitted
  rw [← filterMap_ite_filter, List.filterMap_filterMap]
  refine List.filterMap_congr ?_
  intro d _
  exact admitTest_cursor_bind himp


theorem admitted_mem_cursorFails {lookup : Nat → Option IndexedDoc} {inCand : Nat → Bool}
    {c1 : Option SearchCursor} {q : Option String} {extraOk : IndexedDoc → Bool}
    {order : List Nat} {x : IndexedDoc}
    (h : x ∈ admitted lookup inCand c1 q extraOk order) : cursorFails c1 x = false := by
  rcases List.mem_filterMap.mp h with ⟨d, -, ht⟩
  exact (admitTest_eq_some.mp ht).2.2.1

theorem sorted_filter_after_drop {A : List IndexedDoc} {lim : Nat}
    (hpw : A.Pairwise (fun x y => compareSortKeys x.entry.updated_at x.entry.id
      y.entry.updated_at y.entry.id < 0))
    (hlim : 1 ≤ lim) (hle : lim ≤ A.length) {c : IndexedDoc}
    (hc : A[lim - 1]? = some c) :
    A.filter (fun doc => !cursorFails (some (cursorOfDoc c)) doc) = A.drop lim := by
  have hpred : ∀ doc : IndexedDoc, (!cursorFails (some (cursorOfDoc c)) doc) =
      isAfterCursor doc.entry.updated_at doc.entry.id (cursorOfDoc c) := by
    intro doc
    simp only [cursorFails, Bool.not_not]
  have htake : ∀ x ∈ A.take lim, compareSortKeys x.entry.updated_at x.entry.id
      c.entry.updated_at c.entry.id ≤ 0 := by
    intro x hx
    have hdecomp : A.take lim = A.take (lim - 1) ++ [c] := by
      have h1 : lim = (lim - 1) + 1 := by omega
      rw [h1, List.take_succ]
      have h2 : lim - 1 + 1 - 1 = lim - 1 := by omega
      rw [h2, hc]
      rfl
    have hpwt : (A.take lim).Pairwise (fun x y => compareSortKeys x.entry.updated_at
        x.entry.id y.entry.updated_at y.entry.id < 0) :=
      List.Pairwise.sublist (List.take_sublist _ _) hpw
    rw [hdecomp] at hpwt hx
    rcases List.mem_append.mp hx with hx1 | hx1
    · rcases List.pairwise_append.mp hpwt with ⟨-, -, hcross⟩
      exact le_of_lt (hcross x hx1 c (List.mem_singleton_self c))
    · rw [List.mem_singleton.mp hx1]
      rw [compare_self]
  have hdrop : ∀ x ∈ A.drop lim, compareSortKeys c.entry.updated_at c.entry.id
      x.entry.updated_at x.entry.id < 0 := by
    intro x hx
    have hlt1 : lim - 1 < A.length := by omega
    have hdecomp : A.drop (lim - 1) = c :: A.drop lim := by
      rw [List.drop_eq_getElem_cons hlt1]
      have h2 : lim - 1 + 1 = lim := by omega
      rw [h2]
      have h3 : A[lim - 1] = c := by
        have := List.getElem?_eq_getElem hlt1
        rw [hc] at this
        injection this with h4
        exact h4.symm
      rw [h3]
    have hpwd : (A.drop (lim - 1)).Pairwise (fun x y => compareSortKeys x.entry.updated_at
        x.entry.id y.entry.updated_at y.entry.id < 0) :=
      List.Pairwise.sublist (List.drop_sublist _ _) hpw
    rw [hdecomp] at hpwd
    exact (List.pairwise_cons.mp hpwd).1 x hx
  conv_lhs => rw [← List.take_append_drop lim A]
  rw [List.filter_append]
  have h1 : (A.take lim).filter (fun doc => !cursorFails (some (cursorOfDoc c)) doc) =
      [] := by
    rw [List.filter_eq_nil_iff]
    intro x hx
    rw [hpred x]
    intro hcontra
    have h2 := isAfter_iff.mp hcontra
    exact absurd h2 (compare_le_not_swap_lt (htake x hx))
  have h2 : (A.drop lim).filter (fun doc => !cursorFails (some (cursorOfDoc c)) doc) =
      A.drop lim := by
    rw [List.filter_eq_self]
    intro x hx
    rw [hpred x]
    exact isAfter_iff.mpr (hdrop x hx)
  rw [h1, h2, List.nil_append]


theorem cursorFails_some_false {z : SearchCursor} {doc : IndexedDoc} :
    cursorFails (some z) doc = false ↔
      isAfterCursor doc.entry.updated_at doc.entry.id z = true := by
  simp [cursorFails]

/-- C5: the cursor predicate admits a doc exactly when its key is strictly
below the cursor key in the `(updated_at desc, id desc)` order, and re-issuing
a search whose page was non-final with the returned cursor yields exactly the
next page of the same admitted-doc list — the next up-to-`limit` items in sort
order, never re-including an item of the previous page. -/
theorem c5_cursor_roundtrip {s : CoreState} (hs : Reachable s)
    {f : Option FilterNode} {o : CoreSearchOptions} {r : Requester}
    {res : CoreSearchResult} {cur : SearchCursor}
    (h1 : search s f o r = .ok res) (h2 : res.next_cursor = some cur) :
    (∀ u i c, isAfterCursor u i c = true ↔
      (strLt u c.updated_at = true ∨ (u = c.updated_at ∧ strLt i c.id = true))) ∧
    ∃ res2, ∃ adm : List IndexedDoc,
      search s f { o with cursor := some cur } r = .ok res2 ∧
      adm.Pairwise (fun x y => compareSortKeys x.entry.updated_at x.entry.id
        y.entry.updated_at y.entry.id < 0) ∧
      res.items = (adm.take (min (max o.limit 1) 200)).map mkHit ∧
      res2.items = ((adm.drop (min (max o.limit 1) 200)).take
        (min (max o.limit 1) 200)).map mkHit ∧
      (∀ hit ∈ res2.items, hit ∉ res.items) := by
  have hwf := reachable_wf hs
  have hlim : 1 ≤ min (max o.limit 1) 200 := by omega
  refine ⟨fun u i c => isAfter_iff.trans compare_lt_iff, ?_⟩
  rcases search_two_pages hwf h1 with ⟨-, hnone⟩ | ⟨inC, qA, hitems, hcurs, hsecond⟩
  · rw [hnone] at h2
    exact absurd h2 (by simp)
  · set lim := min (max o.limit 1) 200 with hlimdef
    set A := admitted (docsLookup s) inC o.cursor qA (fun _ => true) s.updatedOrder
      with hA
    have hApw : A.Pairwise (fun x y => compareSortKeys x.entry.updated_at x.entry.id
        y.entry.updated_at y.entry.id < 0) := by
      rw [hA]
      exact wf_admitted_key_pairwise hwf
    rw [hcurs, pageLoop_cursor A lim hlim] at h2
    by_cases hle : lim ≤ A.length
    swap
    · rw [if_neg hle] at h2
      exact absurd h2 (by simp)
    rw [if_pos hle] at h2
    cases hgl : A[lim - 1]? with
    | none =>
      rw [hgl] at h2
      exact absurd h2 (by simp)
    | some c =>
      rw [hgl] at h2
      injection h2 with h2'
      subst h2'
      have hcmem : c ∈ A := by
        rcases List.getElem?_eq_some.mp hgl with ⟨hb, he⟩
        rw [← he]
        exact List.getElem_mem hb
      have hcpass : cursorFails o.cursor c = false := by
        rw [hA] at hcmem
        exact admitted_mem_cursorFails hcmem
      have himp : ∀ doc : IndexedDoc, cursorFails (some (cursorOfDoc c)) doc = false →
          cursorFails o.cursor doc = false := by
        intro doc hpass
        have hd2 := isAfter_iff.mp (cursorFails_some_false.mp hpass)
        simp only [cursorOfDoc] at hd2
        cases hoc : o.cursor with
        | none => rfl
        | some oc =>
          rw [hoc] at hcpass
          have hc1 := isAfter_iff.mp (cursorFails_some_false.mp hcpass)
          exact cursorFails_some_false.mpr (isAfter_iff.mpr (compare_lt_trans hc1 hd2))
      have hsplit : admitted (docsLookup s) inC (some (cursorOfDoc c)) qA (fun _ => true)
          s.updatedOrder = A.drop lim := by
        rw [admitted_cursor_drop himp, ← hA]
        exact sorted_filter_after_drop hApw hlim hle hgl
      refine ⟨_, A, hsecond (cursorOfDoc c), hApw, ?_, ?_, ?_⟩
      · rw [hitems, pageLoop_items A lim hlim]
      · dsimp only
        rw [hsplit, pageLoop_items (A.drop lim) lim hlim]
      · dsimp only
        rw [hsplit, pageLoop_items (A.drop lim) lim hlim, hitems,
          pageLoop_items A lim hlim]
        intro hit hmem2 hmem1
        rcases List.mem_map.mp hmem1 with ⟨x, hx, hxe⟩
        rcases List.mem_map.mp hmem2 with ⟨y, hy, hye⟩
        have hyd : y ∈ A.drop lim := List.take_subset _ _ hy
        have hpw2 : (A.take lim ++ A.drop lim).Pairwise
            (fun x y => compareSortKeys x.entry.updated_at x.entry.id
              y.entry.updated_at y.entry.id < 0) := by
          rw [List.take_append_drop]
          exact hApw
        rcases List.pairwise_append.mp hpw2 with ⟨-, -, hcr⟩
        have hcross := hcr x hx y hyd
        have hent : x.entry = y.entry := by
          have hmk : mkHit x = mkHit y := by
            rw [hxe, hye]
          exact congrArg CoreSearchHit.entry hmk
        rw [hent, compare_self] at hcross
        exact absurd hcross (by omega)


theorem c5_cursor_roundtrip_witness :
    Reachable sampleState ∧
    ∃ res res2 : CoreSearchResult,
      search sampleState none ⟨1, none, none⟩ anonRequester = .ok res ∧
      res.next_cursor = some ⟨"2026-01-03T00:00:00.000Z", "A"⟩ ∧
      search sampleState none
        ⟨1, some ⟨"2026-01-03T00:00:00.000Z", "A"⟩, none⟩ anonRequester = .ok res2 ∧
      ∀ hit ∈ res2.items, hit ∉ res.items := by
  have hreach : Reachable sampleState :=
    Reachable.snapshot [entryA, entryB, entryRestricted] Reachable.init
  have h1 : search sampleState none ⟨1, none, none⟩ anonRequester =
      .ok ⟨[mkHit (buildIndexedDoc 1 entryA)],
        some ⟨"2026-01-03T00:00:00.000Z", "A"⟩⟩ := by decide
  have h2 : ((⟨[mkHit (buildIndexedDoc 1 entryA)],
      some ⟨"2026-01-03T00:00:00.000Z", "A"⟩⟩ : CoreSearchResult)).next_cursor =
      some ⟨"2026-01-03T00:00:00.000Z", "A"⟩ := rfl
  have h := c5_cursor_roundtrip hreach h1 h2
  rcases h.2 with ⟨res2, adm, hs2, -, -, -, hdisj⟩
  exact ⟨hreach, _, res2, h1, rfl, hs2, hdisj⟩


/-! The precomputed visibility bitmaps agree with the per-doc `canSee` check -/

theorem getAllowedDocs_mem {s : CoreState} {r : Requester} {d : Nat} :
    d ∈ getAllowedDocs s r ↔
      d ∈ s.visibilityPublic ∨
      (r.isAuthenticated = true ∧ d ∈ s.visibilityInternal) ∨
      (r.isAuthenticated = true ∧ ∃ g ∈ r.groups, d ∈ s.groupToPosting g) := by
  unfold getAllowedDocs
  cases hauth : r.isAuthenticated with
  | false => simp [hauth]
  | true =>
    by_cases hg : r.groups.card = 0
    · have hge : r.groups = ∅ := Finset.card_eq_zero.mp hg
      simp [hauth, hg, hge, Finset.mem_union]
    · simp [hauth, hg, Finset.mem_union, Finset.mem_sup]

theorem canSee_iff {entry : EntryRecord} {r : Requester} :
    canSee entry r = true ↔
      readVisibility entry.attrs = .pub ∨
      (readVisibility entry.attrs = .internal ∧ r.isAuthenticated = true) ∨
      (readVisibility entry.attrs = .restricted ∧ r.isAuthenticated = true ∧
        ∃ g ∈ r.groups, g ∈ allowedGroupList entry.attrs) := by
  unfold canSee
  cases hv : readVisibility entry.attrs with
  | pub => simp [hv]
  | internal => cases hauth : r.isAuthenticated <;> simp [hv, hauth]
  | restricted =>
    cases hauth : r.isAuthenticated with
    | false => simp [hv, hauth]
    | true =>
      dsimp only
      by_cases hc : (allowedGroupList entry.attrs).toFinset.card = 0
      · have hce : (allowedGroupList entry.attrs).toFinset = ∅ :=
          Finset.card_eq_zero.mp hc
        have hnone : ∀ g, g ∉ allowedGroupList entry.attrs := by
          intro g hg
          have := List.mem_toFinset.mpr hg
          rw [hce] at this
          simp at this
        simp [hauth, hc, hv]
        intro g hg hmem
        exact hnone g hmem
      · simp [hauth, hc, hv, List.mem_toFinset]

theorem wf_allowed_iff_canSee {s : CoreState} (hwf : WF s) (r : Requester)
    {d : Nat} {doc : IndexedDoc} (hdoc : docsLookup s d = some doc) :
    d ∈ getAllowedDocs s r ↔ canSee doc.entry r = true := by
  rw [getAllowedDocs_mem, canSee_iff]
  constructor
  · rintro (hp | ⟨hauth, hi⟩ | ⟨hauth, g, hgmem, hgp⟩)
    · rcases (hwf.visPub d).mp hp with ⟨doc', hdoc', hv⟩
      rw [hdoc] at hdoc'
      injection hdoc' with he
      subst he
      exact Or.inl hv
    · rcases (hwf.visInt d).mp hi with ⟨doc', hdoc', hv⟩
      rw [hdoc] at hdoc'
      injection hdoc' with he
      subst he
      exact Or.inr (Or.inl ⟨hv, hauth⟩)
    · rcases (hwf.visGroup d g).mp hgp with ⟨doc', hdoc', hv, hgl⟩
      rw [hdoc] at hdoc'
      injection hdoc' with he
      subst he
      exact Or.inr (Or.inr ⟨hv, hauth, g, hgmem, hgl⟩)
  · rintro (hv | ⟨hv, hauth⟩ | ⟨hv, hauth, g, hgmem, hgl⟩)
    · exact Or.inl ((hwf.visPub d).mpr ⟨doc, hdoc, hv⟩)
    · exact Or.inr (Or.inl ⟨hauth, (hwf.visInt d).mpr ⟨doc, hdoc, hv⟩⟩)
    · exact Or.inr (Or.inr ⟨hauth, g, hgmem,
        (hwf.visGroup d g).mpr ⟨doc, hdoc, hv, hgl⟩⟩)

/-! Bridging the naive scan to the admitted-list/page normal form -/

theorem wf_univ_of_lookup {s : CoreState} (hwf : WF s) {d : Nat} {doc : IndexedDoc}
    (h : docsLookup s d = some doc) : d ∈ s.univ := by
  rw [hwf.univEq]
  unfold docsLookup at h
  exact List.mem_toFinset.mpr (List.mem_map.mpr ⟨(d, doc), mapLookup_some_mem h, rfl⟩)

theorem wf_allowed_subset_univ {s : CoreState} (hwf : WF s) (r : Requester) :
    getAllowedDocs s r ⊆ s.univ := by
  intro d hd
  rw [getAllowedDocs_mem] at hd
  rcases hd with hp | ⟨-, hi⟩ | ⟨-, g, -, hg⟩
  · rcases (hwf.visPub d).mp hp with ⟨doc, hdoc, -⟩
    exact wf_univ_of_lookup hwf hdoc
  · rcases (hwf.visInt d).mp hi with ⟨doc, hdoc, -⟩
    exact wf_univ_of_lookup hwf hdoc
  · rcases (hwf.visGroup d g).mp hg with ⟨doc, hdoc, -⟩
    exact wf_univ_of_lookup hwf hdoc

theorem wf_admitTest_canSee {s : CoreState} (hwf : WF s) (r : Requester)
    (cur : Option SearchCursor) (qA : Option String) (cand : Finset Nat) (d : Nat) :
    admitTest (docsLookup s) (fun d => decide (d ∈ cand)) cur qA
      (fun doc => canSee doc.entry r) d =
    admitTest (docsLookup s) (fun d => decide (d ∈ cand ∩ getAllowedDocs s r)) cur qA
      (fun _ => true) d := by
  refine Option.ext fun doc => ?_
  rw [Option.mem_def, Option.mem_def, admitTest_eq_some, admitTest_eq_some]
  constructor
  · rintro ⟨hc, hl, h1, h2, h3⟩
    have hall : d ∈ getAllowedDocs s r := (wf_allowed_iff_canSee hwf r hl).mpr h3
    exact ⟨decide_eq_true (Finset.mem_inter.mpr ⟨of_decide_eq_true hc, hall⟩),
      hl, h1, h2, rfl⟩
  · rintro ⟨hc, hl, h1, h2, -⟩
    rcases Finset.mem_inter.mp (of_decide_eq_true hc) with ⟨hcd, hall⟩
    exact ⟨decide_eq_true hcd, hl, h1, h2,
      (wf_allowed_iff_canSee hwf r hl).mp hall⟩

theorem wf_admitted_canSee {s : CoreState} (hwf : WF s) (r : Requester)
    (cur : Option SearchCursor) (qA : Option String) (cand : Finset Nat)
    (order : List Nat) :
    admitted (docsLookup s) (fun d => decide (d ∈ cand)) cur qA
      (fun doc => canSee doc.entry r) order =
    admitted (docsLookup s) (fun d => decide (d ∈ cand ∩ getAllowedDocs s r)) cur qA
      (fun _ => true) order := by
  unfold admitted
  exact List.filterMap_congr fun d _ => wf_admitTest_canSee hwf r cur qA cand d

theorem naiveSearch_pageLoop {s : CoreState} {f : Option FilterNode}
    {o : CoreSearchOptions} {r : Requester} {cand : Finset Nat}
    (hev : (match f with
      | some ast => evaluateFilterAst { getPosting := getPosting s, univ := s.univ } ast
      | none => Except.ok s.univ) = Except.ok cand) :
    naiveSearch (toNaive s) f o r =
      .ok ⟨(pageLoop (min (max o.limit 1) 200)
          (admitted (docsLookup s) (fun d => decide (d ∈ cand)) o.cursor (searchQArg o)
            (fun doc => canSee doc.entry r) s.updatedOrder)).1,
        (pageLoop (min (max o.limit 1) 200)
          (admitted (docsLookup s) (fun d => decide (d ∈ cand)) o.cursor (searchQArg o)
            (fun doc => canSee doc.entry r) s.updatedOrder)).2⟩ := by
  have hlen0 : (([] : List CoreSearchHit)).length < min (max o.limit 1) 200 := by
    simp only [List.length_nil]
    omega
  cases f with
  | none =>
    have hev' : (Except.ok s.univ : Except FilterError (Finset Nat)) = .ok cand := hev
    injection hev' with hc
    subst hc
    simp only [naiveSearch]
    rw [scanLoop_pageLoop ((toNaive s).updatedOrder) [] hlen0]
    simp only [List.length_nil, Nat.sub_zero, List.nil_append]
    rfl
  | some ast =>
    have hev' : evaluateFilterAst { getPosting := getPosting s, univ := s.univ } ast
        = .ok cand := hev
    have hctx : ({ getPosting := naiveGetPosting (toNaive s), univ := (toNaive s).univ } :
        EvalContext) = { getPosting := getPosting s, univ := s.univ } := rfl
    simp only [naiveSearch]
    rw [hctx, hev']
    dsimp only
    rw [scanLoop_pageLoop ((toNaive s).updatedOrder) [] hlen0]
    simp only [List.length_nil, Nat.sub_zero, List.nil_append]
    rfl


/-- C1 (amended): whenever the filter is absent or evaluates without an
`invalid_filter` error, the optimized `search` — precomputed visibility
bitmaps, candidate intersection, and either the selective top-k buffer or the
ordered scan — returns exactly the result of the naive per-doc
`canSee(doc, R) ∧ eval(F, doc)` scan over the same state: same items, same
order, same next cursor. (When the filter would throw but no doc is visible to
the requester, the optimized path returns an empty ok-result before evaluating
the filter, while the naive scan throws; see the counterexample.) -/
theorem c1_search_refines_naive {s : CoreState} (hs : Reachable s)
    {f : Option FilterNode} (o : CoreSearchOptions) (r : Requester)
    (hok : f = none ∨ ∃ ast c0, f = some ast ∧
      evaluateFilterAst { getPosting := getPosting s, univ := s.univ } ast =
        Except.ok c0) :
    naiveSearch (toNaive s) f o r = search s f o r := by
  have hwf := reachable_wf hs
  have hlim : 1 ≤ min (max o.limit 1) 200 := by omega
  have hlen0 : (([] : List CoreSearchHit)).length < min (max o.limit 1) 200 := by
    simp only [List.length_nil]
    omega
  have hev : ∃ cand : Finset Nat, (match f with
      | some ast => evaluateFilterAst { getPosting := getPosting s, univ := s.univ } ast
      | none => Except.ok s.univ) = Except.ok cand := by
    rcases hok with h | ⟨ast, c0, hf, he⟩
    · exact ⟨s.univ, by rw [h]⟩
    · exact ⟨c0, by rw [hf]; exact he⟩
  rcases hev with ⟨cand, hev⟩
  rw [naiveSearch_pageLoop hev,
    wf_admitted_canSee hwf r o.cursor (searchQArg o) cand s.updatedOrder]
  simp only [search]
  by_cases hemp : getAllowedDocs s r = ∅
  · rw [if_pos hemp]
    have hA : admitted (docsLookup s)
        (fun d => decide (d ∈ cand ∩ getAllowedDocs s r)) o.cursor (searchQArg o)
        (fun _ => true) s.updatedOrder = [] := by
      unfold admitted
      rw [List.filterMap_eq_nil_iff]
      intro d _
      refine admitTest_inCand_false ?_
      simp [hemp]
    rw [hA]
    rfl
  · rw [if_neg hemp]
    cases f with
    | none =>
      have hev' : (Except.ok s.univ : Except FilterError (Finset Nat)) =
          Except.ok cand := hev
      injection hev' with hc
      subst hc
      dsimp only
      rw [scanLoop_pageLoop s.updatedOrder [] hlen0]
      simp only [List.length_nil, Nat.sub_zero, List.nil_append]
      have hint : s.univ ∩ getAllowedDocs s r = getAllowedDocs s r :=
        Finset.inter_eq_right.mpr (wf_allowed_subset_univ hwf r)
      have hadm : admitted (docsLookup s)
          (fun d => decide (d ∈ s.univ ∩ getAllowedDocs s r)) o.cursor (searchQArg o)
          (fun _ => true) s.updatedOrder =
          admitted (docsLookup s)
            (fun d => decide (d ∈ getAllowedDocs s r)) o.cursor (searchQArg o)
            (fun _ => true) s.updatedOrder := by
        unfold admitted
        refine List.filterMap_congr fun d _ => admitTest_congr_inCand ?_
        rw [hint]
      rw [hadm]
      rfl
    | some ast =>
      have hev' : evaluateFilterAst { getPosting := getPosting s, univ := s.univ } ast
          = Except.ok cand := hev
      dsimp only
      rw [hev']
      dsimp only
      by_cases hc0 : cand = ∅
      · rw [if_pos hc0]
        have hA : admitted (docsLookup s)
            (fun d => decide (d ∈ cand ∩ getAllowedDocs s r)) o.cursor (searchQArg o)
            (fun _ => true) s.updatedOrder = [] := by
          unfold admitted
          rw [List.filterMap_eq_nil_iff]
          intro d _
          refine admitTest_inCand_false ?_
          simp [hc0]
        rw [hA]
        rfl
      · rw [if_neg hc0]
        by_cases hci : cand ∩ getAllowedDocs s r = ∅
        · rw [if_pos hci]
          have hA : admitted (docsLookup s)
              (fun d => decide (d ∈ cand ∩ getAllowedDocs s r)) o.cursor (searchQArg o)
              (fun _ => true) s.updatedOrder = [] := by
            unfold admitted
            rw [List.filterMap_eq_nil_iff]
            intro d _
            refine admitTest_inCand_false ?_
            simp [hci]
          rw [hA]
          rfl
        · rw [if_neg hci]
          by_cases hsel : ((decide ((cand ∩ getAllowedDocs s r).card ≤
              SELECTIVE_RETRIEVAL_THRESHOLD)) ||
              (decide (0 < s.univ.card) &&
                decide ((cand ∩ getAllowedDocs s r).card ≤ s.univ.card / 100))) = true
          · rw [if_pos hsel, collectSelective_pageLoop hwf hlim]
            rfl
          · rw [if_neg hsel]
            unfold collectScanResults
            rw [scanLoop_pageLoop s.updatedOrder [] hlen0]
            simp only [List.length_nil, Nat.sub_zero, List.nil_append]
            rfl

/-- C1 counterexample: on the empty index (no doc visible to the anonymous
requester) the optimized search returns an empty ok-result without evaluating
the filter, while the naive scan evaluates the filter first; for the key
"attrs." (empty attribute key) the naive variant therefore throws
`invalid_filter` where the optimized variant succeeds. -/
theorem c1_counterexample :
    search initState (some (FilterNode.eq "attrs." "v")) ⟨20, none, none⟩
        anonRequester = .ok ⟨[], none⟩ ∧
      naiveSearch (toNaive initState) (some (FilterNode.eq "attrs." "v"))
          ⟨20, none, none⟩ anonRequester =
        .error (invalidFilter "Attribute key must not be empty.") := by
  exact ⟨by decide, by decide⟩

theorem c1_search_refines_naive_witness :
    naiveSearch (toNaive sampleState) none ⟨20, none, none⟩ anonRequester =
      search sampleState none ⟨20, none, none⟩ anonRequester :=
  c1_search_refines_naive
    (Reachable.snapshot [entryA, entryB, entryRestricted] Reachable.init)
    ⟨20, none, none⟩ anonRequester (Or.inl rfl)

end Eldapo
